import Mathlib

/-!
# Verification of the `kvschool` LSM key-value storage engine

A shallow embedding, in Lean 4, of the Go packages
`internal/bloom`, `internal/wal`, `internal/skiplist`, `internal/sstable`
and `internal/lsm` of the repository, together with theorems settling the
specification's claims about them.

Conventions of the embedding:
* Go byte slices (`[]byte`) become `List Nat`, each element a byte value;
  machine arithmetic that can overflow is made explicit with `% 2 ^ 64`
  (FNV hashing) and `% 2 ^ 32` (4-byte length prefixes).
* Files become `List Nat` byte streams; reading at an offset is `List.drop`.
* Fallible Go functions returning `error` become functions returning
  `Option`/`Except` or an explicit error component.
* The skip list's pointer heap becomes an explicit store (`List Node`) with
  `Option Nat` indices in place of pointers; `nil` pointers are `none`.
  The `math/rand` level generator is abstracted as a stream of coin flips
  (`List Bool`), one flip per iteration of the Go promotion loop, so every
  sequence of levels the real generator can produce is covered.
* Go `for` loops over pointer chains are given explicit fuel; on every
  well-formed state the fuel is large enough that the embedded loop and the
  Go loop agree.
-/

namespace bloom

/-- FNV-64a offset basis (Go `hash/fnv`). -/
def fnvOffset : Nat := 14695981039346656037

/-- FNV-64a prime (Go `hash/fnv`). -/
def fnvPrime : Nat := 1099511628211

/-- One `Write` of `data` into a fresh FNV-64a hasher followed by `Sum64`:
for each byte, xor it in and multiply by the prime, in 64-bit arithmetic. -/
def fnv64a (data : List Nat) : Nat :=
  data.foldl (fun h b => ((h ^^^ b) * fnvPrime) % 2 ^ 64) fnvOffset

/-- `bloom.Filter`: bit array, its size, and the list of hash functions. -/
structure Filter where
  bitSet : List Bool
  size : Nat
  hashes : List (List Nat → Nat)

/-- `bloom.New(size, hashesc)`: a cleared bit array of `size` bits and
`hashesc` hash slots, every one of them an unseeded FNV-64a hasher. -/
def New (size : Nat) (hashesc : Nat) : Filter :=
  { bitSet := List.replicate size false
    size := size
    hashes := List.replicate hashesc fnv64a }

/-- `Filter.Add`: for each hash slot, set the bit at `hash(key) % size`.
Each slot is reset before use, so a slot is just its hash function. -/
def Filter.Add (f : Filter) (str : List Nat) : Filter :=
  { f with bitSet := f.hashes.foldl (fun bs hf => bs.set (hf str % f.size) true) f.bitSet }

/-- `Filter.MayContain`: false as soon as one computed bit is unset,
true only when every computed bit is set. -/
def Filter.MayContain (f : Filter) (str : List Nat) : Bool :=
  f.hashes.all (fun hf => f.bitSet.getD (hf str % f.size) false)

/-- Fold `Add` over a list of keys, oldest first. -/
def addAll (f : Filter) (keys : List (List Nat)) : Filter :=
  keys.foldl Filter.Add f

end bloom
/-- Go `bytes.Compare`: lexicographic byte-wise comparison, a strict prefix
compares less than the longer sequence. -/
def bytesCmp : List Nat → List Nat → Ordering
  | [], [] => .eq
  | [], _ :: _ => .lt
  | _ :: _, [] => .gt
  | a :: as, b :: bs => if a < b then .lt else if b < a then .gt else bytesCmp as bs

/-- `bytes.Compare(a, b) < 0` as a boolean. -/
def bytesLtB (a b : List Nat) : Bool := bytesCmp a b == .lt

/-- `bytes.Compare(a, b) <= 0` as a boolean. -/
def bytesLeB (a b : List Nat) : Bool := !(bytesCmp a b == .gt)

namespace wal

/-- `wal.OpPut`. -/
def OpPut : Nat := 1

/-- `wal.OpDelete`. -/
def OpDelete : Nat := 2

/-- `wal.Record`: a 1-byte type tag, a key, and (meaningful only for Put)
a value; Go's zero value `nil` for the value is the empty list. -/
structure Record where
  type : Nat
  key : List Nat
  value : List Nat
  deriving DecidableEq

/-- The 4 bytes of `binary.LittleEndian.PutUint32 n` (little endian of
`n % 2^32`, making the Go `uint32` truncation explicit). -/
def le32 (n : Nat) : List Nat :=
  [n % 256, n / 256 % 256, n / 2 ^ 16 % 256, n / 2 ^ 24 % 256]

/-- `binary.LittleEndian.Uint32` of the first four bytes. -/
def fromLE32 (b : List Nat) : Nat :=
  b.getD 0 0 + 256 * b.getD 1 0 + 2 ^ 16 * b.getD 2 0 + 2 ^ 24 * b.getD 3 0

/-- `wal.writeBytes`: a 4-byte little-endian length prefix, then the bytes. -/
def writeBytes (b : List Nat) : List Nat := le32 b.length ++ b

/-- `Writer.Append`: the bytes one append adds to the log (the buffered
writer is flushed before `Append` returns, so an append is exactly these
bytes): type tag, length-prefixed key, and for Put a length-prefixed value. -/
def Append (rec : Record) : List Nat :=
  rec.type % 256 :: writeBytes rec.key ++ (if rec.type = OpPut then writeBytes rec.value else [])

/-- The byte stream a sequence of `Append` calls produces. -/
def encodeList (rs : List Record) : List Nat := (rs.map Append).flatten

/-- `wal.readBytes`: read a 4-byte length, then that many bytes; `none`
models the error return (`io.EOF` or `io.ErrUnexpectedEOF` from `ReadFull`).
Returns the bytes read and the rest of the stream. -/
def readBytes (s : List Nat) : Option (List Nat × List Nat) :=
  if 4 ≤ s.length then
    if fromLE32 (s.take 4) ≤ (s.drop 4).length then
      some ((s.drop 4).take (fromLE32 (s.take 4)), (s.drop 4).drop (fromLE32 (s.take 4)))
    else none
  else none

/-- The three outcomes of `Reader.Next`: clean end of stream
(`false, nil` error), a read failure (`false`, non-nil error), or one
decoded record together with the remaining stream. -/
inductive NextResult where
  | eof
  | fail
  | ok (rec : Record) (rest : List Nat)
  deriving DecidableEq

/-- `Reader.Next` on the remaining byte stream. -/
def Next (s : List Nat) : NextResult :=
  match s with
  | [] => .eof
  | t :: rest =>
    match readBytes rest with
    | none => .fail
    | some (key, rest1) =>
      if t = OpPut then
        match readBytes rest1 with
        | none => .fail
        | some (val, rest2) => .ok ⟨t, key, val⟩ rest2
      else .ok ⟨t, key, []⟩ rest1

/-- Repeated `Reader.Next` until it stops, with fuel (each successful step
consumes at least one byte, so `length + 1` fuel always suffices): the
records decoded, and whether the stream ended cleanly (`true`) or with a
non-nil error (`false`). -/
def readAllAux : Nat → List Nat → List Record × Bool
  | 0, _ => ([], false)
  | fuel + 1, s =>
    match Next s with
    | .eof => ([], true)
    | .fail => ([], false)
    | .ok rec rest => (rec :: (readAllAux fuel rest).1, (readAllAux fuel rest).2)

/-- Reading a whole WAL byte stream record by record. -/
def readAll (s : List Nat) : List Record × Bool := readAllAux (s.length + 1) s

/-- What the reader can reconstruct of a record: a non-Put record's value
field is never written, so it reads back as `nil`. -/
def canon (r : Record) : Record := if r.type = OpPut then r else { r with value := [] }

/-- A record the engine can actually produce: a Put or Delete tag, and key
and value lengths that fit the 4-byte length prefix. -/
def WF (r : Record) : Prop :=
  (r.type = OpPut ∨ r.type = OpDelete) ∧ r.key.length < 2 ^ 32 ∧ r.value.length < 2 ^ 32

instance : DecidablePred WF := fun r => by unfold WF; infer_instance

end wal

namespace sstable

/-- `sstable.KeyValue`. -/
structure KeyValue where
  Key : List Nat
  Value : List Nat
  deriving DecidableEq

/-- `sstable.SparseIndex`: one block's first key, last key, byte size and
file offset. -/
structure SparseIndex where
  startKey : List Nat
  endKey : List Nat
  size : Nat
  offset : Nat
  deriving DecidableEq

/-- The 4 bytes `binary.Write(file, BigEndian, int32(n))` emits: big endian
of `n % 2^32` (the Go `int32` conversion wraps). -/
def be32 (n : Nat) : List Nat :=
  [n / 2 ^ 24 % 256, n / 2 ^ 16 % 256, n / 256 % 256, n % 256]

/-- `binary.Read(..., BigEndian, &int32)`: the signed 32-bit value of the
first four bytes. -/
def int32BE (b : List Nat) : Int :=
  let n : Nat := 2 ^ 24 * b.getD 0 0 + 2 ^ 16 * b.getD 1 0 + 256 * b.getD 2 0 + b.getD 3 0
  if n < 2 ^ 31 then (n : Int) else (n : Int) - 2 ^ 32

/-- The bytes serializing one key/value entry inside a block. -/
def encKV (kv : KeyValue) : List Nat :=
  be32 kv.Key.length ++ kv.Key ++ be32 kv.Value.length ++ kv.Value

/-- `SSTable.WriteBlock`: the bytes appended to the file for one block —
each entry in order: signed 4-byte key length, key, signed 4-byte value
length, value. -/
def WriteBlock (blockData : List KeyValue) : List Nat := (blockData.map encKV).flatten

/-- `binary.Read(..., BigEndian, &int32)` on the remaining stream: `none`
models the read error (`io.EOF` on an empty stream, `io.ErrUnexpectedEOF`
on a 1-3 byte remainder). -/
def readInt32 (s : List Nat) : Option (Int × List Nat) :=
  if s.length < 4 then none else some (int32BE (s.take 4), s.drop 4)

/-- One iteration plus recursion of `readBlockFromOffset`'s loop on the
remaining stream, with fuel. `none` models the error return; a short read
of key or value bytes near end-of-file is modelled as a failed read.
End-of-file before the key length, a non-positive key length, or a negative
value length all terminate the block normally (`io.EOF` on the key-length
read is the clean end; on the value-length read it is an error). -/
def readBlockAux : Nat → List Nat → Option (List KeyValue)
  | 0, _ => none
  | fuel + 1, s =>
    if s.length = 0 then some []
    else
      match readInt32 s with
      | none => none
      | some (kl, r1) =>
        if kl ≤ 0 then some []
        else if r1.length < kl.toNat then none
        else
          match readInt32 (r1.drop kl.toNat) with
          | none => none
          | some (vl, r3) =>
            if vl < 0 then some []
            else if r3.length < vl.toNat then none
            else
              match readBlockAux fuel (r3.drop vl.toNat) with
              | none => none
              | some kvs => some (⟨r1.take kl.toNat, r3.take vl.toNat⟩ :: kvs)

/-- `SSTable.readBlockFromOffset`: seek to `offset` and decode entries
until end of file or a terminator. -/
def readBlockFromOffset (file : List Nat) (offset : Nat) : Option (List KeyValue) :=
  readBlockAux (file.length + 1) (file.drop offset)

/-- The byte size `BuildSparseIndex` computes for a decoded block:
4 + key length + 4 + value length per entry. -/
def blockByteSize (kvs : List KeyValue) : Nat :=
  kvs.foldl (fun acc kv => acc + 4 + kv.Key.length + 4 + kv.Value.length) 0

/-- The loop of `SSTable.BuildSparseIndex`, with fuel: decode the block at
`offset`, record (first key, last key, size, offset), continue at
`offset + size` until an empty block. -/
def buildSparseAux (file : List Nat) : Nat → Nat → Option (List SparseIndex)
  | 0, _ => none
  | fuel + 1, offset =>
    match readBlockFromOffset file offset with
    | none => none
    | some [] => some []
    | some (kv :: kvs) =>
      let blockData := kv :: kvs
      let startKey := kv.Key
      let endKey := (blockData.getLast (by simp)).Key
      let size := blockByteSize blockData
      match buildSparseAux file fuel (offset + size) with
      | none => none
      | some rest => some (⟨startKey, endKey, size, offset⟩ :: rest)

/-- `SSTable.BuildSparseIndex` starting at offset 0. -/
def BuildSparseIndex (file : List Nat) : Option (List SparseIndex) :=
  buildSparseAux file (file.length + 1) 0

/-- An SSTable handle: the file's bytes and the sparse index built for it. -/
structure SSTable where
  file : List Nat
  sparseIndexs : List SparseIndex

/-- The `left`/`right` binary-search loop of `binarySearchInBlock`, with
fuel (the interval shrinks every step, so `length + 1` fuel suffices). -/
def bsearchAux (blockData : List KeyValue) (key : List Nat) : Nat → Int → Int → Option (List Nat)
  | 0, _, _ => none
  | fuel + 1, left, right =>
    if left ≤ right then
      let mid := left + (right - left) / 2
      let kv := blockData.getD mid.toNat ⟨[], []⟩
      match bytesCmp kv.Key key with
      | .eq => some kv.Value
      | .lt => bsearchAux blockData key fuel (mid + 1) right
      | .gt => bsearchAux blockData key fuel left (mid - 1)
    else none

/-- `SSTable.binarySearchInBlock`: decode the block at the entry's offset
and binary-search it; `nil` results (decode error, key absent) are `none`. -/
def binarySearchInBlock (s : SSTable) (sp : SparseIndex) (key : List Nat) : Option (List Nat) :=
  match readBlockFromOffset s.file sp.offset with
  | none => none
  | some bd => bsearchAux bd key (bd.length + 1) 0 ((bd.length : Int) - 1)

/-- `SSTable.GetValue`: linear scan of the sparse index for the first entry
whose `[startKey, endKey]` range bounds the key, then binary search inside
that block; `none` is Go's `nil` (absent). -/
def GetValue (s : SSTable) (key : List Nat) : Option (List Nat) :=
  match s.sparseIndexs.find? (fun sp => bytesLeB sp.startKey key && bytesLeB key sp.endKey) with
  | some sp => binarySearchInBlock s sp key
  | none => none

/-- A key/value pair the block format round-trips: a nonempty key and key
and value lengths below 2^31 (they are stored as signed 32-bit lengths, and
a zero-length key doubles as the block terminator). -/
def WFkv (kv : KeyValue) : Prop :=
  1 ≤ kv.Key.length ∧ kv.Key.length < 2 ^ 31 ∧ kv.Value.length < 2 ^ 31

instance : DecidablePred WFkv := fun kv => by unfold WFkv; infer_instance

/-- Reference lookup among the written pairs: the value of the pair whose
key equals `key`, if any. -/
def lookupKV (kvs : List KeyValue) (key : List Nat) : Option (List Nat) :=
  (kvs.find? (fun kv => bytesCmp kv.Key key == .eq)).map KeyValue.Value

end sstable

namespace skiplist

/-- `skiplist.Node`: a value, a key, and one forward pointer per level the
node participates in. Pointers are indices into the store; `none` is `nil`.
The head node (index 0) has an empty key that is never compared. -/
structure Node where
  value : List Nat
  key : List Nat
  next : List (Option Nat)
  deriving DecidableEq

/-- `skiplist.SkipList`: the pointer store (index 0 is `Head`), the maximum
level, and the remaining stream of level-promotion coin flips abstracting
the seeded `math/rand` generator (`true` = `Float64() < p`). -/
structure SkipList where
  nodes : List Node
  MaxLevel : Nat
  coins : List Bool
  deriving DecidableEq

/-- `skiplist.New`: a head node participating in all `maxLevel = 100`
levels with all-nil forward pointers. The seed becomes the coin stream. -/
def New (coins : List Bool) : SkipList :=
  { nodes := [⟨[], [], List.replicate 100 none⟩], MaxLevel := 100, coins := coins }

/-- Dereference a node index (out-of-range reads give a dead-end node;
they never happen on well-formed states). -/
def getNode (s : SkipList) (i : Nat) : Node := s.nodes.getD i ⟨[], [], []⟩

/-- `node.next[l]` for the node at index `i`. -/
def nextAt (s : SkipList) (i l : Nat) : Option Nat := (getNode s i).next.getD l none

/-- The inner walk at one level: `for x.next[i] != nil &&
bytes.Compare(x.next[i].key, key) < 0 { x = x.next[i] }`, with fuel. -/
def walkLevel (s : SkipList) (key : List Nat) (l : Nat) : Nat → Nat → Nat
  | 0, x => x
  | fuel + 1, x =>
    match nextAt s x l with
    | none => x
    | some y => if bytesLtB (getNode s y).key key then walkLevel s key l fuel y else x

/-- The outer walk of `Get`/`Scan`: from level `i - 1` down to level 0,
starting at node index `x` (the head). -/
def descend (s : SkipList) (key : List Nat) : Nat → Nat → Nat
  | 0, x => x
  | i + 1, x => descend s key i (walkLevel s key i s.nodes.length x)

/-- The outer walk of `Put`/`Delete`: additionally records `update[l]`,
the node where the walk left level `l`. Returns the update array (index
`l` holds `update[l]`) and the final position (equal to `update[0]`). -/
def buildUpdate (s : SkipList) (key : List Nat) : Nat → Nat → List Nat × Nat
  | 0, x => ([], x)
  | i + 1, x =>
    ((buildUpdate s key i (walkLevel s key i s.nodes.length x)).1
        ++ [walkLevel s key i s.nodes.length x],
      (buildUpdate s key i (walkLevel s key i s.nodes.length x)).2)

/-- The level generator: `lvl := 1; for lvl < MaxLevel && rng.Float64() < p
{ lvl++ }`. Consumes one coin per loop test; an exhausted stream stops the
promotion (every level sequence the real generator can emit is some finite
coin list). Returns the level and the remaining stream. -/
def genLevelAux : List Bool → Nat → Nat → Nat × List Bool
  | coins, lvl, max =>
    if lvl < max then
      match coins with
      | [] => (lvl, [])
      | c :: rest => if c then genLevelAux rest (lvl + 1) max else (lvl, rest)
    else (lvl, coins)

/-- One iteration of the linking loop of the insertion branch of `Put`, at
level `i`: set `n.next[i] = update[i].next[i]; update[i].next[i] = n`,
exactly in that order (`ni` is the new node's index). -/
def linkStep (update : List Nat) (ni : Nat) (ns : List Node) (i : Nat) : List Node :=
  let j := update.getD i 0
  let nj := ns.getD j ⟨[], [], []⟩
  let nn := ns.getD ni ⟨[], [], []⟩
  let ns1 := ns.set ni { nn with next := nn.next.set i (nj.next.getD i none) }
  let nj1 := ns1.getD j ⟨[], [], []⟩
  ns1.set j { nj1 with next := nj1.next.set i (some ni) }

/-- The insertion branch of `Put`: pick a level, append the new node with
all-nil pointers, then run the linking loop for each level `i < lvl`. -/
def insertNew (s : SkipList) (key value : List Nat) (update : List Nat) : SkipList :=
  let g := genLevelAux s.coins 1 s.MaxLevel
  let ni := s.nodes.length
  let nodes1 := s.nodes ++ [⟨value, key, List.replicate g.1 none⟩]
  { s with nodes := (List.range g.1).foldl (linkStep update ni) nodes1, coins := g.2 }

/-- `SkipList.Put`: walk down recording `update`; overwrite the value in
place when the key is already present, otherwise insert a new node. The
returned Go error is always nil, so no error component is modelled. -/
def SkipList.Put (s : SkipList) (key value : List Nat) : SkipList :=
  let bu := buildUpdate s key s.MaxLevel 0
  match nextAt s bu.2 0 with
  | some y =>
    if bytesCmp (getNode s y).key key = .eq then
      { s with nodes := s.nodes.set y { getNode s y with value := value } }
    else insertNew s key value bu.1
  | none => insertNew s key value bu.1

/-- One iteration of the unlinking loop of `Delete`, at level `i`: if
`update[i].next[i]` is the doomed node `y`, bypass it. -/
def delStep (update : List Nat) (y : Nat) (ns : List Node) (i : Nat) : List Node :=
  let j := update.getD i 0
  let nj := ns.getD j ⟨[], [], []⟩
  if nj.next.getD i none = some y then
    ns.set j { nj with next := nj.next.set i ((ns.getD y ⟨[], [], []⟩).next.getD i none) }
  else ns

/-- `SkipList.Delete`: walk down recording `update`; if the next node at
level 0 carries the key, unlink it at every level where `update[i]` points
to it. The boolean is `true` on success, `false` for `ErrNotFound`. -/
def SkipList.Delete (s : SkipList) (key : List Nat) : SkipList × Bool :=
  let bu := buildUpdate s key s.MaxLevel 0
  match nextAt s bu.2 0 with
  | none => (s, false)
  | some y =>
    if bytesCmp (getNode s y).key key = .eq then
      ({ s with nodes := (List.range s.MaxLevel).foldl (delStep bu.1 y) s.nodes }, true)
    else (s, false)

/-- `SkipList.Get`: walk down, step once at level 0, compare keys.
`none` is `ErrNotFound`. -/
def SkipList.Get (s : SkipList) (key : List Nat) : Option (List Nat) :=
  let x := descend s key s.MaxLevel 0
  match nextAt s x 0 with
  | none => none
  | some y => if bytesCmp (getNode s y).key key = .eq then some (getNode s y).value else none

/-- `SkipList.Scan`'s starting cursor: walk down toward `start` when a low
bound is given (a `nil` start skips the walk), then step once at level 0. -/
def scanStart (s : SkipList) (start : Option (List Nat)) : Option Nat :=
  let x := match start with
    | none => 0
    | some sb => descend s sb s.MaxLevel 0
  nextAt s x 0

/-- Draining `scanIter.Next`: yield `(key, value)` pairs while the cursor
is non-nil and, when an end bound is given, the key is below it. -/
def iterAll (s : SkipList) : Nat → Option Nat → Option (List Nat) → List (List Nat × List Nat)
  | 0, _, _ => []
  | _ + 1, none, _ => []
  | fuel + 1, some i, e =>
    let nd := getNode s i
    match e with
    | some eb =>
      if bytesLtB nd.key eb then (nd.key, nd.value) :: iterAll s fuel (nextAt s i 0) (some eb)
      else []
    | none => (nd.key, nd.value) :: iterAll s fuel (nextAt s i 0) none

/-- All pairs `Scan(start, end)` yields, in order. -/
def scanList (s : SkipList) (start e : Option (List Nat)) : List (List Nat × List Nat) :=
  iterAll s s.nodes.length (scanStart s start) e

/-- The key stored at index `i`. -/
def keyAt (s : SkipList) (i : Nat) : List Nat := (getNode s i).key

/-- The number of levels node `i` participates in. -/
def height (s : SkipList) (i : Nat) : Nat := (getNode s i).next.length

/-- Does the node at `i` hold a key strictly below `key`? -/
def keyLt (s : SkipList) (key : List Nat) (i : Nat) : Bool := bytesLtB (getNode s i).key key

/-- The level-0 chain of node indices starting from a cursor, with fuel. -/
def chainFrom (s : SkipList) : Nat → Option Nat → List Nat
  | 0, _ => []
  | _ + 1, none => []
  | fuel + 1, some i => i :: chainFrom s fuel (nextAt s i 0)

/-- The level-0 chain from the head: every stored node in key order. -/
def chain (s : SkipList) : List Nat := chainFrom s s.nodes.length (nextAt s 0 0)

/-- The nodes participating in level `l`, in chain order. -/
def levelList (s : SkipList) (l : Nat) : List Nat :=
  (chain s).filter (fun i => decide (l < height s i))

/-- `linked s l x LL`: from node `x`, following the level-`l` pointers
visits exactly the nodes of `LL` in order and then stops at nil. -/
def linked (s : SkipList) (l : Nat) : Nat → List Nat → Prop
  | x, [] => nextAt s x l = none
  | x, j :: rest => nextAt s x l = some j ∧ linked s l j rest

/-- The abstraction of a skip list: its (key, value) pairs in chain order. -/
def toList (s : SkipList) : List (List Nat × List Nat) :=
  (chain s).map (fun i => ((getNode s i).key, (getNode s i).value))

/-- Well-formedness of a skip list heap: the Go constants hold, the chain
visits valid non-head nodes of height 1..100 with strictly ascending keys,
and for every level the level-`l` pointers link exactly the chain nodes of
height above `l`, in chain order, starting from the head. -/
def Inv (s : SkipList) : Prop :=
  s.MaxLevel = 100 ∧
  0 < s.nodes.length ∧
  height s 0 = 100 ∧
  (∀ i ∈ chain s, i ≠ 0 ∧ i < s.nodes.length ∧ 1 ≤ height s i ∧ height s i ≤ 100) ∧
  List.Pairwise (fun a b => bytesCmp (keyAt s a) (keyAt s b) = .lt) (chain s) ∧
  (∀ l, l < 100 → linked s l 0 (levelList s l))

/-- The node where the walk toward `key` leaves level `l`: the last
level-`l` node with key below `key`, or 0 (the head) if there is none. -/
def updTarget (s : SkipList) (key : List Nat) (l : Nat) : Nat :=
  ((levelList s l).filter (keyLt s key)).getLastD 0

/-- Reference lookup in the abstraction. -/
def lookupAL (m : List (List Nat × List Nat)) (key : List Nat) : Option (List Nat) :=
  (m.find? (fun kv => bytesCmp kv.1 key == .eq)).map Prod.snd

/-- Sorted-association-list insert-or-overwrite, the reference effect of
`Put` on the abstraction. -/
def insertAL : List (List Nat × List Nat) → List Nat → List Nat → List (List Nat × List Nat)
  | [], k, v => [(k, v)]
  | (k', v') :: t, k, v =>
    match bytesCmp k k' with
    | .lt => (k, v) :: (k', v') :: t
    | .eq => (k, v) :: t
    | .gt => (k', v') :: insertAL t k v

/-- Remove the pair holding `k`, the reference effect of `Delete`. -/
def eraseAL : List (List Nat × List Nat) → List Nat → List (List Nat × List Nat)
  | [], _ => []
  | (k', v') :: t, k => if bytesCmp k k' = .eq then t else (k', v') :: eraseAL t k

/-- One skip list operation, for stating reachability. -/
inductive Op where
  | put (key value : List Nat)
  | del (key : List Nat)
  deriving DecidableEq

def applyOp (s : SkipList) : Op → SkipList
  | .put k v => s.Put k v
  | .del k => (s.Delete k).1

/-- The state after a history of operations. -/
def applyOps (s : SkipList) (ops : List Op) : SkipList := ops.foldl applyOp s

/-- One history step of the last-write-wins semantics at key `k`. -/
def netStep (k : List Nat) (acc : Option (List Nat)) : Op → Option (List Nat)
  | .put k2 v => if k2 = k then some v else acc
  | .del k2 => if k2 = k then none else acc

/-- The net effect of a history on one key: the last Put or Delete wins. -/
def netLookup (ops : List Op) (k : List Nat) : Option (List Nat) :=
  ops.foldl (netStep k) none

/-- The end-bound check of the scan iterator: true while the key is below
the bound (or always, for a nil bound). -/
def endOk (s : SkipList) (e : Option (List Nat)) (i : Nat) : Bool :=
  match e with
  | some eb => bytesLtB (keyAt s i) eb
  | none => true

/-- The `[a, b)` bound check of `Scan`, nil bounds behaving as ±∞. -/
def inBounds (a b : Option (List Nat)) (k : List Nat) : Bool :=
  (match a with
   | none => true
   | some ab => !(bytesLtB k ab)) &&
  (match b with
   | none => true
   | some bb => bytesLtB k bb)

end skiplist

namespace lsm

/-- The errors the engine surfaces: `ErrNotFound` from the skip list, and
I/O failures. -/
inductive Err where
  | notFound
  | io
  deriving DecidableEq

/-- `lsm.Options` (the directory is implicit in the file-system model). -/
structure Options where
  MemtableFlushThreshold : Nat
  deriving DecidableEq

/-- `lsm.Engine` plus the files it owns: the memtable, the current bytes of
`wal.log`, the `data_<N>.sst` files written so far (in creation order, as
`(N, bytes)`), the flush counter and the memtable byte size. The Go struct
holds no SSTable handles, sparse indexes or bloom filters. -/
structure Engine where
  options : Options
  memtable : skiplist.SkipList
  walBytes : List Nat
  files : List (Nat × List Nat)
  sstCount : Nat
  memSize : Nat
  deriving DecidableEq

/-- The WAL replay loop of `lsm.Open`: apply Put records as memtable puts
and every other record as a delete, stopping at the first `!ok` (read
errors are discarded), with fuel. -/
def replayAux : Nat → skiplist.SkipList → List Nat → skiplist.SkipList
  | 0, mt, _ => mt
  | fuel + 1, mt, bytes =>
    match wal.Next bytes with
    | .eof => mt
    | .fail => mt
    | .ok rec rest =>
      if rec.type = wal.OpPut then replayAux fuel (mt.Put rec.key rec.value) rest
      else replayAux fuel (mt.Delete rec.key).1 rest

/-- `lsm.Open`: fresh memtable; if `wal.log` exists replay it fully; then
the log is opened for append (`O_APPEND`, no truncation), so its prior
bytes remain. `walFile = none` is the missing-file first run. `coins` seeds
the memtable's level generator. -/
def Open (opts : Options) (walFile : Option (List Nat)) (coins : List Bool) : Engine :=
  let mt0 := skiplist.New coins
  let mt := match walFile with
    | some bytes => replayAux (bytes.length + 1) mt0 bytes
    | none => mt0
  { options := opts
    memtable := mt
    walBytes := walFile.getD []
    files := []
    sstCount := 0
    memSize := 0 }

/-- Modelled from the spec: `sstable.Writer.WriteFromSkipList` — the
`sstable.NewWriter`/`Writer.WriteFromSkipList` code called by `Engine.Flush`
is not among the repository's source files. Per §4.5 the flush "serializes
the entire current memtable (via an ordered scan) into a new immutable
SSTable file" and per §4.3 "the reference implementation writes the entire
memtable as a single block": one `WriteBlock` of the full ordered scan. -/
def WriteFromSkipList (mt : skiplist.SkipList) : List Nat :=
  sstable.WriteBlock ((skiplist.scanList mt none none).map (fun kv => ⟨kv.1, kv.2⟩))

/-- `Engine.Flush`: bump the counter, create `data_<N>.sst`, write the
memtable into it; only on success replace the memtable with a fresh one and
truncate the WAL to empty. `writeOk` models whether the SSTable write
succeeds (on failure the created file is left behind and the error is
returned before the memtable or WAL is touched). `newCoins` seeds the
replacement memtable. -/
def Flush (e : Engine) (writeOk : Bool) (newCoins : List Bool) : Engine × Option Err :=
  let c := e.sstCount + 1
  if writeOk then
    ({ e with sstCount := c
              files := e.files ++ [(c, WriteFromSkipList e.memtable)]
              memtable := skiplist.New newCoins
              walBytes := [] }, none)
  else
    ({ e with sstCount := c, files := e.files ++ [(c, [])] }, some .io)

/-- `Engine.Put`: append a Put record to the WAL with the result discarded
(`walFail` says whether that append failed), grow `memSize`, apply to the
memtable, and flush synchronously when a positive threshold is reached
(the flush's result is discarded too). The returned error is the
memtable's, which is always nil. -/
def Put (e : Engine) (key value : List Nat) (walFail : Bool) (flushWriteOk : Bool)
    (newCoins : List Bool) : Engine × Option Err :=
  let wb := if walFail then e.walBytes else e.walBytes ++ wal.Append ⟨wal.OpPut, key, value⟩
  let ms := e.memSize + key.length + value.length
  let e1 := { e with walBytes := wb, memSize := ms, memtable := e.memtable.Put key value }
  if 0 < e.options.MemtableFlushThreshold ∧ e.options.MemtableFlushThreshold ≤ ms then
    ({ (Flush e1 flushWriteOk newCoins).1 with memSize := 0 }, none)
  else (e1, none)

/-- `Engine.Get`: the memtable alone is consulted; `none` is the skip
list's `ErrNotFound`, propagated unchanged. -/
def Get (e : Engine) (key : List Nat) : Option (List Nat) :=
  e.memtable.Get key

/-- `Engine.Delete`: append a Delete record to the WAL with the result
discarded (`walFail` says whether that append failed), then remove from
the memtable, returning its error. -/
def Delete (e : Engine) (key : List Nat) (walFail : Bool) : Engine × Option Err :=
  let wb := if walFail then e.walBytes else e.walBytes ++ wal.Append ⟨wal.OpDelete, key, []⟩
  let (mt, found) := e.memtable.Delete key
  ({ e with walBytes := wb, memtable := mt }, if found then none else some .notFound)

end lsm
namespace bloom

theorem Add_size (f : Filter) (k : List Nat) : (f.Add k).size = f.size := rfl

theorem Add_hashes (f : Filter) (k : List Nat) : (f.Add k).hashes = f.hashes := rfl

theorem foldl_set_length (l : List ((List Nat) → Nat)) (bs : List Bool) (k : List Nat) (m : Nat) :
    (l.foldl (fun bs hf => bs.set (hf k % m) true) bs).length = bs.length := by
  induction l generalizing bs with
  | nil => rfl
  | cons h t ih => simpa [List.foldl_cons] using ih (bs.set (h k % m) true)

theorem Add_bitSet_length (f : Filter) (k : List Nat) :
    (f.Add k).bitSet.length = f.bitSet.length := by
  simpa [Filter.Add] using foldl_set_length f.hashes f.bitSet k f.size

/-- Bits already set survive a fold of sets. -/
theorem foldl_set_mono (l : List ((List Nat) → Nat)) (bs : List Bool) (k : List Nat) (m i : Nat)
    (h : bs.getD i false = true) :
    (l.foldl (fun bs hf => bs.set (hf k % m) true) bs).getD i false = true := by
  induction l generalizing bs with
  | nil => exact h
  | cons hd t ih =>
    refine ih (bs.set (hd k % m) true) ?_
    rcases Nat.lt_or_ge i bs.length with hi | hi
    · by_cases he : hd k % m = i
      · subst he
        simp [List.getD_eq_getElem?_getD, List.getElem?_set_self, Nat.lt_of_lt_of_le hi (le_refl _), hi]
      · simpa [List.getD_eq_getElem?_getD, List.getElem?_set_ne he] using h
    · have : bs.getD i false = false := by
        simp [List.getD_eq_getElem?_getD, List.getElem?_eq_none (by simpa using hi)]
      rw [this] at h; exact absurd h (by simp)

theorem Add_mono (f : Filter) (k : List Nat) (i : Nat) (h : f.bitSet.getD i false = true) :
    (f.Add k).bitSet.getD i false = true :=
  foldl_set_mono f.hashes f.bitSet k f.size i h

/-- After the fold, every index named by some hash in the list is set,
as long as it is within the array. -/
theorem foldl_set_hits (l : List ((List Nat) → Nat)) (bs : List Bool) (k : List Nat) (m : Nat)
    (hf : (List Nat) → Nat) (hmem : hf ∈ l) (hlt : hf k % m < bs.length) :
    (l.foldl (fun bs g => bs.set (g k % m) true) bs).getD (hf k % m) false = true := by
  induction l generalizing bs with
  | nil => cases hmem
  | cons hd t ih =>
    rcases List.mem_cons.mp hmem with rfl | hmem'
    · refine foldl_set_mono t _ k m _ ?_
      simp [List.getD_eq_getElem?_getD, List.getElem?_set_self hlt]
    · exact ih _ hmem' (by simpa [foldl_set_length] using hlt)

theorem addAll_size (f : Filter) (keys : List (List Nat)) : (addAll f keys).size = f.size := by
  induction keys generalizing f with
  | nil => rfl
  | cons h t ih => simpa [addAll, List.foldl_cons] using ih (f.Add h)

theorem addAll_hashes (f : Filter) (keys : List (List Nat)) :
    (addAll f keys).hashes = f.hashes := by
  induction keys generalizing f with
  | nil => rfl
  | cons h t ih => simpa [addAll, List.foldl_cons] using ih (f.Add h)

theorem addAll_bitSet_length (f : Filter) (keys : List (List Nat)) :
    (addAll f keys).bitSet.length = f.bitSet.length := by
  induction keys generalizing f with
  | nil => rfl
  | cons h t ih =>
    simpa [addAll, List.foldl_cons, Add_bitSet_length] using ih (f.Add h)

theorem addAll_mono (f : Filter) (keys : List (List Nat)) (i : Nat)
    (h : f.bitSet.getD i false = true) :
    (addAll f keys).bitSet.getD i false = true := by
  induction keys generalizing f with
  | nil => exact h
  | cons hd t ih => exact ih (f.Add hd) (Add_mono f hd i h)

/-- Once a key is added, its FNV bit is set forever after. -/
theorem addAll_bit_set (f : Filter) (keys : List (List Nat)) (k : List Nat)
    (hk : k ∈ keys) (hh : fnv64a ∈ f.hashes) (hlen : fnv64a k % f.size < f.bitSet.length) :
    (addAll f keys).bitSet.getD (fnv64a k % f.size) false = true := by
  induction keys generalizing f with
  | nil => cases hk
  | cons hd t ih =>
    show (addAll (f.Add hd) t).bitSet.getD (fnv64a k % f.size) false = true
    rcases List.mem_cons.mp hk with rfl | hmem
    · have hbit : (f.Add k).bitSet.getD (fnv64a k % f.size) false = true :=
        foldl_set_hits f.hashes f.bitSet k f.size fnv64a hh hlen
      have := addAll_mono (f.Add k) t (fnv64a k % f.size) hbit
      simpa [Add_size] using this
    · have := ih (f.Add hd) hmem (by simpa [Add_hashes] using hh)
        (by simpa [Add_size, Add_bitSet_length] using hlen)
      simpa [Add_size] using this

/-- With every hash slot the same FNV-64a hasher, the `Add` fold collapses
to a single bit set (for at least one slot). -/
theorem foldl_set_replicate (c : Nat) (hc : 1 ≤ c) (bs : List Bool) (k : List Nat) (m : Nat) :
    ((List.replicate c fnv64a).foldl (fun bs hf => bs.set (hf k % m) true) bs)
      = bs.set (fnv64a k % m) true := by
  induction c generalizing bs with
  | zero => omega
  | succ n ih =>
    rcases Nat.eq_zero_or_pos n with rfl | hn
    · rfl
    · rw [List.replicate_succ, List.foldl_cons, ih (by omega)]
      exact List.set_set true true bs (fnv64a k % m)

theorem New_hashes (size c : Nat) : (New size c).hashes = List.replicate c fnv64a := rfl

theorem addAll_Add_bitSet (size c : Nat) (hc : 1 ≤ c) (keys : List (List Nat)) (k : List Nat) :
    ((addAll (New size c) keys).Add k).bitSet
      = (addAll (New size c) keys).bitSet.set (fnv64a k % size) true := by
  have hh : (addAll (New size c) keys).hashes = List.replicate c fnv64a := by
    rw [addAll_hashes]; rfl
  have hs : (addAll (New size c) keys).size = size := by rw [addAll_size]; rfl
  show ((addAll (New size c) keys).hashes.foldl _ _) = _
  rw [hh, hs, foldl_set_replicate c hc]

/-- The bit arrays of a `c`-slot filter and a 1-slot filter agree after any
sequence of adds. -/
theorem addAll_bitSet_eq_one (size c : Nat) (hc : 1 ≤ c) (keys : List (List Nat)) :
    (addAll (New size c) keys).bitSet = (addAll (New size 1) keys).bitSet := by
  suffices h : ∀ (f g : Filter), f.hashes = List.replicate c fnv64a →
      g.hashes = List.replicate 1 fnv64a → f.size = size → g.size = size →
      f.bitSet = g.bitSet → (addAll f keys).bitSet = (addAll g keys).bitSet by
    exact h (New size c) (New size 1) rfl rfl rfl rfl rfl
  induction keys with
  | nil => intro f g _ _ _ _ hbs; exact hbs
  | cons hd t ih =>
    intro f g hf hg hfs hgs hbs
    show (addAll (f.Add hd) t).bitSet = (addAll (g.Add hd) t).bitSet
    refine ih (f.Add hd) (g.Add hd) (by rw [Add_hashes, hf]) (by rw [Add_hashes, hg])
      (by rw [Add_size, hfs]) (by rw [Add_size, hgs]) ?_
    show (f.hashes.foldl _ f.bitSet) = (g.hashes.foldl _ g.bitSet)
    rw [hf, hg, hfs, hgs, foldl_set_replicate c hc, foldl_set_replicate 1 (by omega), hbs]

theorem all_replicate_eq (c : Nat) (hc : 1 ≤ c) (p : ((List Nat) → Nat) → Bool) :
    (List.replicate c fnv64a).all p = p fnv64a := by
  induction c with
  | zero => omega
  | succ n ih =>
    rcases Nat.eq_zero_or_pos n with rfl | hn
    · simp [List.all]
    · rw [List.replicate_succ, List.all_cons, ih (by omega)]
      exact Bool.and_self (p fnv64a)

end bloom

namespace bloom

theorem New_size (size c : Nat) : (New size c).size = size := rfl

theorem New_bitSet_length (size c : Nat) : (New size c).bitSet.length = size := by
  simp [New]

/-- C9: for every bloom filter created by `New(size, hashCount)` with
`size > 0` and every sequence of `Add` calls, `MayContain` returns true for
every key that was added (no false negatives); a false result therefore
soundly implies the key was never added. -/
theorem claim_C9 (size c : Nat) (hsize : 0 < size) (keys : List (List Nat)) (k : List Nat) :
    (k ∈ keys → (addAll (New size c) keys).MayContain k = true) ∧
    ((addAll (New size c) keys).MayContain k = false → k ∉ keys) := by
  have hh : (addAll (New size c) keys).hashes = List.replicate c fnv64a := by
    rw [addAll_hashes, New_hashes]
  have hs : (addAll (New size c) keys).size = size := by
    rw [addAll_size, New_size]
  have hpos : k ∈ keys → (addAll (New size c) keys).MayContain k = true := by
    intro hk
    unfold Filter.MayContain
    rw [hh, hs, List.all_eq_true]
    intro hf hmem
    rcases List.mem_replicate.mp hmem with ⟨hc, rfl⟩
    have hlen : fnv64a k % (New size c).size < (New size c).bitSet.length := by
      rw [New_size, New_bitSet_length]
      exact Nat.mod_lt _ hsize
    have := addAll_bit_set (New size c) keys k hk
      (by rw [New_hashes]; exact List.mem_replicate.mpr ⟨hc, rfl⟩) hlen
    simpa using this
  refine ⟨hpos, fun hfalse hk => ?_⟩
  rw [hpos hk] at hfalse
  exact absurd hfalse (by simp)

theorem claim_C9_witness :
    (0 : Nat) < 8 ∧ (addAll (New 8 2) [[97], [98]]).MayContain [97] = true :=
  ⟨by decide, (claim_C9 8 2 (by decide) [[97], [98]] [97]).1 (by decide)⟩

/-- C10 (implicit): all `hashCount` hash slots of `New` are identical
unseeded FNV-64a hashers, so `Add` sets at most one bit per key — the
bit array after an `Add` is a single `set` — and for `size > 0`,
`hashCount ≥ 1` the observable `Add`/`MayContain` behaviour is exactly
that of a filter with `hashCount = 1`. -/
theorem claim_C10 (size c : Nat) (hsize : 0 < size) (hc : 1 ≤ c)
    (keys : List (List Nat)) (k q : List Nat) :
    ((addAll (New size c) keys).Add k).bitSet
        = (addAll (New size c) keys).bitSet.set (fnv64a k % size) true ∧
    (addAll (New size c) keys).MayContain q = (addAll (New size 1) keys).MayContain q := by
  refine ⟨addAll_Add_bitSet size c hc keys k, ?_⟩
  unfold Filter.MayContain
  have hhc : (addAll (New size c) keys).hashes = List.replicate c fnv64a := by
    rw [addAll_hashes, New_hashes]
  have hh1 : (addAll (New size 1) keys).hashes = List.replicate 1 fnv64a := by
    rw [addAll_hashes, New_hashes]
  have hsc : (addAll (New size c) keys).size = size := by rw [addAll_size, New_size]
  have hs1 : (addAll (New size 1) keys).size = size := by rw [addAll_size, New_size]
  rw [hhc, hh1, hsc, hs1, all_replicate_eq c hc, all_replicate_eq 1 (le_refl 1),
    addAll_bitSet_eq_one size c hc]

theorem claim_C10_witness :
    ((addAll (New 8 3) [[97]]).Add [98]).bitSet
        = (addAll (New 8 3) [[97]]).bitSet.set (fnv64a [98] % 8) true ∧
    (addAll (New 8 3) [[97]]).MayContain [97] = (addAll (New 8 1) [[97]]).MayContain [97] :=
  claim_C10 8 3 (by decide) (by decide) [[97]] [98] [97]

end bloom

section bytesCmpTheory

theorem bytesCmp_self (a : List Nat) : bytesCmp a a = .eq := by
  induction a with
  | nil => rfl
  | cons x xs ih => simp [bytesCmp, ih]

theorem bytesCmp_eq_iff : ∀ (a b : List Nat), bytesCmp a b = .eq ↔ a = b
  | [], [] => by simp [bytesCmp]
  | [], _ :: _ => by simp [bytesCmp]
  | _ :: _, [] => by simp [bytesCmp]
  | a :: as, b :: bs => by
    by_cases h1 : a < b
    · simp only [bytesCmp, if_pos h1]
      constructor
      · intro h; exact absurd h (by simp)
      · intro h; injection h with h' _; omega
    · by_cases h2 : b < a
      · simp only [bytesCmp, if_neg h1, if_pos h2]
        constructor
        · intro h; exact absurd h (by simp)
        · intro h; injection h with h' _; omega
      · have hab : a = b := by omega
        subst hab
        simp only [bytesCmp, if_neg h1, List.cons.injEq, true_and]
        exact bytesCmp_eq_iff as bs

theorem bytesCmp_gt_iff : ∀ (a b : List Nat), bytesCmp a b = .gt ↔ bytesCmp b a = .lt
  | [], [] => by simp [bytesCmp]
  | [], _ :: _ => by simp [bytesCmp]
  | _ :: _, [] => by simp [bytesCmp]
  | a :: as, b :: bs => by
    by_cases h1 : a < b
    · simp only [bytesCmp, if_pos h1, if_neg (by omega : ¬ b < a)]
      constructor
      · intro h; exact absurd h (by simp)
      · intro h; exact absurd h (by simp)
    · by_cases h2 : b < a
      · simp only [bytesCmp, if_neg h1, if_pos h2]
      · have hab : a = b := by omega
        subst hab
        simp only [bytesCmp, if_neg h1]
        exact bytesCmp_gt_iff as bs

theorem bytesCmp_lt_trans : ∀ (a b c : List Nat),
    bytesCmp a b = .lt → bytesCmp b c = .lt → bytesCmp a c = .lt
  | [], [], _, h1, _ => by simp [bytesCmp] at h1
  | [], _ :: _, [], _, h2 => by simp [bytesCmp] at h2
  | [], _ :: _, _ :: _, _, _ => by simp [bytesCmp]
  | _ :: _, [], _, h1, _ => by simp [bytesCmp] at h1
  | _ :: _, _ :: _, [], _, h2 => by simp [bytesCmp] at h2
  | x :: xs, y :: ys, z :: zs, h1, h2 => by
    by_cases hxy : x < y
    · by_cases hyz : y < z
      · simp [bytesCmp, show x < z by omega]
      · by_cases hzy : z < y
        · rw [show bytesCmp (y :: ys) (z :: zs) = .gt by
            simp [bytesCmp, if_neg hyz, if_pos hzy]] at h2
          exact absurd h2 (by simp)
        · have : y = z := by omega
          subst this
          simp [bytesCmp, if_pos hxy]
    · by_cases hyx : y < x
      · rw [show bytesCmp (x :: xs) (y :: ys) = .gt by
          simp [bytesCmp, if_neg hxy, if_pos hyx]] at h1
        exact absurd h1 (by simp)
      · have : x = y := by omega
        subst this
        simp only [bytesCmp, if_neg hxy] at h1 h2 ⊢
        by_cases hyz : x < z
        · simp [if_pos hyz]
        · by_cases hzy : z < x
          · rw [if_neg hyz, if_pos hzy] at h2
            exact absurd h2 (by simp)
          · rw [if_neg hyz, if_neg hzy] at h2 ⊢
            exact bytesCmp_lt_trans xs ys zs h1 h2

theorem bytesCmp_lt_irrefl (a : List Nat) : bytesCmp a a ≠ .lt := by
  rw [bytesCmp_self]; simp

theorem bytesLtB_iff (a b : List Nat) : bytesLtB a b = true ↔ bytesCmp a b = .lt := by
  unfold bytesLtB
  cases bytesCmp a b <;> simp <;> decide

theorem bytesLeB_iff (a b : List Nat) : bytesLeB a b = true ↔ bytesCmp a b ≠ .gt := by
  unfold bytesLeB
  cases bytesCmp a b <;> simp <;> decide

end bytesCmpTheory

namespace wal

theorem le32_length (n : Nat) : (le32 n).length = 4 := rfl

theorem fromLE32_le32 (n : Nat) : fromLE32 (le32 n) = n % 2 ^ 32 := by
  simp only [fromLE32, le32, List.getD_cons_zero, List.getD_cons_succ]
  omega

theorem writeBytes_length (b : List Nat) : (writeBytes b).length = 4 + b.length := by
  simp [writeBytes, le32_length]

theorem readBytes_writeBytes (b : List Nat) (h : b.length < 2 ^ 32) (rest : List Nat) :
    readBytes (writeBytes b ++ rest) = some (b, rest) := by
  unfold readBytes writeBytes
  rw [List.append_assoc]
  rw [List.take_left' (le32_length b.length), List.drop_left' (le32_length b.length)]
  rw [fromLE32_le32, Nat.mod_eq_of_lt h]
  rw [if_pos (by simp [le32_length])]
  rw [if_pos (by simp)]
  rw [List.take_left, List.drop_left]

theorem Append_put (r : Record) (h : r.type = OpPut) :
    Append r = OpPut :: (writeBytes r.key ++ writeBytes r.value) := by
  simp [Append, h, OpPut]

theorem Append_del (r : Record) (h1 : r.type = OpDelete) :
    Append r = OpDelete :: writeBytes r.key := by
  simp [Append, h1, OpDelete, OpPut]

theorem Next_Append (r : Record) (hr : WF r) (rest : List Nat) :
    Next (Append r ++ rest) = .ok (canon r) rest := by
  obtain ⟨ty, k, v⟩ := r
  obtain ⟨htype, hk, hv⟩ := hr
  simp only at hk hv
  rcases htype with h1 | h2
  · simp only at h1
    subst h1
    rw [Append_put ⟨OpPut, k, v⟩ rfl, List.cons_append, List.append_assoc]
    simp only [Next, readBytes_writeBytes _ hk, readBytes_writeBytes _ hv, if_pos rfl, canon]
    simp [OpPut]
  · simp only at h2
    subst h2
    rw [Append_del ⟨OpDelete, k, v⟩ rfl, List.cons_append]
    simp only [Next, readBytes_writeBytes _ hk, canon]
    simp [OpPut, OpDelete]

theorem readBytes_length {s b r : List Nat} (h : readBytes s = some (b, r)) :
    r.length ≤ s.length := by
  unfold readBytes at h
  split_ifs at h with h1 h2
  injection h with h'
  have : r = (s.drop 4).drop (fromLE32 (s.take 4)) := (congrArg Prod.snd h').symm
  subst this
  simp

theorem Next_ok_length {s : List Nat} {rec : Record} {rest : List Nat}
    (h : Next s = .ok rec rest) : rest.length < s.length := by
  cases s with
  | nil => simp [Next] at h
  | cons t r =>
    cases hrb : readBytes r with
    | none =>
      rw [show Next (t :: r) = NextResult.fail by simp only [Next, hrb]] at h
      exact absurd h (by simp)
    | some p =>
      obtain ⟨key, rest1⟩ := p
      have hr1 : rest1.length ≤ r.length := readBytes_length hrb
      simp only [List.length_cons]
      by_cases ht : t = OpPut
      · cases hrb2 : readBytes rest1 with
        | none =>
          rw [show Next (t :: r) = NextResult.fail by
            simp only [Next, hrb, if_pos ht, hrb2]] at h
          exact absurd h (by simp)
        | some p2 =>
          obtain ⟨val, rest2⟩ := p2
          have hr2 : rest2.length ≤ rest1.length := readBytes_length hrb2
          rw [show Next (t :: r) = NextResult.ok ⟨t, key, val⟩ rest2 by
            simp only [Next, hrb, if_pos ht, hrb2]] at h
          injection h with _ h2
          subst h2
          omega
      · rw [show Next (t :: r) = NextResult.ok ⟨t, key, []⟩ rest1 by
          simp only [Next, hrb, if_neg ht]] at h
        injection h with _ h2
        subst h2
        omega

theorem readAllAux_congr : ∀ (f g : Nat) (s : List Nat), s.length < f → s.length < g →
    readAllAux f s = readAllAux g s
  | 0, _, _, hf, _ => absurd hf (by omega)
  | _ + 1, 0, _, _, hg => absurd hg (by omega)
  | f + 1, g + 1, s, hf, hg => by
    cases hn : Next s with
    | eof => simp only [readAllAux, hn]
    | fail => simp only [readAllAux, hn]
    | ok rec rest =>
      have hlen := Next_ok_length hn
      simp only [readAllAux, hn]
      rw [readAllAux_congr f g rest (by omega) (by omega)]

theorem Append_length_pos (r : Record) : 1 ≤ (Append r).length := by
  simp [Append]

theorem encodeList_cons (r : Record) (rs : List Record) :
    encodeList (r :: rs) = Append r ++ encodeList rs := by
  simp [encodeList]

theorem readAllAux_encode : ∀ (rs : List Record), (∀ r ∈ rs, WF r) →
    ∀ (tail : List Nat) (fuel : Nat), (encodeList rs ++ tail).length < fuel →
    readAllAux fuel (encodeList rs ++ tail)
      = (rs.map canon ++ (readAll tail).1, (readAll tail).2)
  | [], _, tail, fuel, hfuel => by
    simp only [encodeList, List.map_nil, List.flatten_nil, List.nil_append] at hfuel ⊢
    rw [readAllAux_congr fuel (tail.length + 1) tail hfuel (by omega)]
    rfl
  | r :: rs, hwf, tail, fuel, hfuel => by
    rw [encodeList_cons, List.append_assoc] at hfuel ⊢
    cases fuel with
    | zero => exact absurd hfuel (by omega)
    | succ fuel =>
      have hlt : (encodeList rs ++ tail).length < fuel := by
        have := Append_length_pos r
        simp only [List.length_append] at hfuel ⊢
        omega
      simp only [readAllAux, Next_Append r (hwf r (by simp)) (encodeList rs ++ tail)]
      rw [readAllAux_encode rs (fun x hx => hwf x (by simp [hx])) tail fuel hlt]
      simp

theorem readAll_encode (rs : List Record) (hwf : ∀ r ∈ rs, WF r) :
    readAll (encodeList rs) = (rs.map canon, true) := by
  unfold readAll
  have h := readAllAux_encode rs hwf [] ((encodeList rs).length + 1) (by simp)
  simp only [List.append_nil] at h
  rw [h]
  simp [readAll, readAllAux, Next]

end wal

namespace wal

/-- C7 (amended): for every finite sequence of Put and Delete records whose
key and Put-value lengths fit the 4-byte length prefix (< 2^32), appending
them all with `Writer.Append` and reading the stream back with
`Reader.Next` yields a sequence with the same length, the same type and key
at every position, and the same value at every Put position (a non-Put
record's never-written value field reads back as nil, which `canon`
expresses), followed by a clean non-error end of stream. -/
theorem claim_C7 (rs : List Record) (hwf : ∀ r ∈ rs, WF r) :
    readAll (encodeList rs) = (rs.map canon, true) :=
  readAll_encode rs hwf

theorem claim_C7_witness :
    readAll (encodeList [⟨OpPut, [97], [49]⟩, ⟨OpDelete, [97], []⟩, ⟨OpPut, [98], [50, 51]⟩])
      = ([⟨OpPut, [97], [49]⟩, ⟨OpDelete, [97], []⟩, ⟨OpPut, [98], [50, 51]⟩], true) := by
  have h := claim_C7 [⟨OpPut, [97], [49]⟩, ⟨OpDelete, [97], []⟩, ⟨OpPut, [98], [50, 51]⟩]
    (by decide)
  simpa [canon, OpPut, OpDelete] using h


end wal

namespace wal

theorem encodeList_singleton (r : Record) : encodeList [r] = Append r := by
  simp [encodeList]

theorem Next_cons_put (t : Nat) (s key rest1 val rest2 : List Nat) (ht : t = OpPut)
    (h1 : readBytes s = some (key, rest1)) (h2 : readBytes rest1 = some (val, rest2)) :
    Next (t :: s) = .ok ⟨t, key, val⟩ rest2 := by
  subst ht
  simp [Next, h1, h2]

theorem readAllAux_succ_head (fuel : Nat) (s : List Nat) (rec : Record) (rest : List Nat)
    (h : Next s = .ok rec rest) : (readAllAux (fuel + 1) s).1.head? = some rec := by
  simp only [readAllAux, h, List.head?_cons]

/-- C7 as frozen is false without a length bound: a Put record whose key has
length exactly 2^32 does not round-trip — the 4-byte length prefix wraps to
0, so the reader decodes an empty key first. -/
theorem claim_C7_counterexample :
    readAll (encodeList [⟨OpPut, List.replicate (2 ^ 32) 0, []⟩])
      ≠ ([⟨OpPut, List.replicate (2 ^ 32) 0, []⟩], true) := by
  intro h
  have hlenk : (List.replicate (2 ^ 32) (0 : Nat)).length = 2 ^ 32 :=
    List.length_replicate _ _
  have hbody : Append (⟨OpPut, List.replicate (2 ^ 32) 0, []⟩ : Record)
      = OpPut :: ([0, 0, 0, 0] ++ (List.replicate (2 ^ 32) 0 ++ [0, 0, 0, 0])) := by
    rw [Append_put _ rfl]
    show OpPut :: (writeBytes (List.replicate (2 ^ 32) 0) ++ writeBytes []) = _
    rw [show writeBytes ([] : List Nat) = [0, 0, 0, 0] from rfl]
    unfold writeBytes
    rw [hlenk, show le32 (2 ^ 32) = [0, 0, 0, 0] by decide]
    rw [List.append_assoc]
  have hrb1 : readBytes ([0, 0, 0, 0] ++ (List.replicate (2 ^ 32) 0 ++ [0, 0, 0, 0]))
      = some ([], List.replicate (2 ^ 32) 0 ++ [0, 0, 0, 0]) :=
    readBytes_writeBytes [] (by norm_num) (List.replicate (2 ^ 32) 0 ++ [0, 0, 0, 0])
  have htake : (List.replicate (2 ^ 32) (0 : Nat) ++ [0, 0, 0, 0]).take 4 = [0, 0, 0, 0] := by
    rw [List.take_append_of_le_length (by rw [hlenk]; omega), List.take_replicate,
      show min 4 (2 ^ 32) = 4 by omega]
    rfl
  have hrb2 : readBytes (List.replicate (2 ^ 32) 0 ++ [0, 0, 0, 0])
      = some ([], (List.replicate (2 ^ 32) 0 ++ [0, 0, 0, 0]).drop 4) := by
    unfold readBytes
    rw [if_pos (by rw [List.length_append, hlenk]; omega)]
    rw [htake, show fromLE32 [0, 0, 0, 0] = 0 from rfl]
    rw [if_pos (by omega)]
    rw [List.take_zero, List.drop_zero]
  have hNext : Next (Append (⟨OpPut, List.replicate (2 ^ 32) 0, []⟩ : Record))
      = .ok ⟨OpPut, [], []⟩ ((List.replicate (2 ^ 32) 0 ++ [0, 0, 0, 0]).drop 4) := by
    rw [hbody]
    exact Next_cons_put _ _ _ _ _ _ rfl hrb1 hrb2
  have hhead : (readAll (encodeList [(⟨OpPut, List.replicate (2 ^ 32) 0, []⟩ : Record)])).1.head?
      = some ⟨OpPut, [], []⟩ := by
    unfold readAll
    rw [encodeList_singleton]
    exact readAllAux_succ_head _ _ _ _ hNext
  rw [h] at hhead
  simp only [List.head?_cons, Option.some.injEq] at hhead
  have hkey := congrArg Record.key hhead
  have hlen0 := congrArg List.length hkey
  rw [hlenk, List.length_nil] at hlen0
  omega

end wal

namespace wal

theorem readBytes_short {s : List Nat} (h : s.length < 4) : readBytes s = none := by
  unfold readBytes
  rw [if_neg (by omega)]

theorem Next_cons_fail (t : Nat) (s : List Nat) (h : readBytes s = none) :
    Next (t :: s) = .fail := by
  simp [Next, h]

theorem Next_cons_put_fail (t : Nat) (s key rest1 : List Nat) (ht : t = OpPut)
    (h1 : readBytes s = some (key, rest1)) (h2 : readBytes rest1 = none) :
    Next (t :: s) = .fail := by
  subst ht
  simp [Next, h1, h2]

/-- Reading from a truncated length-prefixed field: with at least the
4-byte prefix present, the read succeeds exactly when the whole field fits
in the truncation. -/
theorem readBytes_writeBytes_take (b u : List Nat) (hb : b.length < 2 ^ 32) (i : Nat)
    (hlt : i < b.length + u.length) :
    readBytes ((writeBytes b ++ u).take (4 + i))
      = if b.length ≤ i then some (b, u.take (i - b.length)) else none := by
  rw [writeBytes, List.append_assoc]
  rw [show (4 : Nat) + i = (le32 b.length).length + i by rw [le32_length]]
  rw [List.take_append]
  have hti : ((b ++ u).take i).length = i := by
    rw [List.length_take, List.length_append]
    omega
  unfold readBytes
  rw [List.take_left' (le32_length _), List.drop_left' (le32_length _)]
  rw [fromLE32_le32, Nat.mod_eq_of_lt hb]
  rw [if_pos (by simp [le32_length])]
  rw [hti]
  by_cases hcase : b.length ≤ i
  · rw [if_pos hcase, if_pos hcase]
    rw [List.take_take, show min b.length i = b.length by omega, List.take_left]
    rw [List.drop_take, List.drop_left]
  · rw [if_neg hcase, if_neg hcase]

/-- A nonempty strict truncation of one appended record always makes
`Reader.Next` report a read failure (`ok = false` with a non-nil error). -/
theorem Next_take_fail (r : Record) (hr : WF r) (n : Nat) (h1 : 1 ≤ n)
    (hlt : n < (Append r).length) : Next ((Append r).take n) = .fail := by
  obtain ⟨m, rfl⟩ : ∃ m, n = m + 1 := ⟨n - 1, by omega⟩
  obtain ⟨htype, hk, hv⟩ := hr
  rcases htype with hty | hty
  · rw [Append_put r hty] at hlt ⊢
    rw [List.take_succ_cons]
    simp only [List.length_cons, List.length_append, writeBytes_length] at hlt
    by_cases hm4 : m < 4
    · exact Next_cons_fail _ _ (readBytes_short (by rw [List.length_take]; omega))
    · obtain ⟨i, rfl⟩ : ∃ i, m = 4 + i := ⟨m - 4, by omega⟩
      have hrb := readBytes_writeBytes_take r.key (writeBytes r.value) hk i
        (by rw [writeBytes_length]; omega)
      by_cases hki : r.key.length ≤ i
      · rw [if_pos hki] at hrb
        have hrb2 : readBytes ((writeBytes r.value).take (i - r.key.length)) = none := by
          by_cases hv4 : i - r.key.length < 4
          · exact readBytes_short (by rw [List.length_take]; omega)
          · obtain ⟨j, hj⟩ : ∃ j, i - r.key.length = 4 + j := ⟨i - r.key.length - 4, by omega⟩
            have h2 := readBytes_writeBytes_take r.value [] hv j (by simp only [List.length_nil]; omega)
            rw [if_neg (by omega), List.append_nil, ← hj] at h2
            exact h2
        exact Next_cons_put_fail _ _ _ _ rfl hrb hrb2
      · rw [if_neg hki] at hrb
        exact Next_cons_fail _ _ hrb
  · rw [Append_del r hty] at hlt ⊢
    rw [List.take_succ_cons]
    simp only [List.length_cons, writeBytes_length] at hlt
    by_cases hm4 : m < 4
    · exact Next_cons_fail _ _ (readBytes_short (by rw [List.length_take]; omega))
    · obtain ⟨i, rfl⟩ : ∃ i, m = 4 + i := ⟨m - 4, by omega⟩
      have hrb := readBytes_writeBytes_take r.key [] hk i (by simp only [List.length_nil]; omega)
      rw [if_neg (by omega), List.append_nil] at hrb
      exact Next_cons_fail _ _ hrb

/-- C5 (amended): a WAL byte stream of N complete records followed by a
truncated nonempty partial trailing record replays exactly the first N
records and then terminates (`ok = false`); the terminating `Next` call
reports a non-nil error for the partial tail (the boolean `false` here) —
not the error-free end the claim as frozen states. The recovery path in
`lsm.Open` discards that error, so replay still recovers exactly the first
N records. -/
theorem claim_C5 (rs : List Record) (hwf : ∀ r ∈ rs, WF r) (r : Record) (hr : WF r)
    (p : List Nat) (hpre : p <+: Append r) (hne : p ≠ [])
    (hproper : p.length < (Append r).length) :
    readAll (encodeList rs ++ p) = (rs.map canon, false) := by
  have hp := List.prefix_iff_eq_take.mp hpre
  have hfail : Next p = .fail := by
    rw [hp]
    exact Next_take_fail r hr p.length (by
      have := List.length_pos.mpr hne
      omega) hproper
  have hreadp : readAll p = ([], false) := by
    unfold readAll
    simp only [readAllAux, hfail]
  unfold readAll
  rw [readAllAux_encode rs hwf p ((encodeList rs ++ p).length + 1) (by omega), hreadp]
  simp

theorem claim_C5_witness :
    readAll (encodeList [⟨OpPut, [97], [49]⟩] ++ [2]) = ([⟨OpPut, [97], [49]⟩], false) := by
  have h := claim_C5 [⟨OpPut, [97], [49]⟩] (by decide) ⟨OpDelete, [98], []⟩ (by decide)
    [2] (by decide) (by decide) (by decide)
  simpa [canon, OpPut] using h

/-- C5 as frozen is false on the error component: after one complete record
and a 1-byte partial tail the reader does yield exactly the first record
and stop, but the terminating call returns a non-nil error, not the clean
end the claim states. -/
theorem claim_C5_counterexample :
    ¬ (readAll (encodeList [⟨OpPut, [97], [49]⟩] ++ [2]) = ([⟨OpPut, [97], [49]⟩], true)) := by
  decide

end wal

namespace sstable

theorem be32_length (n : Nat) : (be32 n).length = 4 := rfl

theorem int32BE_be32 (n : Nat) (h : n < 2 ^ 31) : int32BE (be32 n) = (n : Int) := by
  simp only [int32BE, be32, List.getD_cons_zero, List.getD_cons_succ]
  rw [if_pos (by omega)]
  congr 1
  omega

theorem readInt32_be32 (n : Nat) (h : n < 2 ^ 31) (u : List Nat) :
    readInt32 (be32 n ++ u) = some ((n : Int), u) := by
  unfold readInt32
  rw [if_neg (by rw [List.length_append, be32_length]; omega)]
  rw [List.take_left' (be32_length n), List.drop_left' (be32_length n), int32BE_be32 n h]

theorem encKV_length (kv : KeyValue) :
    (encKV kv).length = 4 + kv.Key.length + 4 + kv.Value.length := by
  simp only [encKV, List.length_append, be32_length]

theorem WriteBlock_cons (kv : KeyValue) (kvs : List KeyValue) :
    WriteBlock (kv :: kvs) = encKV kv ++ WriteBlock kvs := by
  simp [WriteBlock]

/-- Decoding one serialized entry at the head of the stream. -/
theorem readBlockAux_encKV (K V : List Nat) (h1 : 1 ≤ K.length) (h2 : K.length < 2 ^ 31)
    (h3 : V.length < 2 ^ 31) (rest : List Nat) (fuel : Nat) :
    readBlockAux (fuel + 1) (encKV ⟨K, V⟩ ++ rest)
      = (readBlockAux fuel rest).map (fun kvs => (⟨K, V⟩ : KeyValue) :: kvs) := by
  have hstream : encKV ⟨K, V⟩ ++ rest
      = be32 K.length ++ (K ++ (be32 V.length ++ (V ++ rest))) := by
    simp [encKV, List.append_assoc]
  rw [hstream]
  have hlen0 : (be32 K.length ++ (K ++ (be32 V.length ++ (V ++ rest)))).length ≠ 0 := by
    rw [List.length_append, be32_length]; omega
  have hr1 := readInt32_be32 K.length h2 (K ++ (be32 V.length ++ (V ++ rest)))
  simp only [readBlockAux, if_neg hlen0, hr1]
  rw [if_neg (by omega)]
  rw [Int.toNat_ofNat]
  rw [if_neg (by rw [List.length_append]; omega)]
  rw [List.drop_left]
  have hr2 := readInt32_be32 V.length h3 (V ++ rest)
  simp only [hr2]
  rw [if_neg (by omega)]
  rw [Int.toNat_ofNat]
  rw [if_neg (by rw [List.length_append]; omega)]
  rw [List.take_left, List.drop_left, List.take_left]
  cases readBlockAux fuel rest <;> rfl

theorem readBlockAux_nil (fuel : Nat) : readBlockAux (fuel + 1) [] = some [] := by
  simp [readBlockAux]

/-- Decoding a whole written block recovers the pairs, for any fuel above
the pair count. -/
theorem readBlockAux_WriteBlock : ∀ (kvs : List KeyValue), (∀ kv ∈ kvs, WFkv kv) →
    ∀ fuel, kvs.length < fuel → readBlockAux fuel (WriteBlock kvs) = some kvs
  | [], _, fuel, hf => by
    obtain ⟨f, rfl⟩ : ∃ f, fuel = f + 1 := ⟨fuel - 1, by omega⟩
    exact readBlockAux_nil f
  | kv :: kvs, hwf, fuel, hf => by
    obtain ⟨f, rfl⟩ : ∃ f, fuel = f + 1 := ⟨fuel - 1, by omega⟩
    obtain ⟨K, V⟩ := kv
    obtain ⟨h1, h2, h3⟩ := hwf ⟨K, V⟩ (by simp)
    rw [WriteBlock_cons, readBlockAux_encKV K V h1 h2 h3]
    rw [readBlockAux_WriteBlock kvs (fun x hx => hwf x (by simp [hx])) f (by
      simp only [List.length_cons] at hf; omega)]
    rfl

theorem WriteBlock_length_ge (kvs : List KeyValue) : kvs.length ≤ (WriteBlock kvs).length := by
  induction kvs with
  | nil => simp [WriteBlock]
  | cons kv t ih =>
    rw [WriteBlock_cons, List.length_append, encKV_length]
    simp only [List.length_cons]
    omega

theorem readBlockFromOffset_WriteBlock (kvs : List KeyValue) (hwf : ∀ kv ∈ kvs, WFkv kv) :
    readBlockFromOffset (WriteBlock kvs) 0 = some kvs := by
  unfold readBlockFromOffset
  rw [List.drop_zero]
  exact readBlockAux_WriteBlock kvs hwf _ (by have := WriteBlock_length_ge kvs; omega)

theorem foldl_size_shift (kvs : List KeyValue) : ∀ acc : Nat,
    kvs.foldl (fun acc kv => acc + 4 + kv.Key.length + 4 + kv.Value.length) acc
      = acc + kvs.foldl (fun acc kv => acc + 4 + kv.Key.length + 4 + kv.Value.length) 0 := by
  induction kvs with
  | nil => intro acc; simp
  | cons kv t ih =>
    intro acc
    simp only [List.foldl_cons]
    rw [ih (acc + 4 + kv.Key.length + 4 + kv.Value.length),
      ih (0 + 4 + kv.Key.length + 4 + kv.Value.length)]
    omega

theorem blockByteSize_eq_length (kvs : List KeyValue) :
    blockByteSize kvs = (WriteBlock kvs).length := by
  induction kvs with
  | nil => rfl
  | cons kv t ih =>
    unfold blockByteSize at ih ⊢
    rw [List.foldl_cons, foldl_size_shift, WriteBlock_cons, List.length_append, encKV_length, ih]

theorem readBlockFromOffset_end (file : List Nat) :
    readBlockFromOffset file file.length = some [] := by
  unfold readBlockFromOffset
  rw [List.drop_length]
  exact readBlockAux_nil _

/-- `BuildSparseIndex` over one written nonempty block: a single entry
holding the first key, the last key, the block byte size and offset 0. -/
theorem BuildSparseIndex_WriteBlock (kv : KeyValue) (kvs : List KeyValue)
    (hwf : ∀ x ∈ kv :: kvs, WFkv x) :
    BuildSparseIndex (WriteBlock (kv :: kvs))
      = some [⟨kv.Key, ((kv :: kvs).getLast (by simp)).Key, blockByteSize (kv :: kvs), 0⟩] := by
  unfold BuildSparseIndex
  have hL : 1 ≤ (WriteBlock (kv :: kvs)).length := by
    rw [WriteBlock_cons, List.length_append, encKV_length]
    omega
  obtain ⟨m, hm⟩ : ∃ m, (WriteBlock (kv :: kvs)).length = m + 1 :=
    ⟨(WriteBlock (kv :: kvs)).length - 1, by omega⟩
  have hoff : (0 : Nat) + blockByteSize (kv :: kvs) = (WriteBlock (kv :: kvs)).length := by
    rw [Nat.zero_add, blockByteSize_eq_length]
  rw [hm]
  simp only [buildSparseAux, readBlockFromOffset_WriteBlock (kv :: kvs) hwf, hoff,
    readBlockFromOffset_end]

end sstable

namespace sstable

theorem getD_eq_getElem {α : Type} (l : List α) (d : α) {i : Nat} (hi : i < l.length) :
    l.getD i d = l[i] := by
  simp [List.getD_eq_getElem?_getD, List.getElem?_eq_getElem hi]

theorem sorted_key_lt (bd : List KeyValue)
    (hs : List.Pairwise (fun a b => bytesCmp a.Key b.Key = .lt) bd)
    {i j : Nat} (hi : i < bd.length) (hj : j < bd.length) (hij : i < j) :
    bytesCmp (bd.getD i ⟨[], []⟩).Key (bd.getD j ⟨[], []⟩).Key = .lt := by
  rw [getD_eq_getElem _ _ hi, getD_eq_getElem _ _ hj]
  exact List.pairwise_iff_getElem.mp hs i j hi hj hij

/-- In a strictly sorted block a key match at any position is the unique
match the linear `find?` of `lookupKV` returns. -/
theorem lookupKV_of_found : ∀ (bd : List KeyValue) (key : List Nat),
    List.Pairwise (fun a b => bytesCmp a.Key b.Key = .lt) bd →
    ∀ (mid : Nat), mid < bd.length →
    bytesCmp (bd.getD mid ⟨[], []⟩).Key key = .eq →
    lookupKV bd key = some (bd.getD mid ⟨[], []⟩).Value
  | [], key, _, mid, hmid, _ => absurd hmid (by simp)
  | x :: xs, key, hs, 0, hmid, heq => by
    rw [List.getD_cons_zero] at heq ⊢
    have heqb : (bytesCmp x.Key key == Ordering.eq) = true := by rw [heq]; rfl
    simp [lookupKV, List.find?_cons, heqb]
  | x :: xs, key, hs, mid + 1, hmid, heq => by
    rw [List.getD_cons_succ] at heq ⊢
    have hmid' : mid < xs.length := by simp only [List.length_cons] at hmid; omega
    have hxlt : bytesCmp x.Key (xs.getD mid ⟨[], []⟩).Key = .lt := by
      have hmem : xs.getD mid ⟨[], []⟩ ∈ xs := by
        rw [getD_eq_getElem _ _ hmid']
        exact List.getElem_mem hmid'
      exact (List.pairwise_cons.mp hs).1 _ hmem
    have hkeyeq : (xs.getD mid ⟨[], []⟩).Key = key := (bytesCmp_eq_iff _ _).mp heq
    have hxkey : bytesCmp x.Key key = .lt := by rw [← hkeyeq]; exact hxlt
    have heqb : (bytesCmp x.Key key == Ordering.eq) = false := by rw [hxkey]; rfl
    have ih := lookupKV_of_found xs key (List.pairwise_cons.mp hs).2 mid hmid' heq
    simp only [lookupKV, List.find?_cons, heqb] at ih ⊢
    exact ih

theorem lookupKV_none (bd : List KeyValue) (key : List Nat)
    (hall : ∀ kv ∈ bd, bytesCmp kv.Key key ≠ .eq) : lookupKV bd key = none := by
  unfold lookupKV
  have hfind : List.find? (fun kv => bytesCmp kv.Key key == Ordering.eq) bd = none := by
    rw [List.find?_eq_none]
    intro kv hkv
    cases h : bytesCmp kv.Key key with
    | eq => exact absurd h (hall kv hkv)
    | lt => decide
    | gt => decide
  rw [hfind]
  rfl

/-- The binary-search loop returns exactly the reference lookup, given a
strictly sorted block and loop invariants stating that everything left of
`left` is below the key and everything right of `right` is above it. -/
theorem bsearchAux_correct : ∀ (fuel : Nat) (bd : List KeyValue) (key : List Nat),
    List.Pairwise (fun a b => bytesCmp a.Key b.Key = .lt) bd →
    ∀ (left right : Int), 0 ≤ left → right < (bd.length : Int) →
    (right - left + 1).toNat < fuel →
    (∀ i : Nat, i < bd.length → (i : Int) < left →
      bytesCmp (bd.getD i ⟨[], []⟩).Key key = .lt) →
    (∀ i : Nat, i < bd.length → right < (i : Int) →
      bytesCmp key (bd.getD i ⟨[], []⟩).Key = .lt) →
    bsearchAux bd key fuel left right = lookupKV bd key
  | 0, bd, key, hs, left, right, hl, hr, hfuel, hlow, hhigh => absurd hfuel (by omega)
  | fuel + 1, bd, key, hs, left, right, hl, hr, hfuel, hlow, hhigh => by
    by_cases hle : left ≤ right
    · have hmid1 : 0 ≤ (right - left) / 2 := Int.ediv_nonneg (by omega) (by omega)
      have hmid2 : (right - left) / 2 ≤ right - left := Int.ediv_le_self _ (by omega)
      have hmbounds : left ≤ left + (right - left) / 2 ∧ left + (right - left) / 2 ≤ right := by
        omega
      have hmlen : (left + (right - left) / 2).toNat < bd.length := by omega
      have hmcast : ((left + (right - left) / 2).toNat : Int) = left + (right - left) / 2 := by
        omega
      simp only [bsearchAux]
      rw [if_pos hle]
      cases hcmp : bytesCmp (bd.getD (left + (right - left) / 2).toNat ⟨[], []⟩).Key key with
      | eq =>
        simp only [hcmp]
        exact (lookupKV_of_found bd key hs _ hmlen hcmp).symm
      | lt =>
        simp only [hcmp]
        have hlow' : ∀ i : Nat, i < bd.length → (i : Int) < left + (right - left) / 2 + 1 →
            bytesCmp (bd.getD i ⟨[], []⟩).Key key = .lt := by
          intro i hi hilt
          by_cases hcase2 : i = (left + (right - left) / 2).toNat
          · rw [hcase2]; exact hcmp
          · have hlt' : i < (left + (right - left) / 2).toNat := by omega
            exact bytesCmp_lt_trans _ _ _ (sorted_key_lt bd hs hi hmlen hlt') hcmp
        exact bsearchAux_correct fuel bd key hs (left + (right - left) / 2 + 1) right
          (by omega) hr (by omega) hlow' hhigh
      | gt =>
        simp only [hcmp]
        have hkmid : bytesCmp key (bd.getD (left + (right - left) / 2).toNat ⟨[], []⟩).Key = .lt :=
          (bytesCmp_gt_iff _ _).mp hcmp
        have hhigh' : ∀ i : Nat, i < bd.length → left + (right - left) / 2 - 1 < (i : Int) →
            bytesCmp key (bd.getD i ⟨[], []⟩).Key = .lt := by
          intro i hi higt
          by_cases hcase2 : i = (left + (right - left) / 2).toNat
          · rw [hcase2]; exact hkmid
          · have hgt' : (left + (right - left) / 2).toNat < i := by omega
            exact bytesCmp_lt_trans _ _ _ hkmid (sorted_key_lt bd hs hmlen hi hgt')
        exact bsearchAux_correct fuel bd key hs left (left + (right - left) / 2 - 1)
          hl (by omega) (by omega) hlow hhigh'
    · simp only [bsearchAux]
      rw [if_neg hle]
      refine (lookupKV_none bd key fun kv hkv => ?_).symm
      obtain ⟨i, hi, rfl⟩ := List.mem_iff_getElem.mp hkv
      rw [← getD_eq_getElem bd ⟨[], []⟩ hi]
      by_cases hcase : (i : Int) < left
      · rw [hlow i hi hcase]; simp
      · have hgt : right < (i : Int) := by omega
        rw [show bytesCmp (bd.getD i ⟨[], []⟩).Key key = .gt from
          (bytesCmp_gt_iff _ _).mpr (hhigh i hi hgt)]
        simp

end sstable

namespace sstable

theorem bytesLeB_false_iff (a b : List Nat) : bytesLeB a b = false ↔ bytesCmp a b = .gt := by
  unfold bytesLeB
  cases bytesCmp a b <;> simp <;> decide

theorem binarySearchInBlock_WriteBlock (kvs : List KeyValue) (hwf : ∀ kv ∈ kvs, WFkv kv)
    (hs : List.Pairwise (fun a b => bytesCmp a.Key b.Key = .lt) kvs)
    (idx : List SparseIndex) (sp : SparseIndex) (hoff : sp.offset = 0) (key : List Nat) :
    binarySearchInBlock ⟨WriteBlock kvs, idx⟩ sp key = lookupKV kvs key := by
  unfold binarySearchInBlock
  rw [hoff]
  simp only [readBlockFromOffset_WriteBlock kvs hwf]
  exact bsearchAux_correct (kvs.length + 1) kvs key hs 0 ((kvs.length : Int) - 1)
    (by omega) (by omega) (by omega)
    (fun i hi hilt => absurd hilt (by omega))
    (fun i hi higt => absurd higt (by omega))

theorem sorted_le_last (bd : List KeyValue) (hne : bd ≠ [])
    (hs : List.Pairwise (fun a b => bytesCmp a.Key b.Key = .lt) bd) :
    ∀ kv ∈ bd, kv.Key = (bd.getLast hne).Key ∨ bytesCmp kv.Key (bd.getLast hne).Key = .lt := by
  intro kv hkv
  obtain ⟨i, hi, rfl⟩ := List.mem_iff_getElem.mp hkv
  rw [List.getLast_eq_getElem]
  by_cases hc : i = bd.length - 1
  · subst hc
    exact Or.inl rfl
  · refine Or.inr ?_
    exact List.pairwise_iff_getElem.mp hs i (bd.length - 1) hi (by omega) (by omega)

/-- `GetValue` against the one-entry index of a written block is the
reference lookup. -/
theorem GetValue_WriteBlock (kv0 : KeyValue) (rest : List KeyValue)
    (hwf : ∀ x ∈ kv0 :: rest, WFkv x)
    (hs : List.Pairwise (fun a b => bytesCmp a.Key b.Key = .lt) (kv0 :: rest)) (key : List Nat) :
    GetValue ⟨WriteBlock (kv0 :: rest),
        [⟨kv0.Key, ((kv0 :: rest).getLast (by simp)).Key, blockByteSize (kv0 :: rest), 0⟩]⟩ key
      = lookupKV (kv0 :: rest) key := by
  unfold GetValue
  set sp : SparseIndex :=
    ⟨kv0.Key, ((kv0 :: rest).getLast (by simp)).Key, blockByteSize (kv0 :: rest), 0⟩ with hsp
  cases hp : (bytesLeB sp.startKey key && bytesLeB key sp.endKey) with
  | true =>
    have hfind : List.find? (fun sp => bytesLeB sp.startKey key && bytesLeB key sp.endKey)
        (SSTable.mk (WriteBlock (kv0 :: rest)) [sp]).sparseIndexs = some sp := by
      show List.find? _ [sp] = some sp
      rw [List.find?_cons, hp]
    simp only [hfind]
    exact binarySearchInBlock_WriteBlock (kv0 :: rest) hwf hs _ sp rfl key
  | false =>
    have hfind : List.find? (fun sp => bytesLeB sp.startKey key && bytesLeB key sp.endKey)
        (SSTable.mk (WriteBlock (kv0 :: rest)) [sp]).sparseIndexs = none := by
      show List.find? _ [sp] = none
      rw [List.find?_cons, hp]
      rfl
    simp only [hfind]
    refine (lookupKV_none (kv0 :: rest) key fun kv hkv => ?_).symm
    rcases Bool.and_eq_false_iff.mp hp with hlo | hhi
    · have hgt : bytesCmp sp.startKey key = .gt := (bytesLeB_false_iff _ _).mp hlo
      have hklt : bytesCmp key kv0.Key = .lt := (bytesCmp_gt_iff _ _).mp hgt
      rcases List.mem_cons.mp hkv with rfl | hmem
      · rw [show bytesCmp kv.Key key = .gt from (bytesCmp_gt_iff _ _).mpr hklt]
        simp
      · have h0lt : bytesCmp kv0.Key kv.Key = .lt := (List.pairwise_cons.mp hs).1 kv hmem
        have : bytesCmp key kv.Key = .lt := bytesCmp_lt_trans _ _ _ hklt h0lt
        rw [show bytesCmp kv.Key key = .gt from (bytesCmp_gt_iff _ _).mpr this]
        simp
    · have hgt : bytesCmp key sp.endKey = .gt := (bytesLeB_false_iff _ _).mp hhi
      have hlast : bytesCmp ((kv0 :: rest).getLast (by simp)).Key key = .lt :=
        (bytesCmp_gt_iff _ _).mp hgt
      rcases sorted_le_last (kv0 :: rest) (by simp) hs kv hkv with heq | hlt
      · rw [heq, hlast]
        simp
      · have : bytesCmp kv.Key key = .lt := bytesCmp_lt_trans _ _ _ hlt hlast
        rw [this]
        simp

/-- C6 (amended): for every sequence of pairs with distinct, strictly
ascending, nonempty keys whose key and value lengths fit a signed 32-bit
length prefix, WriteBlock followed by BuildSparseIndex succeeds, and
GetValue returns the original value for every key in the sequence and an
absent result (`nil`) for every other key. The claim as frozen also admits
an empty key, on which it fails (see the counterexample): a zero key length
doubles as the format's block terminator. -/
theorem claim_C6 (kvs : List KeyValue) (hwf : ∀ kv ∈ kvs, WFkv kv)
    (hs : List.Pairwise (fun a b => bytesCmp a.Key b.Key = .lt) kvs) (key : List Nat) :
    ∃ idx, BuildSparseIndex (WriteBlock kvs) = some idx ∧
      GetValue ⟨WriteBlock kvs, idx⟩ key = lookupKV kvs key := by
  cases kvs with
  | nil => exact ⟨[], rfl, rfl⟩
  | cons kv0 rest =>
    refine ⟨[⟨kv0.Key, ((kv0 :: rest).getLast (by simp)).Key, blockByteSize (kv0 :: rest), 0⟩],
      BuildSparseIndex_WriteBlock kv0 rest hwf, ?_⟩
    exact GetValue_WriteBlock kv0 rest hwf hs key

theorem claim_C6_witness :
    ∃ idx, BuildSparseIndex (WriteBlock [⟨[97], [49]⟩, ⟨[98], [50]⟩]) = some idx ∧
      GetValue ⟨WriteBlock [⟨[97], [49]⟩, ⟨[98], [50]⟩], idx⟩ [98]
        = lookupKV [⟨[97], [49]⟩, ⟨[98], [50]⟩] [98] :=
  claim_C6 [⟨[97], [49]⟩, ⟨[98], [50]⟩] (by decide) (by decide) [98]

/-- C6 as frozen is false for an empty key: writing the single pair
`([], "1")` and indexing yields a table on which `GetValue []` is absent —
the zero key length written for the pair is read back as the block
terminator, so the block decodes as empty and no index entry is built. -/
theorem claim_C6_counterexample :
    GetValue ⟨WriteBlock [⟨[], [49]⟩],
        (BuildSparseIndex (WriteBlock [⟨[], [49]⟩])).getD []⟩ []
      ≠ lookupKV [⟨[], [49]⟩] [] := by
  decide

end sstable

namespace lsm

set_option maxRecDepth 4000 in
/-- C1 (code bug): the flush scenario of the spec — Put keys a, b, c with
values 1, 2, 3 under a threshold that triggers a flush on the third write.
A new SSTable file is created, the memtable is empty afterward and the WAL
has length 0 — but `Get("a")`, which returned 1 right before the flush,
now returns NotFound: `Engine.Get` consults only the memtable and never
any SSTable or bloom filter (the `Engine` struct retains no SSTable
handles, sparse indexes or bloom filters at all), contradicting the
claimed newest-to-oldest SSTable read path. -/
theorem claim_C1 :
    (let e0 := Open ⟨6⟩ none []
     let e1 := (Put e0 [97] [49] false true []).1
     let e2 := (Put e1 [98] [50] false true []).1
     let e3 := (Put e2 [99] [51] false true []).1
     e3.files.length = 1 ∧ e3.walBytes = [] ∧ (skiplist.scanList e3.memtable none none) = []
       ∧ Get e2 [97] = some [49] ∧ Get e3 [97] = none) := by
  decide

set_option maxRecDepth 4000 in
/-- C2 (code bug): both `Engine.Put` and `Engine.Delete` discard the WAL
append's result (`_ = e.wal.Append(...)`). With a failing WAL append the
call still returns a nil error and the mutation is fully applied to the
memtable, while the log gains nothing — the claim's "durability precedes
visibility" contract is not implemented. -/
theorem claim_C2 :
    (let r := Put (Open ⟨0⟩ none []) [97] [49] true true []
     r.2 = none ∧ Get r.1 [97] = some [49] ∧ r.1.walBytes = []) ∧
    (let d := Delete (Put (Open ⟨0⟩ none []) [97] [49] false true []).1 [97] true
     d.2 = none ∧ Get d.1 [97] = none
       ∧ d.1.walBytes = wal.Append ⟨wal.OpPut, [97], [49]⟩) := by
  decide

set_option maxRecDepth 4000 in
/-- C3 (code bug): a successful `Engine.Flush` writes the raw block bytes
into `data_1.sst`, replaces the memtable and truncates the WAL — and that
is the complete post-state: no sparse index is built, no bloom filter is
built, and no table handle is appended to any engine list (the struct has
no such field), so the flushed table is not "indexed" as claimed. On a
failed SSTable write the error is surfaced, the memtable keeps its content
and the WAL is not truncated. -/
theorem claim_C3 :
    (let e := (Put (Open ⟨0⟩ none []) [97] [49] false true []).1
     Flush e true [] = ({ e with
         sstCount := 1
         files := [(1, WriteFromSkipList e.memtable)]
         memtable := skiplist.New []
         walBytes := [] }, none) ∧
     (Flush e false []).1.walBytes = e.walBytes ∧
     Get (Flush e false []).1 [97] = some [49] ∧
     (Flush e false []).2 = some .io) := by
  decide

end lsm

namespace skiplist

theorem chainFrom_length_le (s : SkipList) : ∀ (fuel : Nat) (c : Option Nat),
    (chainFrom s fuel c).length ≤ fuel
  | 0, _ => by simp [chainFrom]
  | fuel + 1, none => by simp [chainFrom]
  | fuel + 1, some i => by
    simp only [chainFrom, List.length_cons]
    have := chainFrom_length_le s fuel (nextAt s i 0)
    omega

/-- A linked list description determines the chain walk. -/
theorem chainFrom_of_linked (s : SkipList) : ∀ (C : List Nat) (x : Nat) (fuel : Nat),
    linked s 0 x C → C.length < fuel → chainFrom s fuel (nextAt s x 0) = C
  | [], x, fuel, hl, hf => by
    obtain ⟨f, rfl⟩ : ∃ f, fuel = f + 1 := ⟨fuel - 1, by omega⟩
    unfold linked at hl
    rw [hl]
    rfl
  | j :: rest, x, fuel, hl, hf => by
    obtain ⟨f, rfl⟩ : ∃ f, fuel = f + 1 := ⟨fuel - 1, by omega⟩
    unfold linked at hl
    rw [hl.1]
    show j :: chainFrom s f (nextAt s j 0) = j :: rest
    rw [chainFrom_of_linked s rest j f hl.2 (by simp only [List.length_cons] at hf; omega)]

theorem linked_append (s : SkipList) (l : Nat) : ∀ (A Q : List Nat) (x i : Nat),
    linked s l x (A ++ i :: Q) → linked s l i Q
  | [], Q, x, i, h => by
    unfold linked at h
    exact h.2
  | a :: A', Q, x, i, h => by
    unfold linked at h
    exact linked_append s l A' Q a i h.2

/-- Following the level-`l` pointers from the last of `x :: P` reaches the
head of the remainder. -/
theorem linked_next_of_split (s : SkipList) (l : Nat) : ∀ (P R : List Nat) (x : Nat),
    linked s l x (P ++ R) → nextAt s (P.getLastD x) l = R.head?
  | [], R, x, h => by
    cases R with
    | nil => exact h
    | cons y R' => exact h.1
  | p :: P', R, x, h => by
    unfold linked at h
    rw [List.getLastD_cons]
    exact linked_next_of_split s l P' R p h.2

/-- The Go walk along one level, described by its linked list: it stops at
the last node whose key is still below the target. -/
theorem walkLevel_linked (s : SkipList) (key : List Nat) (l : Nat) :
    ∀ (LL : List Nat) (x : Nat) (fuel : Nat), linked s l x LL → LL.length < fuel →
    walkLevel s key l fuel x = (LL.takeWhile (keyLt s key)).getLastD x
  | [], x, fuel, hl, hf => by
    obtain ⟨f, rfl⟩ : ∃ f, fuel = f + 1 := ⟨fuel - 1, by omega⟩
    unfold linked at hl
    unfold walkLevel
    rw [hl]
    rfl
  | j :: rest, x, fuel, hl, hf => by
    obtain ⟨f, rfl⟩ : ∃ f, fuel = f + 1 := ⟨fuel - 1, by omega⟩
    unfold linked at hl
    unfold walkLevel
    simp only [hl.1]
    cases hkj : keyLt s key j with
    | true =>
      rw [if_pos (show (bytesLtB (getNode s j).key key) = true from hkj)]
      rw [walkLevel_linked s key l rest j f hl.2 (by simp only [List.length_cons] at hf; omega)]
      rw [List.takeWhile_cons, hkj, if_pos rfl, List.getLastD_cons]
    | false =>
      have hkj' : bytesLtB (getNode s j).key key = false := hkj
      rw [if_neg (by rw [hkj']; simp)]
      rw [List.takeWhile_cons, hkj, if_neg (by simp)]
      rfl

/-- On a strictly sorted segment, the nodes below the target form a
prefix: `takeWhile` and `filter` agree. -/
theorem takeWhile_eq_filter_sorted (s : SkipList) (key : List Nat) :
    ∀ (LL : List Nat), List.Pairwise (fun a b => bytesCmp (keyAt s a) (keyAt s b) = .lt) LL →
    LL.takeWhile (keyLt s key) = LL.filter (keyLt s key)
  | [], _ => rfl
  | j :: rest, hp => by
    rw [List.takeWhile_cons, List.filter_cons]
    cases hkj : keyLt s key j with
    | true =>
      rw [if_pos rfl, if_pos rfl]
      rw [takeWhile_eq_filter_sorted s key rest (List.pairwise_cons.mp hp).2]
    | false =>
      rw [if_neg (by simp), if_neg (by simp)]
      have hrest : rest.filter (keyLt s key) = [] := by
        rw [List.filter_eq_nil_iff]
        intro b hb
        have hjb := (List.pairwise_cons.mp hp).1 b hb
        intro hbk
        have hbk' : bytesCmp (keyAt s b) key = .lt := by
          simpa [keyLt, bytesLtB_iff, keyAt] using hbk
        have hjk : bytesCmp (keyAt s j) key = .lt :=
          bytesCmp_lt_trans _ _ _ hjb hbk'
        have : keyLt s key j = true := by
          simpa [keyLt, bytesLtB_iff, keyAt] using hjk
        rw [this] at hkj
        cases hkj
      rw [hrest]

end skiplist

namespace skiplist

theorem getLastD_mem : ∀ (L : List Nat) (d : Nat), L ≠ [] → L.getLastD d ∈ L
  | [], _, h => absurd rfl h
  | a :: L', d, _ => by
    rw [List.getLastD_cons]
    cases L' with
    | nil => simp [List.getLastD]
    | cons b L'' => exact List.mem_cons_of_mem a (getLastD_mem (b :: L'') a (by simp))

theorem getLastD_append_cons : ∀ (u : List Nat) (x : Nat) (T : List Nat) (d : Nat),
    (u ++ x :: T).getLastD d = T.getLastD x
  | [], x, T, d => List.getLastD_cons d x T
  | a :: u', x, T, d => by
    rw [List.cons_append, List.getLastD_cons, getLastD_append_cons u' x T a]

theorem chain_nodup {s : SkipList} (h : Inv s) : (chain s).Nodup := by
  refine h.2.2.2.2.1.imp ?_
  intro a b hab heq
  subst heq
  rw [bytesCmp_self] at hab
  cases hab

theorem chain_length_lt {s : SkipList} (h : Inv s) : (chain s).length < s.nodes.length := by
  have hnd : (0 :: chain s).Nodup := by
    rw [List.nodup_cons]
    exact ⟨fun hc => (h.2.2.2.1 0 hc).1 rfl, chain_nodup h⟩
  have hsub : (0 :: chain s) ⊆ List.range s.nodes.length := by
    intro i hi
    rw [List.mem_range]
    rcases List.mem_cons.mp hi with rfl | hi'
    · exact h.2.1
    · exact (h.2.2.2.1 i hi').2.1
  have hle := (List.subperm_of_subset hnd hsub).length_le
  rw [List.length_cons, List.length_range] at hle
  omega

theorem levelList_sublist (s : SkipList) (l : Nat) : List.Sublist (levelList s l) (chain s) :=
  List.filter_sublist _

theorem levelList_length_lt {s : SkipList} (h : Inv s) (l : Nat) :
    (levelList s l).length < s.nodes.length :=
  Nat.lt_of_le_of_lt (levelList_sublist s l).length_le (chain_length_lt h)

theorem levelList_pairwise {s : SkipList} (h : Inv s) (l : Nat) :
    List.Pairwise (fun a b => bytesCmp (keyAt s a) (keyAt s b) = .lt) (levelList s l) :=
  List.Pairwise.sublist (levelList_sublist s l) h.2.2.2.2.1

theorem levelList_filter (s : SkipList) (l₁ l₂ : Nat) (hle : l₁ ≤ l₂) :
    levelList s l₂ = (levelList s l₁).filter (fun i => decide (l₂ < height s i)) := by
  unfold levelList
  rw [List.filter_filter]
  refine (List.filter_congr ?_).symm
  intro i _
  by_cases hh : l₂ < height s i
  · simp only [decide_eq_true hh, decide_eq_true (by omega : l₁ < height s i), Bool.and_self]
  · simp [hh]

theorem levelList_zero {s : SkipList} (h : Inv s) : levelList s 0 = chain s := by
  unfold levelList
  rw [List.filter_eq_self]
  intro i hi
  exact decide_eq_true (h.2.2.2.1 i hi).2.2.1

theorem updTarget_100 {s : SkipList} (h : Inv s) (key : List Nat) :
    updTarget s key 100 = 0 := by
  unfold updTarget
  have hempty : levelList s 100 = [] := by
    unfold levelList
    rw [List.filter_eq_nil_iff]
    intro i hi
    have := (h.2.2.2.1 i hi).2.2.2
    simp only [decide_eq_true_eq]
    omega
  rw [hempty]
  rfl

/-- The membership facts about a nonempty `updTarget`. -/
theorem updTarget_mem {s : SkipList} (key : List Nat) (l : Nat)
    (hne : (levelList s l).filter (keyLt s key) ≠ []) :
    updTarget s key l ∈ levelList s l ∧ keyLt s key (updTarget s key l) = true := by
  have hmem := getLastD_mem _ 0 hne
  unfold updTarget
  constructor
  · exact List.mem_of_mem_filter hmem
  · exact List.of_mem_filter hmem

/-- One step of the downward walk: starting where level `l + 1` left off,
the walk along level `l` ends at `updTarget s key l`. -/
theorem walk_step {s : SkipList} (h : Inv s) (key : List Nat) (l : Nat) (hl : l < 100) :
    walkLevel s key l s.nodes.length (updTarget s key (l + 1)) = updTarget s key l := by
  by_cases hne : (levelList s (l + 1)).filter (keyLt s key) = []
  · have hx : updTarget s key (l + 1) = 0 := by unfold updTarget; rw [hne]; rfl
    rw [hx]
    rw [walkLevel_linked s key l (levelList s l) 0 s.nodes.length
      (h.2.2.2.2.2 l hl) (levelList_length_lt h l)]
    rw [takeWhile_eq_filter_sorted s key (levelList s l) (levelList_pairwise h l)]
    rfl
  · obtain ⟨hmem1, hP⟩ := updTarget_mem key (l + 1) hne
    have hmem0 : updTarget s key (l + 1) ∈ levelList s l := by
      rw [levelList_filter s l (l + 1) (by omega)] at hmem1
      exact List.mem_of_mem_filter hmem1
    obtain ⟨A, Q, hAQ⟩ := List.append_of_mem hmem0
    have hlinkQ : linked s l (updTarget s key (l + 1)) Q := by
      have := h.2.2.2.2.2 l hl
      rw [hAQ] at this
      exact linked_append s l A Q 0 _ this
    have hQlen : Q.length < s.nodes.length := by
      have := levelList_length_lt h l
      rw [hAQ, List.length_append, List.length_cons] at this
      omega
    rw [walkLevel_linked s key l Q _ s.nodes.length hlinkQ hQlen]
    have hQpair : List.Pairwise (fun a b => bytesCmp (keyAt s a) (keyAt s b) = .lt) Q := by
      have hp := levelList_pairwise h l
      rw [hAQ] at hp
      exact (List.pairwise_cons.mp (List.pairwise_append.mp hp).2.1).2
    have hfA : A.filter (keyLt s key) = A := by
      rw [List.filter_eq_self]
      intro a ha
      have hp := levelList_pairwise h l
      rw [hAQ] at hp
      have hax := (List.pairwise_append.mp hp).2.2 a ha (updTarget s key (l + 1)) (by simp)
      have hxk : bytesCmp (keyAt s (updTarget s key (l + 1))) key = .lt :=
        (bytesLtB_iff _ _).mp hP
      exact (bytesLtB_iff _ _).mpr (bytesCmp_lt_trans _ _ _ hax hxk)
    have hupd : updTarget s key l
        = (Q.filter (keyLt s key)).getLastD (updTarget s key (l + 1)) := by
      unfold updTarget
      rw [hAQ, List.filter_append, List.filter_cons, hP, if_pos rfl, hfA, getLastD_append_cons]
      rfl
    rw [hupd, takeWhile_eq_filter_sorted s key Q hQpair]

end skiplist

namespace skiplist

theorem buildUpdate_spec {s : SkipList} (h : Inv s) (key : List Nat) : ∀ l, l ≤ 100 →
    (buildUpdate s key l (updTarget s key l)).2 = updTarget s key 0 ∧
    (buildUpdate s key l (updTarget s key l)).1.length = l ∧
    (∀ j, j < l → (buildUpdate s key l (updTarget s key l)).1.getD j 0 = updTarget s key j)
  | 0, _ => ⟨rfl, rfl, fun j hj => absurd hj (by omega)⟩
  | l + 1, hle => by
    have hstep : walkLevel s key l s.nodes.length (updTarget s key (l + 1)) = updTarget s key l :=
      walk_step h key l (by omega)
    obtain ⟨ih1, ih2, ih3⟩ := buildUpdate_spec h key l (by omega)
    refine ⟨?_, ?_, ?_⟩
    · show (buildUpdate s key l (walkLevel s key l s.nodes.length (updTarget s key (l + 1)))).2
        = updTarget s key 0
      rw [hstep]
      exact ih1
    · show ((buildUpdate s key l (walkLevel s key l s.nodes.length (updTarget s key (l + 1)))).1
        ++ [walkLevel s key l s.nodes.length (updTarget s key (l + 1))]).length = l + 1
      rw [hstep, List.length_append, ih2]
      rfl
    · intro j hj
      show ((buildUpdate s key l (walkLevel s key l s.nodes.length (updTarget s key (l + 1)))).1
        ++ [walkLevel s key l s.nodes.length (updTarget s key (l + 1))]).getD j 0
          = updTarget s key j
      rw [hstep]
      by_cases hjl : j < l
      · rw [List.getD_append _ _ _ _ (by rw [ih2]; omega)]
        exact ih3 j hjl
      · have hj' : j = l := by omega
        subst hj'
        rw [List.getD_append_right _ _ _ _ (le_of_eq ih2), ih2, Nat.sub_self]
        rfl

theorem descend_spec {s : SkipList} (h : Inv s) (key : List Nat) : ∀ l, l ≤ 100 →
    descend s key l (updTarget s key l) = updTarget s key 0
  | 0, _ => rfl
  | l + 1, hle => by
    show descend s key l (walkLevel s key l s.nodes.length (updTarget s key (l + 1)))
      = updTarget s key 0
    rw [walk_step h key l (by omega)]
    exact descend_spec h key l (by omega)

theorem descend_top {s : SkipList} (h : Inv s) (key : List Nat) :
    descend s key 100 0 = updTarget s key 0 := by
  have := descend_spec h key 100 (le_refl _)
  rwa [updTarget_100 h key] at this

theorem nextAt_head {s : SkipList} {l x : Nat} {C : List Nat} (hc : linked s l x C) :
    nextAt s x l = C.head? := by
  cases C with
  | nil => exact hc
  | cons y C' => exact hc.1

/-- Splitting the chain at the target: the successor of `updTarget key 0`
is the first node whose key is not below the target. -/
theorem next_updTarget0 {s : SkipList} (h : Inv s) (key : List Nat) :
    nextAt s (updTarget s key 0) 0 = ((chain s).dropWhile (keyLt s key)).head? := by
  have hlink := h.2.2.2.2.2 0 (by omega)
  rw [levelList_zero h] at hlink
  have hupd : updTarget s key 0 = ((chain s).takeWhile (keyLt s key)).getLastD 0 := by
    unfold updTarget
    rw [levelList_zero h, ← takeWhile_eq_filter_sorted s key (chain s) h.2.2.2.2.1]
  rw [hupd]
  refine linked_next_of_split s 0 ((chain s).takeWhile (keyLt s key))
    ((chain s).dropWhile (keyLt s key)) 0 ?_
  rw [List.takeWhile_append_dropWhile]
  exact hlink

theorem lookupAL_none (m : List (List Nat × List Nat)) (key : List Nat)
    (hall : ∀ kv ∈ m, bytesCmp kv.1 key ≠ .eq) : lookupAL m key = none := by
  unfold lookupAL
  have hfind : m.find? (fun kv => bytesCmp kv.1 key == .eq) = none := by
    rw [List.find?_eq_none]
    intro kv hkv
    cases hc : bytesCmp kv.1 key with
    | eq => exact absurd hc (hall kv hkv)
    | lt => decide
    | gt => decide
  rw [hfind]
  rfl

theorem lookupAL_split (key : List Nat) : ∀ (P : List (List Nat × List Nat))
    (k0 v0 : List Nat) (suffix : List (List Nat × List Nat)),
    (∀ p ∈ P, bytesCmp p.1 key = .lt) → bytesCmp k0 key = .eq →
    lookupAL (P ++ (k0, v0) :: suffix) key = some v0
  | [], k0, v0, suffix, _, heq => by
    unfold lookupAL
    rw [List.nil_append, List.find?_cons_of_pos _ (by rw [heq]; rfl)]
    rfl
  | p :: P', k0, v0, suffix, hP, heq => by
    unfold lookupAL
    rw [List.cons_append, List.find?_cons_of_neg _ (by rw [hP p (by simp)]; decide)]
    exact lookupAL_split key P' k0 v0 suffix (fun q hq => hP q (by simp [hq])) heq

end skiplist

namespace skiplist

theorem dropWhile_head_false (p : Nat → Bool) (y : Nat) (R : List Nat) :
    ∀ (l : List Nat), l.dropWhile p = y :: R → p y = false
  | [], h => by cases h
  | a :: t, h => by
    rw [List.dropWhile_cons] at h
    by_cases hp : p a
    · rw [if_pos hp] at h
      exact dropWhile_head_false p y R t h
    · rw [if_neg hp] at h
      injection h with h1 _
      subst h1
      exact Bool.eq_false_iff.mpr hp

/-- `SkipList.Get` is the reference lookup of the abstraction. -/
theorem Get_spec {s : SkipList} (h : Inv s) (key : List Nat) :
    s.Get key = lookupAL (toList s) key := by
  unfold SkipList.Get
  rw [h.1]
  rw [descend_top h key]
  simp only [next_updTarget0 h key]
  cases hD : (chain s).dropWhile (keyLt s key) with
  | nil =>
    rw [List.head?_nil]
    show none = lookupAL (toList s) key
    refine (lookupAL_none (toList s) key ?_).symm
    intro kv hkv
    obtain ⟨i, hi, rfl⟩ := List.mem_map.mp hkv
    have hchain : (chain s).takeWhile (keyLt s key) = chain s := by
      have htd := List.takeWhile_append_dropWhile (keyLt s key) (chain s)
      rw [hD, List.append_nil] at htd
      exact htd
    have hmemT : i ∈ (chain s).takeWhile (keyLt s key) := by rw [hchain]; exact hi
    have hlt := (bytesLtB_iff _ _).mp (List.mem_takeWhile_imp (p := keyLt s key) hmemT)
    intro hc
    rw [hlt] at hc
    cases hc
  | cons y D' =>
    rw [List.head?_cons]
    show (if bytesCmp (getNode s y).key key = .eq then some (getNode s y).value else none)
      = lookupAL (toList s) key
    have hchain : chain s = (chain s).takeWhile (keyLt s key) ++ y :: D' := by
      conv_lhs => rw [← List.takeWhile_append_dropWhile (keyLt s key) (chain s)]
      rw [hD]
    by_cases heq : bytesCmp (getNode s y).key key = .eq
    · rw [if_pos heq]
      have htl : toList s
          = ((chain s).takeWhile (keyLt s key)).map
              (fun i => ((getNode s i).key, (getNode s i).value))
            ++ ((getNode s y).key, (getNode s y).value)
              :: D'.map (fun i => ((getNode s i).key, (getNode s i).value)) := by
        unfold toList
        conv_lhs => rw [hchain]
        rw [List.map_append, List.map_cons]
      rw [htl]
      refine (lookupAL_split key _ _ _ _ ?_ heq).symm
      intro p hp
      obtain ⟨i, hi, rfl⟩ := List.mem_map.mp hp
      exact (bytesLtB_iff _ _).mp (List.mem_takeWhile_imp (p := keyLt s key) hi)
    · rw [if_neg heq]
      refine (lookupAL_none (toList s) key ?_).symm
      intro kv hkv
      obtain ⟨i, hi, rfl⟩ := List.mem_map.mp hkv
      rw [hchain] at hi
      rcases List.mem_append.mp hi with hiT | hiY
      · have hlt := (bytesLtB_iff _ _).mp (List.mem_takeWhile_imp (p := keyLt s key) hiT)
        intro hc
        rw [hlt] at hc
        cases hc
      · have hygt : bytesCmp (getNode s y).key key = .gt := by
          have hyfalse : keyLt s key y = false := dropWhile_head_false _ y D' (chain s) hD
          cases hcy : bytesCmp (getNode s y).key key with
          | lt =>
            have : keyLt s key y = true := (bytesLtB_iff _ _).mpr hcy
            rw [this] at hyfalse
            cases hyfalse
          | eq => exact absurd hcy heq
          | gt => rfl
        have hkylt : bytesCmp key (getNode s y).key = .lt := (bytesCmp_gt_iff _ _).mp hygt
        rcases List.mem_cons.mp hiY with rfl | hiD
        · exact heq
        · have hyd : bytesCmp (keyAt s y) (keyAt s i) = .lt := by
            have hp := h.2.2.2.2.1
            rw [hchain] at hp
            exact (List.pairwise_cons.mp (List.pairwise_append.mp hp).2.1).1 i hiD
          have hgt : bytesCmp key (keyAt s i) = .lt := bytesCmp_lt_trans _ _ _ hkylt hyd
          intro hc
          have hc' : bytesCmp (keyAt s i) key = .eq := hc
          rw [(bytesCmp_gt_iff _ _).mpr hgt] at hc'
          cases hc'

end skiplist

namespace skiplist

theorem takeWhile_all (p : Nat → Bool) : ∀ (l : List Nat), (∀ i ∈ l, p i = true) →
    l.takeWhile p = l
  | [], _ => rfl
  | a :: t, hall => by
    rw [List.takeWhile_cons, if_pos (hall a (by simp))]
    rw [takeWhile_all p t (fun i hi => hall i (by simp [hi]))]

theorem linked_getLastD (s : SkipList) (l : Nat) : ∀ (T D : List Nat) (x : Nat),
    linked s l x (T ++ D) → linked s l (T.getLastD x) D
  | [], D, x, hl => hl
  | t :: T', D, x, hl => by
    rw [List.getLastD_cons]
    exact linked_getLastD s l T' D t hl.2

/-- Draining the scan iterator from the successor of `x`, described by the
linked list hanging off `x`: it yields the key/value pairs of the longest
suffix-free run below the end bound. -/
theorem iterAll_linked (s : SkipList) (e : Option (List Nat)) :
    ∀ (R : List Nat) (x fuel : Nat), linked s 0 x R → R.length < fuel →
    iterAll s fuel (nextAt s x 0) e
      = (R.takeWhile (endOk s e)).map (fun i => ((getNode s i).key, (getNode s i).value))
  | [], x, fuel, hl, hf => by
    obtain ⟨f, rfl⟩ : ∃ f, fuel = f + 1 := ⟨fuel - 1, by omega⟩
    unfold linked at hl
    rw [hl]
    rfl
  | j :: R', x, fuel, hl, hf => by
    obtain ⟨f, rfl⟩ : ∃ f, fuel = f + 1 := ⟨fuel - 1, by omega⟩
    unfold linked at hl
    rw [hl.1]
    cases e with
    | none =>
      show ((getNode s j).key, (getNode s j).value) :: iterAll s f (nextAt s j 0) none
        = ((j :: R').takeWhile (endOk s none)).map
            (fun i => ((getNode s i).key, (getNode s i).value))
      rw [iterAll_linked s none R' j f hl.2 (by simp only [List.length_cons] at hf; omega)]
      rw [List.takeWhile_cons, if_pos (show endOk s none j = true from rfl), List.map_cons]
    | some eb =>
      show (if bytesLtB (getNode s j).key eb then
            ((getNode s j).key, (getNode s j).value) :: iterAll s f (nextAt s j 0) (some eb)
          else [])
        = ((j :: R').takeWhile (endOk s (some eb))).map
            (fun i => ((getNode s i).key, (getNode s i).value))
      cases hb : bytesLtB (getNode s j).key eb with
      | true =>
        rw [if_pos rfl]
        rw [iterAll_linked s (some eb) R' j f hl.2
          (by simp only [List.length_cons] at hf; omega)]
        have hb' : endOk s (some eb) j = true := hb
        rw [List.takeWhile_cons, hb', if_pos rfl, List.map_cons]
      | false =>
        rw [if_neg (by simp)]
        have hb' : endOk s (some eb) j = false := hb
        rw [List.takeWhile_cons, hb', if_neg (by simp)]
        rfl

/-- On a strictly sorted segment, the nodes at or above the target form a
suffix: `dropWhile` and the complementary `filter` agree. -/
theorem dropWhile_eq_filter_sorted (s : SkipList) (key : List Nat) :
    ∀ (LL : List Nat), List.Pairwise (fun a b => bytesCmp (keyAt s a) (keyAt s b) = .lt) LL →
    LL.dropWhile (keyLt s key) = LL.filter (fun i => !(keyLt s key i))
  | [], _ => rfl
  | j :: rest, hp => by
    rw [List.dropWhile_cons, List.filter_cons]
    cases hkj : keyLt s key j with
    | true =>
      rw [if_pos rfl, if_neg (by simp)]
      exact dropWhile_eq_filter_sorted s key rest (List.pairwise_cons.mp hp).2
    | false =>
      rw [if_neg (by simp), if_pos (by simp)]
      have hrest : rest.filter (fun i => !(keyLt s key i)) = rest := by
        rw [List.filter_eq_self]
        intro b hb
        have hjb := (List.pairwise_cons.mp hp).1 b hb
        cases hbk : keyLt s key b with
        | true =>
          have hbk' : bytesCmp (keyAt s b) key = .lt := by
            simpa [keyLt, bytesLtB_iff, keyAt] using hbk
          have hjk : bytesCmp (keyAt s j) key = .lt :=
            bytesCmp_lt_trans _ _ _ hjb hbk'
          have : keyLt s key j = true := by
            simpa [keyLt, bytesLtB_iff, keyAt] using hjk
          rw [this] at hkj
          cases hkj
        | false => simp
      rw [hrest]

/-- `takeWhile` against the end bound is a `filter` on sorted segments. -/
theorem takeWhile_endOk_eq_filter (s : SkipList) (b : Option (List Nat)) (LL : List Nat)
    (hp : List.Pairwise (fun x y => bytesCmp (keyAt s x) (keyAt s y) = .lt) LL) :
    LL.takeWhile (endOk s b) = LL.filter (endOk s b) := by
  cases b with
  | none =>
    rw [takeWhile_all (endOk s none) LL (fun i _ => rfl)]
    rw [(List.filter_eq_self (p := endOk s none)).mpr (fun i _ => rfl)]
  | some eb =>
    have hfun : endOk s (some eb) = keyLt s eb := funext (fun i => rfl)
    rw [hfun]
    exact takeWhile_eq_filter_sorted s eb LL hp

/-- The level-0 target written with `takeWhile` over the chain. -/
theorem updTarget0_takeWhile {s : SkipList} (h : Inv s) (key : List Nat) :
    updTarget s key 0 = ((chain s).takeWhile (keyLt s key)).getLastD 0 := by
  unfold updTarget
  rw [levelList_zero h, ← takeWhile_eq_filter_sorted s key (chain s) h.2.2.2.2.1]

/-- `SkipList.Scan` yields exactly the abstraction entries inside `[a, b)`,
in key order. -/
theorem scanList_spec {s : SkipList} (h : Inv s) (a b : Option (List Nat)) :
    scanList s a b = (toList s).filter (fun kv => inBounds a b kv.1) := by
  have hpair := h.2.2.2.2.1
  have hlink0 : linked s 0 0 (chain s) := by
    have := h.2.2.2.2.2 0 (by omega)
    rwa [levelList_zero h] at this
  cases a with
  | none =>
    show iterAll s s.nodes.length (nextAt s 0 0) b
      = (toList s).filter (fun kv => inBounds none b kv.1)
    rw [iterAll_linked s b (chain s) 0 s.nodes.length hlink0 (chain_length_lt h)]
    rw [takeWhile_endOk_eq_filter s b (chain s) hpair]
    unfold toList
    rw [List.filter_map]
    refine congrArg _ (List.filter_congr ?_)
    intro i _
    show endOk s b i = inBounds none b (keyAt s i)
    cases b <;> simp [endOk, inBounds, keyAt]
  | some ab =>
    show iterAll s s.nodes.length (nextAt s (descend s ab s.MaxLevel 0) 0) b
      = (toList s).filter (fun kv => inBounds (some ab) b kv.1)
    rw [h.1, descend_top h ab]
    have hlinkD : linked s 0 (updTarget s ab 0) ((chain s).dropWhile (keyLt s ab)) := by
      rw [updTarget0_takeWhile h ab]
      refine linked_getLastD s 0 _ _ 0 ?_
      rw [List.takeWhile_append_dropWhile]
      exact hlink0
    have hDlen : ((chain s).dropWhile (keyLt s ab)).length < s.nodes.length :=
      Nat.lt_of_le_of_lt (List.dropWhile_sublist (keyLt s ab)).length_le (chain_length_lt h)
    rw [iterAll_linked s b _ (updTarget s ab 0) s.nodes.length hlinkD hDlen]
    have hDpair : List.Pairwise (fun x y => bytesCmp (keyAt s x) (keyAt s y) = .lt)
        ((chain s).dropWhile (keyLt s ab)) :=
      List.Pairwise.sublist (List.dropWhile_sublist (keyLt s ab)) hpair
    rw [takeWhile_endOk_eq_filter s b _ hDpair]
    rw [dropWhile_eq_filter_sorted s ab (chain s) hpair]
    rw [List.filter_filter]
    unfold toList
    rw [List.filter_map]
    refine congrArg _ (List.filter_congr ?_)
    intro i _
    show (endOk s b i && !(keyLt s ab i)) = inBounds (some ab) b (keyAt s i)
    cases b <;> simp [endOk, inBounds, keyAt, keyLt, Bool.and_comm]

end skiplist

namespace skiplist

theorem getD_set_self {α : Type} (xs : List α) (k : Nat) (v dflt : α) (h : k < xs.length) :
    (xs.set k v).getD k dflt = v := by
  rw [List.getD_eq_getElem?_getD, List.getElem?_set_self h]
  rfl

theorem getD_set_ne {α : Type} (xs : List α) (k j : Nat) (v dflt : α) (h : j ≠ k) :
    (xs.set k v).getD j dflt = xs.getD j dflt := by
  rw [List.getD_eq_getElem?_getD, List.getElem?_set_ne (fun he => h he.symm),
    ← List.getD_eq_getElem?_getD]

theorem getD_replicate {α : Type} (n : Nat) (a dflt : α) (i : Nat) :
    (List.replicate n a).getD i dflt = if i < n then a else dflt := by
  rw [List.getD_eq_getElem?_getD, List.getElem?_replicate]
  by_cases h : i < n <;> simp [h]

theorem getD_append_out {α : Type} (l : List α) (x dflt : α) (j : Nat) (hj : j ≠ l.length) :
    (l ++ [x]).getD j dflt = l.getD j dflt := by
  by_cases h : j < l.length
  · rw [List.getD_append _ _ _ _ h]
  · rw [List.getD_eq_getElem?_getD, List.getElem?_eq_none (by simp; omega),
      List.getD_eq_getElem?_getD, List.getElem?_eq_none (by omega)]

theorem getD_append_self {α : Type} (l : List α) (x dflt : α) :
    (l ++ [x]).getD l.length dflt = x := by
  rw [List.getD_append_right _ _ _ _ (le_refl _), Nat.sub_self]
  rfl

theorem genLevelAux_bounds : ∀ (coins : List Bool) (lvl max : Nat), lvl ≤ max →
    lvl ≤ (genLevelAux coins lvl max).1 ∧ (genLevelAux coins lvl max).1 ≤ max
  | [], lvl, max, hle => by
    unfold genLevelAux
    by_cases h : lvl < max
    · rw [if_pos h]
      show lvl ≤ lvl ∧ lvl ≤ max
      exact ⟨le_refl _, by omega⟩
    · rw [if_neg h]; exact ⟨le_refl _, hle⟩
  | c :: rest, lvl, max, hle => by
    unfold genLevelAux
    by_cases h : lvl < max
    · rw [if_pos h]
      cases c with
      | true =>
        show lvl ≤ (genLevelAux rest (lvl + 1) max).1 ∧ (genLevelAux rest (lvl + 1) max).1 ≤ max
        have ih := genLevelAux_bounds rest (lvl + 1) max (by omega)
        exact ⟨by omega, ih.2⟩
      | false =>
        show lvl ≤ lvl ∧ lvl ≤ max
        exact ⟨le_refl _, by omega⟩
    · rw [if_neg h]; exact ⟨le_refl _, hle⟩

theorem chain_New (coins : List Bool) : chain (New coins) = [] := rfl

theorem toList_New (coins : List Bool) : toList (New coins) = [] := rfl

theorem New_inv (coins : List Bool) : Inv (New coins) := by
  refine ⟨rfl, by simp [New], by simp [New, height, getNode], ?_, ?_, ?_⟩
  · rw [chain_New]; intro i hi; cases hi
  · rw [chain_New]; exact List.Pairwise.nil
  · intro l hl
    unfold levelList
    rw [chain_New]
    show (List.replicate 100 (none : Option Nat)).getD l none = none
    rw [getD_replicate]
    split <;> rfl

theorem linked_shift {s s2 : SkipList} {l : Nat} : ∀ (L : List Nat) (x x2 : Nat),
    nextAt s2 x2 l = nextAt s x l → (∀ j ∈ L, nextAt s2 j l = nextAt s j l) →
    linked s l x L → linked s2 l x2 L
  | [], x, x2, hx, _, hl => by
    show nextAt s2 x2 l = none
    rw [hx]
    exact hl
  | j :: L', x, x2, hx, hall, hl => by
    refine ⟨?_, ?_⟩
    · rw [hx]; exact hl.1
    · exact linked_shift L' j j (hall j (by simp)) (fun q hq => hall q (by simp [hq])) hl.2

theorem buildUpdate_top2 {s : SkipList} (h : Inv s) (key : List Nat) :
    (buildUpdate s key 100 0).2 = updTarget s key 0 := by
  have h100 := updTarget_100 h key
  have hspec := (buildUpdate_spec h key 100 (le_refl _)).1
  rwa [h100] at hspec

theorem buildUpdate_top1 {s : SkipList} (h : Inv s) (key : List Nat) (j : Nat) (hj : j < 100) :
    (buildUpdate s key 100 0).1.getD j 0 = updTarget s key j := by
  have h100 := updTarget_100 h key
  have hspec := (buildUpdate_spec h key 100 (le_refl _)).2.2 j hj
  rwa [h100] at hspec

theorem updTarget_cases (s : SkipList) (key : List Nat) (l : Nat) :
    updTarget s key l = 0
    ∨ (updTarget s key l ∈ levelList s l ∧ keyLt s key (updTarget s key l) = true) := by
  by_cases hne : (levelList s l).filter (keyLt s key) = []
  · left; unfold updTarget; rw [hne]; rfl
  · right; exact updTarget_mem key l hne

theorem updTarget_lt {s : SkipList} (h : Inv s) (key : List Nat) (l : Nat) :
    updTarget s key l < s.nodes.length := by
  rcases updTarget_cases s key l with h0 | ⟨hmem, _⟩
  · rw [h0]; exact h.2.1
  · exact (h.2.2.2.1 _ (List.mem_of_mem_filter hmem)).2.1

theorem updTarget_height {s : SkipList} (h : Inv s) (key : List Nat) (l : Nat) (hl : l < 100) :
    l < height s (updTarget s key l) := by
  rcases updTarget_cases s key l with h0 | ⟨hmem, _⟩
  · rw [h0, h.2.2.1]; omega
  · have := List.of_mem_filter hmem
    simpa using this

theorem next_updTarget {s : SkipList} (h : Inv s) (key : List Nat) (l : Nat) (hl : l < 100) :
    nextAt s (updTarget s key l) l = ((levelList s l).dropWhile (keyLt s key)).head? := by
  have hlink := h.2.2.2.2.2 l hl
  have hupd : updTarget s key l = ((levelList s l).takeWhile (keyLt s key)).getLastD 0 := by
    unfold updTarget
    rw [← takeWhile_eq_filter_sorted s key (levelList s l) (levelList_pairwise h l)]
  rw [hupd]
  refine linked_next_of_split s l ((levelList s l).takeWhile (keyLt s key))
    ((levelList s l).dropWhile (keyLt s key)) 0 ?_
  rw [List.takeWhile_append_dropWhile]
  exact hlink

theorem nodup_zero_chain {s : SkipList} (h : Inv s) : (0 :: chain s).Nodup := by
  rw [List.nodup_cons]
  exact ⟨fun hc => (h.2.2.2.1 0 hc).1 rfl, chain_nodup h⟩

theorem nodup_zero_levelList {s : SkipList} (h : Inv s) (l : Nat) :
    (0 :: levelList s l).Nodup :=
  List.Nodup.sublist (List.Sublist.cons₂ 0 (levelList_sublist s l)) (nodup_zero_chain h)

end skiplist

namespace skiplist

/-- The heap after the first `k` iterations of the linking loop of
`insertNew` (the new node sits at index `s.nodes.length`). -/
def linkFold (s : SkipList) (key value : List Nat) (update : List Nat) (lvl k : Nat) :
    List Node :=
  (List.range k).foldl (linkStep update s.nodes.length)
    (s.nodes ++ [⟨value, key, List.replicate lvl none⟩])

theorem linkFold_zero (s : SkipList) (key value update : List Nat) (lvl : Nat) :
    linkFold s key value update lvl 0 = s.nodes ++ [⟨value, key, List.replicate lvl none⟩] := rfl

theorem linkFold_succ (s : SkipList) (key value update : List Nat) (lvl k : Nat) :
    linkFold s key value update lvl (k + 1)
      = linkStep update s.nodes.length (linkFold s key value update lvl k) k := by
  unfold linkFold
  rw [List.range_succ, List.foldl_append]
  rfl

theorem linkStep_length (update : List Nat) (ni : Nat) (ns : List Node) (i : Nat) :
    (linkStep update ni ns i).length = ns.length := by
  simp only [linkStep]
  rw [List.length_set, List.length_set]

theorem linkStep_getD_other (update : List Nat) (ni : Nat) (ns : List Node) (i : Nat)
    (j' : Nat) (h1 : j' ≠ ni) (h2 : j' ≠ update.getD i 0) :
    (linkStep update ni ns i).getD j' ⟨[], [], []⟩ = ns.getD j' ⟨[], [], []⟩ := by
  simp only [linkStep]
  rw [getD_set_ne _ _ _ _ _ h2, getD_set_ne _ _ _ _ _ h1]

theorem linkStep_getD_ni (update : List Nat) (ni : Nat) (ns : List Node) (i : Nat)
    (hni : ni < ns.length) (h : ni ≠ update.getD i 0) :
    (linkStep update ni ns i).getD ni ⟨[], [], []⟩
      = { ns.getD ni ⟨[], [], []⟩ with next :=
            ((ns.getD ni ⟨[], [], []⟩).next.set i
              ((ns.getD (update.getD i 0) ⟨[], [], []⟩).next.getD i none)) } := by
  simp only [linkStep]
  rw [getD_set_ne _ _ _ _ _ h, getD_set_self _ _ _ _ (by simpa using hni)]

theorem linkStep_getD_j (update : List Nat) (ni : Nat) (ns : List Node) (i : Nat)
    (hj : update.getD i 0 < ns.length) (h : update.getD i 0 ≠ ni) :
    (linkStep update ni ns i).getD (update.getD i 0) ⟨[], [], []⟩
      = { ns.getD (update.getD i 0) ⟨[], [], []⟩ with
          next := (ns.getD (update.getD i 0) ⟨[], [], []⟩).next.set i (some ni) } := by
  simp only [linkStep]
  rw [getD_set_self _ _ _ _ (by simpa using hj), getD_set_ne _ _ _ _ _ h]

end skiplist

namespace skiplist

/-- Heap shape after `k` iterations of the linking loop: lengths, keys and
values are those of the original heap plus the new node; the new node's
level-`l` pointer copies `update[l]`'s old successor for processed levels;
each processed `update[l]`'s level-`l` pointer is redirected to the new
node; everything else is untouched. -/
theorem linkFold_char (s : SkipList) (key value : List Nat) (update : List Nat) (lvl : Nat)
    (hlt : ∀ i, i < lvl → update.getD i 0 < s.nodes.length)
    (hht : ∀ i, i < lvl → i < (s.nodes.getD (update.getD i 0) ⟨[], [], []⟩).next.length) :
    ∀ k, k ≤ lvl →
    (linkFold s key value update lvl k).length = s.nodes.length + 1
    ∧ (∀ j, j ≠ s.nodes.length →
        ((linkFold s key value update lvl k).getD j ⟨[], [], []⟩).key
          = (s.nodes.getD j ⟨[], [], []⟩).key
        ∧ ((linkFold s key value update lvl k).getD j ⟨[], [], []⟩).value
          = (s.nodes.getD j ⟨[], [], []⟩).value
        ∧ ((linkFold s key value update lvl k).getD j ⟨[], [], []⟩).next.length
          = (s.nodes.getD j ⟨[], [], []⟩).next.length)
    ∧ ((linkFold s key value update lvl k).getD s.nodes.length ⟨[], [], []⟩).key = key
    ∧ ((linkFold s key value update lvl k).getD s.nodes.length ⟨[], [], []⟩).value = value
    ∧ ((linkFold s key value update lvl k).getD s.nodes.length ⟨[], [], []⟩).next.length = lvl
    ∧ (∀ l, ((linkFold s key value update lvl k).getD s.nodes.length ⟨[], [], []⟩).next.getD l none
        = if l < k then (s.nodes.getD (update.getD l 0) ⟨[], [], []⟩).next.getD l none else none)
    ∧ (∀ j, j ≠ s.nodes.length → ∀ l,
        ((linkFold s key value update lvl k).getD j ⟨[], [], []⟩).next.getD l none
        = if l < k ∧ update.getD l 0 = j then some s.nodes.length
          else (s.nodes.getD j ⟨[], [], []⟩).next.getD l none)
  | 0, _ => by
    refine ⟨by simp [linkFold_zero], ?_, ?_, ?_, ?_, ?_, ?_⟩
    · intro j hj
      rw [linkFold_zero, getD_append_out _ _ _ j hj]
      exact ⟨rfl, rfl, rfl⟩
    · rw [linkFold_zero, getD_append_self]
    · rw [linkFold_zero, getD_append_self]
    · rw [linkFold_zero, getD_append_self]
      exact List.length_replicate _ _
    · intro l
      rw [linkFold_zero, getD_append_self]
      rw [if_neg (fun hcon => absurd hcon (by omega))]
      show (List.replicate lvl (none : Option Nat)).getD l none = none
      rw [getD_replicate]
      split <;> rfl
    · intro j hj l
      rw [linkFold_zero, getD_append_out _ _ _ j hj]
      rw [if_neg (fun hcon => absurd hcon.1 (by omega))]
  | k + 1, hk => by
    have hk' : k < lvl := by omega
    obtain ⟨ihlen, ihold, ihkey, ihval, ihht2, ihni, ihj⟩ :=
      linkFold_char s key value update lvl hlt hht k (by omega)
    have hjlt : update.getD k 0 < s.nodes.length := hlt k hk'
    have hjne : update.getD k 0 ≠ s.nodes.length := by omega
    have hnine : s.nodes.length ≠ update.getD k 0 := by omega
    have hnilt : s.nodes.length < (linkFold s key value update lvl k).length := by
      rw [ihlen]; omega
    have hjlt2 : update.getD k 0 < (linkFold s key value update lvl k).length := by
      rw [ihlen]; omega
    refine ⟨?_, ?_, ?_, ?_, ?_, ?_, ?_⟩
    · rw [linkFold_succ, linkStep_length, ihlen]
    · intro j' hj'
      rw [linkFold_succ]
      by_cases hjj : j' = update.getD k 0
      · subst hjj
        rw [linkStep_getD_j update s.nodes.length (linkFold s key value update lvl k) k
          hjlt2 hjne]
        refine ⟨(ihold _ hj').1, (ihold _ hj').2.1, ?_⟩
        show (((linkFold s key value update lvl k).getD (update.getD k 0)
          ⟨[], [], []⟩).next.set k (some s.nodes.length)).length = _
        rw [List.length_set]
        exact (ihold _ hj').2.2
      · rw [linkStep_getD_other update _ _ k j' hj' hjj]
        exact ihold j' hj'
    · rw [linkFold_succ, linkStep_getD_ni update s.nodes.length
        (linkFold s key value update lvl k) k hnilt hnine]
      exact ihkey
    · rw [linkFold_succ, linkStep_getD_ni update s.nodes.length
        (linkFold s key value update lvl k) k hnilt hnine]
      exact ihval
    · rw [linkFold_succ, linkStep_getD_ni update s.nodes.length
        (linkFold s key value update lvl k) k hnilt hnine]
      show (((linkFold s key value update lvl k).getD s.nodes.length
        ⟨[], [], []⟩).next.set k _).length = lvl
      rw [List.length_set]
      exact ihht2
    · intro l
      rw [linkFold_succ, linkStep_getD_ni update s.nodes.length
        (linkFold s key value update lvl k) k hnilt hnine]
      by_cases hlk : l = k
      · subst hlk
        rw [getD_set_self _ _ _ _ (by rw [ihht2]; omega)]
        rw [ihj _ hjne l]
        rw [if_neg (fun hcon => absurd hcon.1 (by omega))]
        rw [if_pos (by omega)]
      · rw [getD_set_ne _ _ _ _ _ hlk, ihni l]
        by_cases hlk2 : l < k
        · rw [if_pos hlk2, if_pos (by omega)]
        · rw [if_neg hlk2, if_neg (by omega)]
    · intro j' hj' l
      rw [linkFold_succ]
      by_cases hjj : j' = update.getD k 0
      · subst hjj
        rw [linkStep_getD_j update s.nodes.length (linkFold s key value update lvl k) k
          hjlt2 hjne]
        by_cases hlk : l = k
        · subst hlk
          have hb : l < ((linkFold s key value update lvl l).getD (update.getD l 0)
              ⟨[], [], []⟩).next.length := by
            rw [(ihold _ hjne).2.2]
            exact hht l (by omega)
          rw [getD_set_self _ _ _ _ hb, if_pos ⟨by omega, rfl⟩]
        · rw [getD_set_ne _ _ _ _ _ hlk, ihj _ hjne l]
          by_cases hc : update.getD l 0 = update.getD k 0
          · by_cases hlk2 : l < k
            · rw [if_pos ⟨hlk2, hc⟩, if_pos ⟨by omega, hc⟩]
            · rw [if_neg (fun hcon => hlk2 hcon.1),
                if_neg (fun hcon => absurd hcon.1 (by omega))]
          · rw [if_neg (fun hcon => hc hcon.2), if_neg (fun hcon => hc hcon.2)]
      · rw [linkStep_getD_other update _ _ k j' hj' hjj, ihj j' hj' l]
        by_cases hc : update.getD l 0 = j'
        · have hlknot : l ≠ k := fun he => hjj ((he ▸ hc).symm)
          by_cases hlk2 : l < k
          · rw [if_pos ⟨hlk2, hc⟩, if_pos ⟨by omega, hc⟩]
          · rw [if_neg (fun hcon => hlk2 hcon.1),
              if_neg (fun hcon => absurd hcon.1 (by omega))]
        · rw [if_neg (fun hcon => hc hcon.2), if_neg (fun hcon => hc hcon.2)]

end skiplist

namespace skiplist

/-- The heap of `insertNew` described against the original state: one new
node at index `s.nodes.length` of height `lvl` whose pointers copy the
walk targets' old successors, with each walk target's pointer redirected
to it; all other nodes keep their keys, values, heights and pointers. -/
theorem insertNew_heap {s : SkipList} (h : Inv s) (key value update : List Nat)
    (hupd : ∀ i, i < 100 → update.getD i 0 = updTarget s key i) :
    (insertNew s key value update).nodes.length = s.nodes.length + 1
    ∧ keyAt (insertNew s key value update) s.nodes.length = key
    ∧ (getNode (insertNew s key value update) s.nodes.length).value = value
    ∧ height (insertNew s key value update) s.nodes.length
        = (genLevelAux s.coins 1 s.MaxLevel).1
    ∧ (∀ j, j ≠ s.nodes.length → keyAt (insertNew s key value update) j = keyAt s j
        ∧ (getNode (insertNew s key value update) j).value = (getNode s j).value
        ∧ height (insertNew s key value update) j = height s j)
    ∧ (∀ l, l < (genLevelAux s.coins 1 s.MaxLevel).1 →
        nextAt (insertNew s key value update) s.nodes.length l
          = nextAt s (updTarget s key l) l)
    ∧ (∀ l, (genLevelAux s.coins 1 s.MaxLevel).1 ≤ l →
        nextAt (insertNew s key value update) s.nodes.length l = none)
    ∧ (∀ j, j ≠ s.nodes.length → ∀ l,
        nextAt (insertNew s key value update) j l
          = if l < (genLevelAux s.coins 1 s.MaxLevel).1 ∧ updTarget s key l = j
            then some s.nodes.length else nextAt s j l) := by
  have hMax : s.MaxLevel = 100 := h.1
  have hb := genLevelAux_bounds s.coins 1 s.MaxLevel (by rw [hMax]; omega)
  have hlvl100 : (genLevelAux s.coins 1 s.MaxLevel).1 ≤ 100 := le_of_le_of_eq hb.2 hMax
  have hlt : ∀ i, i < (genLevelAux s.coins 1 s.MaxLevel).1 →
      update.getD i 0 < s.nodes.length := by
    intro i hi
    rw [hupd i (by omega)]
    exact updTarget_lt h key i
  have hht : ∀ i, i < (genLevelAux s.coins 1 s.MaxLevel).1 →
      i < (s.nodes.getD (update.getD i 0) ⟨[], [], []⟩).next.length := by
    intro i hi
    rw [hupd i (by omega)]
    exact updTarget_height h key i (by omega)
  obtain ⟨c1, c2, c3, c4, c5, c6, c7⟩ :=
    linkFold_char s key value update (genLevelAux s.coins 1 s.MaxLevel).1 hlt hht
      (genLevelAux s.coins 1 s.MaxLevel).1 (le_refl _)
  refine ⟨c1, c3, c4, c5, ?_, ?_, ?_, ?_⟩
  · intro j hj
    exact ⟨(c2 j hj).1, (c2 j hj).2.1, (c2 j hj).2.2⟩
  · intro l hl
    have hx := c6 l
    rw [if_pos hl] at hx
    rw [hupd l (by omega)] at hx
    exact hx
  · intro l hl
    have hx := c6 l
    rw [if_neg (by omega)] at hx
    exact hx
  · intro j hj l
    have hc := c7 j hj l
    by_cases hl : l < (genLevelAux s.coins 1 s.MaxLevel).1
    · rw [hupd l (by omega)] at hc
      exact hc
    · rw [if_neg (fun hcon => hl hcon.1)] at hc
      rw [if_neg (fun hcon => hl hcon.1)]
      exact hc

end skiplist

namespace skiplist

/-- Splicing a new node `ni` after the last element of the walked path `T`
preserves linkedness, provided only `g` (that last element) and `ni`
changed their level-`l` pointers. -/
theorem linked_redirect {s s2 : SkipList} {l : Nat} {g ni : Nat}
    (h2 : nextAt s2 g l = some ni) (h3 : nextAt s2 ni l = nextAt s g l) :
    ∀ (T D : List Nat) (x : Nat),
    (∀ j, j ≠ g → j ≠ ni → nextAt s2 j l = nextAt s j l) →
    (x :: T).Nodup → x ≠ ni → (∀ t ∈ T, t ≠ ni) →
    (∀ q ∈ D, q ≠ g ∧ q ≠ ni) →
    g = T.getLastD x →
    linked s l x (T ++ D) → linked s2 l x (T ++ ni :: D)
  | [], D, x, h1, hnd, hxni, hT, hD, hg, hl => by
    have hgx : g = x := hg
    refine ⟨?_, ?_⟩
    · rw [← hgx]; exact h2
    · refine linked_shift D x ni ?_ ?_ hl
      · rw [h3, hgx]
      · exact fun q hq => h1 q (hD q hq).1 (hD q hq).2
  | t :: T', D, x, h1, hnd, hxni, hT, hD, hg, hl => by
    have hl' : nextAt s x l = some t ∧ linked s l t (T' ++ D) := hl
    have hxg : x ≠ g := by
      intro he
      have hmem : g ∈ t :: T' := by
        rw [hg]; exact getLastD_mem (t :: T') x (by simp)
      rw [← he] at hmem
      exact (List.nodup_cons.mp hnd).1 hmem
    refine ⟨?_, ?_⟩
    · rw [h1 x hxg hxni]
      exact hl'.1
    · exact linked_redirect h2 h3 T' D t h1 (List.nodup_cons.mp hnd).2
        (hT t (by simp)) (fun q hq => hT q (by simp [hq])) hD
        (by rw [hg]; exact List.getLastD_cons x t T') hl'.2

/-- Unlinking `y` right after the last element of the walked path `T`
preserves linkedness, provided only `g` (that last element) changed its
level-`l` pointer, to `y`'s old successor. -/
theorem linked_remove {s s2 : SkipList} {l : Nat} {g y : Nat}
    (h2 : nextAt s2 g l = nextAt s y l) :
    ∀ (T D : List Nat) (x : Nat),
    (∀ j, j ≠ g → nextAt s2 j l = nextAt s j l) →
    (x :: T).Nodup →
    (∀ q ∈ D, q ≠ g) →
    g = T.getLastD x →
    linked s l x (T ++ y :: D) → linked s2 l x (T ++ D)
  | [], D, x, h1, hnd, hD, hg, hl => by
    have hgx : g = x := hg
    have hl' : nextAt s x l = some y ∧ linked s l y D := hl
    refine linked_shift D y x ?_ ?_ hl'.2
    · rw [← hgx]; exact h2
    · exact fun q hq => h1 q (hD q hq)
  | t :: T', D, x, h1, hnd, hD, hg, hl => by
    have hl' : nextAt s x l = some t ∧ linked s l t (T' ++ y :: D) := hl
    have hxg : x ≠ g := by
      intro he
      have hmem : g ∈ t :: T' := by
        rw [hg]; exact getLastD_mem (t :: T') x (by simp)
      rw [← he] at hmem
      exact (List.nodup_cons.mp hnd).1 hmem
    refine ⟨?_, ?_⟩
    · rw [h1 x hxg]
      exact hl'.1
    · exact linked_remove h2 T' D t h1 (List.nodup_cons.mp hnd).2 hD
        (by rw [hg]; exact List.getLastD_cons x t T') hl'.2

theorem bytesCmp_eq_symm {a b : List Nat} (h : bytesCmp a b = Ordering.eq) :
    bytesCmp b a = Ordering.eq := by
  have he := (bytesCmp_eq_iff a b).mp h
  subst he
  exact bytesCmp_self a

theorem findPred_eq_false {a b : List Nat} (h : ¬ bytesCmp a b = Ordering.eq) :
    (bytesCmp a b == Ordering.eq) = false := by
  cases hc : bytesCmp a b with
  | eq => exact absurd hc h
  | lt => rfl
  | gt => rfl

/-- Inserting a key that sits strictly between two runs lands between them. -/
theorem insertAL_append_gt (k v : List Nat) :
    ∀ (P S : List (List Nat × List Nat)),
    (∀ p ∈ P, bytesCmp p.1 k = Ordering.lt) → (∀ q ∈ S, bytesCmp k q.1 = Ordering.lt) →
    insertAL (P ++ S) k v = P ++ (k, v) :: S
  | [], S, _, hS => by
    cases S with
    | nil => rfl
    | cons q S' =>
      obtain ⟨k', v'⟩ := q
      have hq := hS (k', v') (by simp)
      simp only [List.nil_append, insertAL, hq]
  | p :: P', S, hP, hS => by
    obtain ⟨k', v'⟩ := p
    have hp := hP (k', v') (by simp)
    have hgt : bytesCmp k k' = Ordering.gt := (bytesCmp_gt_iff k k').mpr hp
    simp only [List.cons_append, insertAL, hgt, List.append_eq]
    rw [insertAL_append_gt k v P' S (fun q hq => hP q (by simp [hq])) hS]

/-- Inserting a key equal to the pivot overwrites the pivot in place. -/
theorem insertAL_append_eq (k v k0 v0 : List Nat) (heq : bytesCmp k k0 = Ordering.eq) :
    ∀ (P S : List (List Nat × List Nat)),
    (∀ p ∈ P, bytesCmp p.1 k = Ordering.lt) →
    insertAL (P ++ (k0, v0) :: S) k v = P ++ (k, v) :: S
  | [], S, _ => by simp only [List.nil_append, insertAL, heq]
  | p :: P', S, hP => by
    obtain ⟨k', v'⟩ := p
    have hp := hP (k', v') (by simp)
    have hgt : bytesCmp k k' = Ordering.gt := (bytesCmp_gt_iff k k').mpr hp
    simp only [List.cons_append, insertAL, hgt, List.append_eq]
    rw [insertAL_append_eq k v k0 v0 heq P' S (fun q hq => hP q (by simp [hq]))]

/-- Erasing a key equal to the pivot removes exactly the pivot. -/
theorem eraseAL_append_eq (k k0 v0 : List Nat) (heq : bytesCmp k k0 = Ordering.eq) :
    ∀ (P S : List (List Nat × List Nat)),
    (∀ p ∈ P, bytesCmp p.1 k = Ordering.lt) →
    eraseAL (P ++ (k0, v0) :: S) k = P ++ S
  | [], S, _ => by simp only [List.nil_append, eraseAL, if_pos heq]
  | p :: P', S, hP => by
    obtain ⟨k', v'⟩ := p
    have hp := hP (k', v') (by simp)
    have hgt : bytesCmp k k' = Ordering.gt := (bytesCmp_gt_iff k k').mpr hp
    have hne : ¬(bytesCmp k k' = Ordering.eq) := by rw [hgt]; intro hcon; cases hcon
    simp only [List.cons_append, eraseAL, if_neg hne, List.append_eq]
    rw [eraseAL_append_eq k k0 v0 heq P' S (fun q hq => hP q (by simp [hq]))]

theorem toList_sorted {s : SkipList} (h : Inv s) :
    List.Pairwise (fun p q => bytesCmp p.1 q.1 = Ordering.lt) (toList s) := by
  unfold toList
  rw [List.pairwise_map]
  exact h.2.2.2.2.1

theorem lookupAL_insertAL_self : ∀ (m : List (List Nat × List Nat)) (k v : List Nat),
    lookupAL (insertAL m k v) k = some v
  | [], k, v => by
    show lookupAL [(k, v)] k = some v
    unfold lookupAL
    rw [List.find?_cons_of_pos _ (by rw [bytesCmp_self]; rfl)]
    rfl
  | (k', v') :: t, k, v => by
    cases hc : bytesCmp k k' with
    | lt =>
      simp only [insertAL, hc]
      unfold lookupAL
      rw [List.find?_cons_of_pos _ (by rw [bytesCmp_self]; rfl)]
      rfl
    | eq =>
      simp only [insertAL, hc]
      unfold lookupAL
      rw [List.find?_cons_of_pos _ (by rw [bytesCmp_self]; rfl)]
      rfl
    | gt =>
      simp only [insertAL, hc]
      unfold lookupAL
      have hlt2 : bytesCmp k' k = Ordering.lt := (bytesCmp_gt_iff k k').mp hc
      have hne2 : ¬ bytesCmp k' k = Ordering.eq := by rw [hlt2]; intro hcon; cases hcon
      rw [List.find?_cons_of_neg _ (by rw [findPred_eq_false hne2]; simp)]
      exact lookupAL_insertAL_self t k v

theorem lookupAL_insertAL_other : ∀ (m : List (List Nat × List Nat)) (k v k2 : List Nat),
    k2 ≠ k → lookupAL (insertAL m k v) k2 = lookupAL m k2
  | [], k, v, k2, hne => by
    show lookupAL [(k, v)] k2 = lookupAL [] k2
    unfold lookupAL
    rw [List.find?_cons_of_neg _
      (by rw [findPred_eq_false (fun hcon => hne ((bytesCmp_eq_iff k k2).mp hcon).symm)]; simp)]
  | (k', v') :: t, k, v, k2, hne => by
    cases hc : bytesCmp k k' with
    | lt =>
      simp only [insertAL, hc]
      unfold lookupAL
      rw [List.find?_cons_of_neg _
        (by rw [findPred_eq_false (fun hcon => hne ((bytesCmp_eq_iff k k2).mp hcon).symm)]; simp)]
    | eq =>
      have hk' : k = k' := (bytesCmp_eq_iff k k').mp hc
      simp only [insertAL, hc]
      unfold lookupAL
      rw [List.find?_cons_of_neg _
        (by rw [findPred_eq_false (fun hcon => hne ((bytesCmp_eq_iff k k2).mp hcon).symm)]; simp)]
      rw [List.find?_cons_of_neg _
        (by rw [findPred_eq_false (fun hcon =>
          hne ((bytesCmp_eq_iff k' k2).mp hcon ▸ hk').symm)]; simp)]
    | gt =>
      simp only [insertAL, hc]
      unfold lookupAL
      by_cases hp : bytesCmp k' k2 = Ordering.eq
      · rw [List.find?_cons_of_pos _ (by rw [hp]; rfl),
          List.find?_cons_of_pos _ (by rw [hp]; rfl)]
      · rw [List.find?_cons_of_neg _ (by rw [findPred_eq_false hp]; simp),
          List.find?_cons_of_neg _ (by rw [findPred_eq_false hp]; simp)]
        exact lookupAL_insertAL_other t k v k2 hne

theorem lookupAL_eraseAL_self : ∀ (m : List (List Nat × List Nat)) (k : List Nat),
    List.Pairwise (fun p q => bytesCmp p.1 q.1 = Ordering.lt) m →
    lookupAL (eraseAL m k) k = none
  | [], _, _ => rfl
  | (k', v') :: t, k, hp => by
    by_cases hc : bytesCmp k k' = Ordering.eq
    · simp only [eraseAL, if_pos hc]
      refine lookupAL_none t k ?_
      intro kv hkv
      have hk' : k = k' := (bytesCmp_eq_iff k k').mp hc
      have hlt := (List.pairwise_cons.mp hp).1 kv hkv
      subst hk'
      intro hcon
      rw [(bytesCmp_gt_iff kv.1 k).mpr hlt] at hcon
      cases hcon
    · simp only [eraseAL, if_neg hc]
      unfold lookupAL
      rw [List.find?_cons_of_neg _
        (by rw [findPred_eq_false (fun hcon => hc ((bytesCmp_eq_iff k' k).mp hcon ▸
          bytesCmp_self k'))]; simp)]
      exact lookupAL_eraseAL_self t k (List.pairwise_cons.mp hp).2

theorem lookupAL_eraseAL_other : ∀ (m : List (List Nat × List Nat)) (k k2 : List Nat),
    k2 ≠ k → lookupAL (eraseAL m k) k2 = lookupAL m k2
  | [], _, _, _ => rfl
  | (k', v') :: t, k, k2, hne => by
    by_cases hc : bytesCmp k k' = Ordering.eq
    · have hk' : k = k' := (bytesCmp_eq_iff k k').mp hc
      simp only [eraseAL, if_pos hc]
      unfold lookupAL
      rw [List.find?_cons_of_neg _
        (by rw [findPred_eq_false (fun hcon =>
          hne ((bytesCmp_eq_iff k' k2).mp hcon ▸ hk').symm)]; simp)]
    · simp only [eraseAL, if_neg hc]
      unfold lookupAL
      by_cases hp : bytesCmp k' k2 = Ordering.eq
      · rw [List.find?_cons_of_pos _ (by rw [hp]; rfl),
          List.find?_cons_of_pos _ (by rw [hp]; rfl)]
      · rw [List.find?_cons_of_neg _ (by rw [findPred_eq_false hp]; simp),
          List.find?_cons_of_neg _ (by rw [findPred_eq_false hp]; simp)]
        exact lookupAL_eraseAL_other t k k2 hne

end skiplist

namespace skiplist

/-- `insertNew` under the walk's update array, when the key is absent:
the invariant is preserved and the abstraction gains the pair in order. -/
theorem insertNew_spec {s : SkipList} (h : Inv s) (key value update : List Nat)
    (hupd : ∀ i, i < 100 → update.getD i 0 = updTarget s key i)
    (hnotin : ∀ i ∈ chain s, bytesCmp (keyAt s i) key ≠ Ordering.eq) :
    Inv (insertNew s key value update)
    ∧ toList (insertNew s key value update) = insertAL (toList s) key value := by
  obtain ⟨e1, e2, e3, e4, e5, e6, e7, e8⟩ := insertNew_heap h key value update hupd
  have hMax : s.MaxLevel = 100 := h.1
  have hMax2 : (insertNew s key value update).MaxLevel = s.MaxLevel := rfl
  have hb := genLevelAux_bounds s.coins 1 s.MaxLevel (by rw [hMax]; omega)
  have hlvl1 : 1 ≤ (genLevelAux s.coins 1 s.MaxLevel).1 := hb.1
  have hlvl100 : (genLevelAux s.coins 1 s.MaxLevel).1 ≤ 100 := le_of_le_of_eq hb.2 hMax
  have hpair := h.2.2.2.2.1
  have hmemf := h.2.2.2.1
  have hn0 : 0 < s.nodes.length := h.2.1
  have hTlt : ∀ t ∈ (chain s).filter (keyLt s key),
      bytesCmp (keyAt s t) key = Ordering.lt := by
    intro t ht
    have hm := List.of_mem_filter ht
    exact (bytesLtB_iff (keyAt s t) key).mp hm
  have hDgt : ∀ d ∈ (chain s).filter (fun i => !(keyLt s key i)),
      bytesCmp key (keyAt s d) = Ordering.lt := by
    intro d hd
    have hdm := List.mem_of_mem_filter hd
    have hdn : keyLt s key d = false := by simpa using List.of_mem_filter hd
    cases hcy : bytesCmp (keyAt s d) key with
    | lt =>
      rw [show keyLt s key d = true from (bytesLtB_iff _ _).mpr hcy] at hdn
      cases hdn
    | eq => exact absurd hcy (hnotin d hdm)
    | gt => exact (bytesCmp_gt_iff _ _).mp hcy
  have hsplit0 : (chain s).filter (keyLt s key)
      ++ (chain s).filter (fun i => !(keyLt s key i)) = chain s := by
    rw [← takeWhile_eq_filter_sorted s key (chain s) hpair,
      ← dropWhile_eq_filter_sorted s key (chain s) hpair]
    exact List.takeWhile_append_dropWhile (p := keyLt s key) (l := chain s)
  have hsplitl : ∀ l, (levelList s l).filter (keyLt s key)
      ++ (levelList s l).filter (fun i => !(keyLt s key i)) = levelList s l := by
    intro l
    rw [← takeWhile_eq_filter_sorted s key (levelList s l) (levelList_pairwise h l),
      ← dropWhile_eq_filter_sorted s key (levelList s l) (levelList_pairwise h l)]
    exact List.takeWhile_append_dropWhile (p := keyLt s key) (l := levelList s l)
  have hTl : ∀ l, ((chain s).filter (keyLt s key)).filter (fun i => decide (l < height s i))
      = (levelList s l).filter (keyLt s key) := by
    intro l
    unfold levelList
    rw [List.filter_filter, List.filter_filter]
    exact List.filter_congr (fun i _ => Bool.and_comm _ _)
  have hDl : ∀ l, ((chain s).filter (fun i => !(keyLt s key i))).filter
        (fun i => decide (l < height s i))
      = (levelList s l).filter (fun i => !(keyLt s key i)) := by
    intro l
    unfold levelList
    rw [List.filter_filter, List.filter_filter]
    exact List.filter_congr (fun i _ => Bool.and_comm _ _)
  have hlvl_linked : ∀ l, l < (genLevelAux s.coins 1 s.MaxLevel).1 →
      linked (insertNew s key value update) l 0
        ((levelList s l).filter (keyLt s key)
          ++ s.nodes.length :: (levelList s l).filter (fun i => !(keyLt s key i))) := by
    intro l hl
    have hl100 : l < 100 := by omega
    have hgne : updTarget s key l ≠ s.nodes.length := by
      have := updTarget_lt h key l
      omega
    have hh2 : nextAt (insertNew s key value update) (updTarget s key l) l
        = some s.nodes.length := by
      rw [e8 _ hgne l, if_pos ⟨hl, rfl⟩]
    have hh3 : nextAt (insertNew s key value update) s.nodes.length l
        = nextAt s (updTarget s key l) l := e6 l hl
    refine linked_redirect hh2 hh3 _ _ 0 ?_ ?_ ?_ ?_ ?_ ?_ ?_
    · intro j hjg hjni
      rw [e8 j hjni l, if_neg (fun hcon => hjg hcon.2.symm)]
    · refine List.Nodup.sublist ?_ (nodup_zero_levelList h l)
      exact List.Sublist.cons₂ 0 (List.filter_sublist _)
    · omega
    · intro t ht
      have := (hmemf t (List.mem_of_mem_filter (List.mem_of_mem_filter ht))).2.1
      omega
    · intro q hq
      have hqlev := List.mem_of_mem_filter hq
      have hqchain := List.mem_of_mem_filter hqlev
      have hqn : keyLt s key q = false := by simpa using List.of_mem_filter hq
      constructor
      · rcases updTarget_cases s key l with h0 | ⟨_, hglt⟩
        · rw [h0]
          exact fun he => (hmemf q hqchain).1 he
        · intro he
          rw [← he] at hglt
          rw [hglt] at hqn
          cases hqn
      · have := (hmemf q hqchain).2.1
        omega
    · rfl
    · rw [hsplitl l]
      exact h.2.2.2.2.2 l hl100
  have hchain2 : chain (insertNew s key value update)
      = (chain s).filter (keyLt s key)
        ++ s.nodes.length :: (chain s).filter (fun i => !(keyLt s key i)) := by
    have hl0 := hlvl_linked 0 (by omega)
    rw [levelList_zero h] at hl0
    have hlen : ((chain s).filter (keyLt s key)
        ++ s.nodes.length :: (chain s).filter (fun i => !(keyLt s key i))).length
        < (insertNew s key value update).nodes.length := by
      rw [e1]
      have hc := congrArg List.length hsplit0
      rw [List.length_append] at hc
      rw [List.length_append, List.length_cons]
      have := chain_length_lt h
      omega
    unfold chain
    exact chainFrom_of_linked (insertNew s key value update) _ 0 _ hl0 hlen
  have hheq : ∀ i ∈ chain s, height (insertNew s key value update) i = height s i := by
    intro i hi
    exact (e5 i (by have := (hmemf i hi).2.1; omega)).2.2
  have hkeq : ∀ i ∈ chain s, keyAt (insertNew s key value update) i = keyAt s i := by
    intro i hi
    exact (e5 i (by have := (hmemf i hi).2.1; omega)).1
  have hveq : ∀ i ∈ chain s, (getNode (insertNew s key value update) i).value
      = (getNode s i).value := by
    intro i hi
    exact (e5 i (by have := (hmemf i hi).2.1; omega)).2.1
  have hlevlt : ∀ l, l < (genLevelAux s.coins 1 s.MaxLevel).1 →
      levelList (insertNew s key value update) l
        = (levelList s l).filter (keyLt s key)
          ++ s.nodes.length :: (levelList s l).filter (fun i => !(keyLt s key i)) := by
    intro l hl
    unfold levelList
    rw [hchain2, List.filter_append, List.filter_cons]
    rw [if_pos (by rw [e4]; exact decide_eq_true hl)]
    have hfT : ((chain s).filter (keyLt s key)).filter
        (fun i => decide (l < height (insertNew s key value update) i))
        = ((chain s).filter (keyLt s key)).filter (fun i => decide (l < height s i)) := by
      refine List.filter_congr ?_
      intro i hi
      rw [hheq i (List.mem_of_mem_filter hi)]
    have hfD : ((chain s).filter (fun i => !(keyLt s key i))).filter
        (fun i => decide (l < height (insertNew s key value update) i))
        = ((chain s).filter (fun i => !(keyLt s key i))).filter
            (fun i => decide (l < height s i)) := by
      refine List.filter_congr ?_
      intro i hi
      rw [hheq i (List.mem_of_mem_filter hi)]
    rw [hfT, hfD]
    congr 1
    · exact hTl l
    · congr 1
      exact hDl l
  have hlevge : ∀ l, (genLevelAux s.coins 1 s.MaxLevel).1 ≤ l →
      levelList (insertNew s key value update) l = levelList s l := by
    intro l hl
    unfold levelList
    rw [hchain2, List.filter_append, List.filter_cons]
    rw [if_neg (by rw [e4]; simp; omega)]
    have hfT : ((chain s).filter (keyLt s key)).filter
        (fun i => decide (l < height (insertNew s key value update) i))
        = ((chain s).filter (keyLt s key)).filter (fun i => decide (l < height s i)) := by
      refine List.filter_congr ?_
      intro i hi
      rw [hheq i (List.mem_of_mem_filter hi)]
    have hfD : ((chain s).filter (fun i => !(keyLt s key i))).filter
        (fun i => decide (l < height (insertNew s key value update) i))
        = ((chain s).filter (fun i => !(keyLt s key i))).filter
            (fun i => decide (l < height s i)) := by
      refine List.filter_congr ?_
      intro i hi
      rw [hheq i (List.mem_of_mem_filter hi)]
    rw [hfT, hfD]
    rw [← List.filter_append, hsplit0]
  have hlinkge : ∀ l, (genLevelAux s.coins 1 s.MaxLevel).1 ≤ l → l < 100 →
      linked (insertNew s key value update) l 0 (levelList s l) := by
    intro l hge hl100
    refine linked_shift (levelList s l) 0 0 ?_ ?_ (h.2.2.2.2.2 l hl100)
    · rw [e8 0 (by omega) l, if_neg (fun hcon => absurd hcon.1 (by omega))]
    · intro j hj
      have hjc := List.mem_of_mem_filter hj
      rw [e8 j (by have := (hmemf j hjc).2.1; omega) l,
        if_neg (fun hcon => absurd hcon.1 (by omega))]
  have hInv2 : Inv (insertNew s key value update) := by
    refine ⟨hMax2.trans hMax, by rw [e1]; omega, ?_, ?_, ?_, ?_⟩
    · rw [(e5 0 (by omega)).2.2]
      exact h.2.2.1
    · intro i hi
      rw [hchain2] at hi
      rcases List.mem_append.mp hi with hiT | hiR
      · have hic := List.mem_of_mem_filter hiT
        obtain ⟨hi0, hilt, hh1, hh2⟩ := hmemf i hic
        refine ⟨hi0, by rw [e1]; omega, ?_, ?_⟩
        · rw [hheq i hic]; exact hh1
        · rw [hheq i hic]; exact hh2
      · rcases List.mem_cons.mp hiR with rfl | hiD
        · refine ⟨by omega, by rw [e1]; omega, ?_, ?_⟩
          · rw [e4]; omega
          · rw [e4]; omega
        · have hic := List.mem_of_mem_filter hiD
          obtain ⟨hi0, hilt, hh1, hh2⟩ := hmemf i hic
          refine ⟨hi0, by rw [e1]; omega, ?_, ?_⟩
          · rw [hheq i hic]; exact hh1
          · rw [hheq i hic]; exact hh2
    · rw [hchain2]
      rw [List.pairwise_append]
      refine ⟨?_, ?_, ?_⟩
      · refine List.Pairwise.imp_of_mem ?_
          (List.Pairwise.sublist (List.filter_sublist _) hpair)
        intro a b ha hb hab
        show bytesCmp (keyAt (insertNew s key value update) a)
          (keyAt (insertNew s key value update) b) = Ordering.lt
        rw [hkeq a (List.mem_of_mem_filter ha), hkeq b (List.mem_of_mem_filter hb)]
        exact hab
      · rw [List.pairwise_cons]
        constructor
        · intro d hd
          show bytesCmp (keyAt (insertNew s key value update) s.nodes.length)
            (keyAt (insertNew s key value update) d) = Ordering.lt
          rw [e2, hkeq d (List.mem_of_mem_filter hd)]
          exact hDgt d hd
        · refine List.Pairwise.imp_of_mem ?_
            (List.Pairwise.sublist (List.filter_sublist _) hpair)
          intro a b ha hb hab
          show bytesCmp (keyAt (insertNew s key value update) a)
            (keyAt (insertNew s key value update) b) = Ordering.lt
          rw [hkeq a (List.mem_of_mem_filter ha), hkeq b (List.mem_of_mem_filter hb)]
          exact hab
      · intro a ha b hb
        rcases List.mem_cons.mp hb with rfl | hbD
        · show bytesCmp (keyAt (insertNew s key value update) a)
            (keyAt (insertNew s key value update) s.nodes.length) = Ordering.lt
          rw [hkeq a (List.mem_of_mem_filter ha), e2]
          exact hTlt a ha
        · show bytesCmp (keyAt (insertNew s key value update) a)
            (keyAt (insertNew s key value update) b) = Ordering.lt
          rw [hkeq a (List.mem_of_mem_filter ha), hkeq b (List.mem_of_mem_filter hbD)]
          exact bytesCmp_lt_trans _ _ _ (hTlt a ha) (hDgt b hbD)
    · intro l hl100
      by_cases hl : l < (genLevelAux s.coins 1 s.MaxLevel).1
      · rw [hlevlt l hl]
        exact hlvl_linked l hl
      · rw [hlevge l (by omega)]
        exact hlinkge l (by omega) hl100
  refine ⟨hInv2, ?_⟩
  have e2' : (getNode (insertNew s key value update) s.nodes.length).key = key := e2
  have e3' : (getNode (insertNew s key value update) s.nodes.length).value = value := e3
  have hmapT : ((chain s).filter (keyLt s key)).map
        (fun i => ((getNode (insertNew s key value update) i).key,
          (getNode (insertNew s key value update) i).value))
      = ((chain s).filter (keyLt s key)).map
        (fun i => ((getNode s i).key, (getNode s i).value)) := by
    refine List.map_congr_left ?_
    intro i hi
    have hic := List.mem_of_mem_filter hi
    rw [show (getNode (insertNew s key value update) i).key = (getNode s i).key
      from hkeq i hic, hveq i hic]
  have hmapD : ((chain s).filter (fun i => !(keyLt s key i))).map
        (fun i => ((getNode (insertNew s key value update) i).key,
          (getNode (insertNew s key value update) i).value))
      = ((chain s).filter (fun i => !(keyLt s key i))).map
        (fun i => ((getNode s i).key, (getNode s i).value)) := by
    refine List.map_congr_left ?_
    intro i hi
    have hic := List.mem_of_mem_filter hi
    rw [show (getNode (insertNew s key value update) i).key = (getNode s i).key
      from hkeq i hic, hveq i hic]
  have htls : toList s
      = ((chain s).filter (keyLt s key)).map (fun i => ((getNode s i).key, (getNode s i).value))
        ++ ((chain s).filter (fun i => !(keyLt s key i))).map
            (fun i => ((getNode s i).key, (getNode s i).value)) := by
    unfold toList
    rw [← List.map_append, hsplit0]
  have hPmap : ∀ p ∈ ((chain s).filter (keyLt s key)).map
      (fun i => ((getNode s i).key, (getNode s i).value)),
      bytesCmp p.1 key = Ordering.lt := by
    intro p hp
    obtain ⟨i, hi, rfl⟩ := List.mem_map.mp hp
    exact hTlt i hi
  have hSmap : ∀ q ∈ ((chain s).filter (fun i => !(keyLt s key i))).map
      (fun i => ((getNode s i).key, (getNode s i).value)),
      bytesCmp key q.1 = Ordering.lt := by
    intro q hq
    obtain ⟨i, hi, rfl⟩ := List.mem_map.mp hq
    exact hDgt i hi
  rw [htls]
  unfold toList
  rw [hchain2, List.map_append, List.map_cons, e2', e3', hmapT, hmapD]
  rw [insertAL_append_gt key value _ _ hPmap hSmap]

end skiplist

namespace skiplist

/-- Overwriting one chain node's value in place: the structure, keys and
invariant are untouched; the abstraction changes only at that node. -/
theorem setValue_spec {s : SkipList} (h : Inv s) (y : Nat) (value : List Nat)
    (hy : y ∈ chain s) :
    Inv { s with nodes := s.nodes.set y { getNode s y with value := value } }
    ∧ toList { s with nodes := s.nodes.set y { getNode s y with value := value } }
      = (chain s).map (fun i => (keyAt s i, if i = y then value else (getNode s i).value)) := by
  have hmemf := h.2.2.2.1
  have hylt : y < s.nodes.length := (hmemf y hy).2.1
  have hlen2 : ({ s with nodes := s.nodes.set y { getNode s y with value := value } }
      : SkipList).nodes.length = s.nodes.length := List.length_set _ _ _
  have hnode2 : ∀ i, getNode { s with
        nodes := s.nodes.set y { getNode s y with value := value } } i
      = if i = y then { getNode s y with value := value } else getNode s i := by
    intro i
    by_cases hiy : i = y
    · subst hiy
      rw [if_pos rfl]
      exact getD_set_self _ _ _ _ hylt
    · rw [if_neg hiy]
      exact getD_set_ne _ _ _ _ _ hiy
  have hkey2 : ∀ i, keyAt { s with
      nodes := s.nodes.set y { getNode s y with value := value } } i = keyAt s i := by
    intro i
    show (getNode _ i).key = (getNode s i).key
    rw [hnode2 i]
    by_cases hiy : i = y
    · subst hiy
      rw [if_pos rfl]
    · rw [if_neg hiy]
  have hh2 : ∀ i, height { s with
      nodes := s.nodes.set y { getNode s y with value := value } } i = height s i := by
    intro i
    show (getNode _ i).next.length = (getNode s i).next.length
    rw [hnode2 i]
    by_cases hiy : i = y
    · subst hiy
      rw [if_pos rfl]
    · rw [if_neg hiy]
  have hn2 : ∀ i l, nextAt { s with
      nodes := s.nodes.set y { getNode s y with value := value } } i l = nextAt s i l := by
    intro i l
    show (getNode _ i).next.getD l none = (getNode s i).next.getD l none
    rw [hnode2 i]
    by_cases hiy : i = y
    · subst hiy
      rw [if_pos rfl]
    · rw [if_neg hiy]
  have hv2 : ∀ i, i ≠ y → (getNode { s with
      nodes := s.nodes.set y { getNode s y with value := value } } i).value
      = (getNode s i).value := by
    intro i hiy
    rw [hnode2 i, if_neg hiy]
  have hvy : (getNode { s with
      nodes := s.nodes.set y { getNode s y with value := value } } y).value = value := by
    rw [hnode2 y, if_pos rfl]
  have hlink0 : linked s 0 0 (chain s) := by
    have := h.2.2.2.2.2 0 (by omega)
    rwa [levelList_zero h] at this
  have hchain2 : chain { s with
      nodes := s.nodes.set y { getNode s y with value := value } } = chain s := by
    unfold chain
    rw [hlen2]
    exact chainFrom_of_linked _ (chain s) 0 s.nodes.length
      (linked_shift (chain s) 0 0 (hn2 0 0) (fun j _ => hn2 j 0) hlink0)
      (chain_length_lt h)
  have hlev2 : ∀ l, levelList { s with
      nodes := s.nodes.set y { getNode s y with value := value } } l = levelList s l := by
    intro l
    unfold levelList
    rw [hchain2]
    exact List.filter_congr (fun i _ => by rw [hh2 i])
  refine ⟨⟨h.1, by rw [hlen2]; exact h.2.1, by rw [hh2 0]; exact h.2.2.1, ?_, ?_, ?_⟩, ?_⟩
  · intro i hi
    rw [hchain2] at hi
    obtain ⟨hi0, hilt, hg1, hg2⟩ := hmemf i hi
    exact ⟨hi0, by rw [hlen2]; exact hilt, by rw [hh2 i]; exact hg1, by rw [hh2 i]; exact hg2⟩
  · rw [hchain2]
    refine List.Pairwise.imp_of_mem ?_ h.2.2.2.2.1
    intro a b _ _ hab
    show bytesCmp (keyAt _ a) (keyAt _ b) = Ordering.lt
    rw [hkey2 a, hkey2 b]
    exact hab
  · intro l hl
    rw [hlev2 l]
    exact linked_shift (levelList s l) 0 0 (hn2 0 l) (fun j _ => hn2 j l)
      (h.2.2.2.2.2 l hl)
  · unfold toList
    rw [hchain2]
    refine List.map_congr_left ?_
    intro i _
    by_cases hiy : i = y
    · subst hiy
      rw [if_pos rfl, hvy]
      show (keyAt _ i, value) = _
      rw [hkey2 i]
    · rw [if_neg hiy, hv2 i hiy]
      show (keyAt _ i, (getNode s i).value) = _
      rw [hkey2 i]

end skiplist

namespace skiplist

/-- `SkipList.Put` realises the sorted insert-or-overwrite on the
abstraction and preserves the invariant. -/
theorem Put_spec {s : SkipList} (h : Inv s) (key value : List Nat) :
    Inv (s.Put key value) ∧ toList (s.Put key value) = insertAL (toList s) key value := by
  have hput : s.Put key value
      = (match ((chain s).dropWhile (keyLt s key)).head? with
        | some y =>
          if bytesCmp (getNode s y).key key = Ordering.eq then
            { s with nodes := s.nodes.set y { getNode s y with value := value } }
          else insertNew s key value (buildUpdate s key 100 0).1
        | none => insertNew s key value (buildUpdate s key 100 0).1) := by
    show (match nextAt s (buildUpdate s key s.MaxLevel 0).2 0 with
      | some y =>
        if bytesCmp (getNode s y).key key = Ordering.eq then
          { s with nodes := s.nodes.set y { getNode s y with value := value } }
        else insertNew s key value (buildUpdate s key s.MaxLevel 0).1
      | none => insertNew s key value (buildUpdate s key s.MaxLevel 0).1)
      = _
    rw [h.1, buildUpdate_top2 h key, next_updTarget0 h key]
  have hbu1 : ∀ i, i < 100 → (buildUpdate s key 100 0).1.getD i 0 = updTarget s key i :=
    fun i hi => buildUpdate_top1 h key i hi
  cases hD : (chain s).dropWhile (keyLt s key) with
  | nil =>
    rw [hD] at hput
    simp only [List.head?_nil] at hput
    rw [hput]
    refine insertNew_spec h key value _ hbu1 ?_
    intro i hi
    have hchaineq : (chain s).takeWhile (keyLt s key) = chain s := by
      have htd := List.takeWhile_append_dropWhile (p := keyLt s key) (l := chain s)
      rw [hD, List.append_nil] at htd
      exact htd
    have hmemT : i ∈ (chain s).takeWhile (keyLt s key) := by rw [hchaineq]; exact hi
    have hp := List.mem_takeWhile_imp (p := keyLt s key) hmemT
    have hlt : bytesCmp (keyAt s i) key = Ordering.lt := (bytesLtB_iff (keyAt s i) key).mp hp
    rw [hlt]
    decide
  | cons y D' =>
    rw [hD] at hput
    simp only [List.head?_cons] at hput
    have hymem : y ∈ chain s :=
      (List.dropWhile_sublist (keyLt s key)).subset (by rw [hD]; simp)
    have hyfalse : keyLt s key y = false := dropWhile_head_false _ y D' (chain s) hD
    have hchainsplit : chain s = (chain s).takeWhile (keyLt s key) ++ y :: D' := by
      conv_lhs => rw [← List.takeWhile_append_dropWhile (p := keyLt s key) (l := chain s)]
      rw [hD]
    by_cases heq : bytesCmp (getNode s y).key key = Ordering.eq
    · rw [if_pos heq] at hput
      rw [hput]
      obtain ⟨hI2, hT2⟩ := setValue_spec h y value hymem
      refine ⟨hI2, ?_⟩
      rw [hT2]
      have heqk : keyAt s y = key := (bytesCmp_eq_iff (keyAt s y) key).mp heq
      have hnd := chain_nodup h
      rw [hchainsplit] at hnd
      have hyT : ∀ t ∈ (chain s).takeWhile (keyLt s key), t ≠ y := by
        intro t ht
        exact (List.pairwise_append.mp hnd).2.2 t ht y (by simp)
      have hyD : y ∉ D' :=
        (List.nodup_cons.mp (List.pairwise_append.mp hnd).2.1).1
      rw [hchainsplit]
      simp only [List.map_append, List.map_cons]
      simp only [if_true]
      have hmT : ((chain s).takeWhile (keyLt s key)).map
            (fun i => (keyAt s i, if i = y then value else (getNode s i).value))
          = ((chain s).takeWhile (keyLt s key)).map
            (fun i => ((getNode s i).key, (getNode s i).value)) := by
        refine List.map_congr_left ?_
        intro i hi
        rw [if_neg (hyT i hi)]
        rfl
      have hmD : D'.map (fun i => (keyAt s i, if i = y then value else (getNode s i).value))
          = D'.map (fun i => ((getNode s i).key, (getNode s i).value)) := by
        refine List.map_congr_left ?_
        intro i hi
        rw [if_neg (fun (he : i = y) => hyD (he ▸ hi))]
        rfl
      rw [hmT, hmD, heqk]
      have htls : toList s
          = ((chain s).takeWhile (keyLt s key)).map
              (fun i => ((getNode s i).key, (getNode s i).value))
            ++ ((getNode s y).key, (getNode s y).value)
              :: D'.map (fun i => ((getNode s i).key, (getNode s i).value)) := by
        unfold toList
        conv_lhs => rw [hchainsplit]
        rw [List.map_append, List.map_cons]
      rw [htls]
      have hPT : ∀ p ∈ ((chain s).takeWhile (keyLt s key)).map
          (fun i => ((getNode s i).key, (getNode s i).value)),
          bytesCmp p.1 key = Ordering.lt := by
        intro p hp
        obtain ⟨i, hi, rfl⟩ := List.mem_map.mp hp
        have hq := List.mem_takeWhile_imp (p := keyLt s key) hi
        exact (bytesLtB_iff (keyAt s i) key).mp hq
      rw [insertAL_append_eq key value (getNode s y).key (getNode s y).value
        (by rw [show (getNode s y).key = key from heqk]; exact bytesCmp_self key) _ _ hPT]
    · rw [if_neg heq] at hput
      rw [hput]
      refine insertNew_spec h key value _ hbu1 ?_
      intro i hi
      have hygt : bytesCmp (keyAt s y) key = Ordering.gt := by
        cases hcy : bytesCmp (keyAt s y) key with
        | lt =>
          rw [show keyLt s key y = true from (bytesLtB_iff (keyAt s y) key).mpr hcy] at hyfalse
          cases hyfalse
        | eq => exact absurd hcy heq
        | gt => rfl
      rw [hchainsplit] at hi
      rcases List.mem_append.mp hi with hiT | hiR
      · have hp := List.mem_takeWhile_imp (p := keyLt s key) hiT
        have hlt : bytesCmp (keyAt s i) key = Ordering.lt := (bytesLtB_iff (keyAt s i) key).mp hp
        rw [hlt]
        decide
      · rcases List.mem_cons.mp hiR with rfl | hiD
        · rw [hygt]
          decide
        · have hpair := h.2.2.2.2.1
          rw [hchainsplit] at hpair
          have hyd : bytesCmp (keyAt s y) (keyAt s i) = Ordering.lt :=
            (List.pairwise_cons.mp (List.pairwise_append.mp hpair).2.1).1 i hiD
          have hklt : bytesCmp key (keyAt s i) = Ordering.lt :=
            bytesCmp_lt_trans _ _ _ ((bytesCmp_gt_iff (keyAt s y) key).mp hygt) hyd
          rw [(bytesCmp_gt_iff (keyAt s i) key).mpr hklt]
          decide

end skiplist

namespace skiplist

/-- The heap after the first `k` iterations of the unlinking loop of
`Delete`. -/
def delFold (s : SkipList) (update : List Nat) (y k : Nat) : List Node :=
  (List.range k).foldl (delStep update y) s.nodes

theorem delFold_zero (s : SkipList) (update : List Nat) (y : Nat) :
    delFold s update y 0 = s.nodes := rfl

theorem delFold_succ (s : SkipList) (update : List Nat) (y k : Nat) :
    delFold s update y (k + 1) = delStep update y (delFold s update y k) k := by
  unfold delFold
  rw [List.range_succ, List.foldl_append]
  rfl

theorem delStep_length (update : List Nat) (y : Nat) (ns : List Node) (i : Nat) :
    (delStep update y ns i).length = ns.length := by
  simp only [delStep]
  split
  · exact List.length_set _ _ _
  · rfl

theorem delStep_getD_other (update : List Nat) (y : Nat) (ns : List Node) (i : Nat)
    (j' : Nat) (h : j' ≠ update.getD i 0) :
    (delStep update y ns i).getD j' ⟨[], [], []⟩ = ns.getD j' ⟨[], [], []⟩ := by
  simp only [delStep]
  split
  · exact getD_set_ne _ _ _ _ _ h
  · rfl

theorem delStep_getD_j (update : List Nat) (y : Nat) (ns : List Node) (i : Nat)
    (hj : update.getD i 0 < ns.length) :
    (delStep update y ns i).getD (update.getD i 0) ⟨[], [], []⟩
      = if (ns.getD (update.getD i 0) ⟨[], [], []⟩).next.getD i none = some y then
          { ns.getD (update.getD i 0) ⟨[], [], []⟩ with
            next := ((ns.getD (update.getD i 0) ⟨[], [], []⟩).next.set i
              ((ns.getD y ⟨[], [], []⟩).next.getD i none)) }
        else ns.getD (update.getD i 0) ⟨[], [], []⟩ := by
  by_cases hc : (ns.getD (update.getD i 0) ⟨[], [], []⟩).next.getD i none = some y
  · simp only [delStep]
    rw [if_pos hc, if_pos hc, getD_set_self _ _ _ _ hj]
  · simp only [delStep]
    rw [if_neg hc, if_neg hc]

/-- Heap shape after `k` iterations of the unlinking loop: keys, values and
heights never change; the level-`l` pointer of the walk target bypasses `y`
exactly when it pointed at `y`, and nothing else moves. -/
theorem delFold_char (s : SkipList) (update : List Nat) (y : Nat)
    (hlt : ∀ i, i < 100 → update.getD i 0 < s.nodes.length)
    (hht : ∀ i, i < 100 → i < (s.nodes.getD (update.getD i 0) ⟨[], [], []⟩).next.length) :
    ∀ k, k ≤ 100 →
    (delFold s update y k).length = s.nodes.length
    ∧ (∀ j, ((delFold s update y k).getD j ⟨[], [], []⟩).key
          = (s.nodes.getD j ⟨[], [], []⟩).key
        ∧ ((delFold s update y k).getD j ⟨[], [], []⟩).value
          = (s.nodes.getD j ⟨[], [], []⟩).value
        ∧ ((delFold s update y k).getD j ⟨[], [], []⟩).next.length
          = (s.nodes.getD j ⟨[], [], []⟩).next.length)
    ∧ (∀ j l, ((delFold s update y k).getD j ⟨[], [], []⟩).next.getD l none
        = if l < k ∧ update.getD l 0 = j
            ∧ (s.nodes.getD j ⟨[], [], []⟩).next.getD l none = some y
          then (s.nodes.getD y ⟨[], [], []⟩).next.getD l none
          else (s.nodes.getD j ⟨[], [], []⟩).next.getD l none)
  | 0, _ => by
    refine ⟨rfl, fun j => ⟨rfl, rfl, rfl⟩, ?_⟩
    intro j l
    rw [delFold_zero, if_neg (fun hcon => absurd hcon.1 (by omega))]
  | k + 1, hk => by
    have hk' : k < 100 := by omega
    obtain ⟨ihlen, ihold, ihnext⟩ := delFold_char s update y hlt hht k (by omega)
    have hjlt : update.getD k 0 < s.nodes.length := hlt k hk'
    have hjlt2 : update.getD k 0 < (delFold s update y k).length := by rw [ihlen]; omega
    have hgorig : ((delFold s update y k).getD (update.getD k 0) ⟨[], [], []⟩).next.getD k none
        = (s.nodes.getD (update.getD k 0) ⟨[], [], []⟩).next.getD k none := by
      rw [ihnext _ k, if_neg (fun hcon => absurd hcon.1 (by omega))]
    have hyorig : ((delFold s update y k).getD y ⟨[], [], []⟩).next.getD k none
        = (s.nodes.getD y ⟨[], [], []⟩).next.getD k none := by
      rw [ihnext y k, if_neg (fun hcon => absurd hcon.1 (by omega))]
    refine ⟨?_, ?_, ?_⟩
    · rw [delFold_succ, delStep_length, ihlen]
    · intro j
      by_cases hjj : j = update.getD k 0
      · subst hjj
        rw [delFold_succ, delStep_getD_j update y (delFold s update y k) k hjlt2]
        by_cases hg : ((delFold s update y k).getD (update.getD k 0)
            ⟨[], [], []⟩).next.getD k none = some y
        · rw [if_pos hg]
          refine ⟨(ihold _).1, (ihold _).2.1, ?_⟩
          show (((delFold s update y k).getD (update.getD k 0) ⟨[], [], []⟩).next.set k
            _).length = _
          rw [List.length_set]
          exact (ihold _).2.2
        · rw [if_neg hg]
          exact ihold _
      · rw [delFold_succ, delStep_getD_other update y (delFold s update y k) k j hjj]
        exact ihold j
    · intro j l
      by_cases hjj : j = update.getD k 0
      · subst hjj
        rw [delFold_succ, delStep_getD_j update y (delFold s update y k) k hjlt2]
        by_cases hcond : (s.nodes.getD (update.getD k 0) ⟨[], [], []⟩).next.getD k none
            = some y
        · rw [if_pos (by rw [hgorig]; exact hcond)]
          by_cases hlk : l = k
          · subst hlk
            rw [getD_set_self _ _ _ _ (by rw [(ihold _).2.2]; exact hht l (by omega))]
            rw [hyorig]
            rw [if_pos ⟨by omega, rfl, hcond⟩]
          · rw [getD_set_ne _ _ _ _ _ hlk, ihnext _ l]
            by_cases hl2 : l < k ∧ update.getD l 0 = update.getD k 0
                ∧ (s.nodes.getD (update.getD k 0) ⟨[], [], []⟩).next.getD l none = some y
            · rw [if_pos hl2, if_pos ⟨by omega, hl2.2⟩]
            · rw [if_neg hl2, if_neg (fun hcon => hl2 ⟨by omega, hcon.2⟩)]
        · rw [if_neg (by rw [hgorig]; exact hcond)]
          rw [ihnext _ l]
          by_cases hl2 : l < k ∧ update.getD l 0 = update.getD k 0
              ∧ (s.nodes.getD (update.getD k 0) ⟨[], [], []⟩).next.getD l none = some y
          · rw [if_pos hl2, if_pos ⟨by omega, hl2.2⟩]
          · rw [if_neg hl2, if_neg (fun hcon => by
              by_cases hlk : l = k
              · subst hlk
                exact hcond hcon.2.2
              · exact hl2 ⟨by omega, hcon.2⟩)]
      · rw [delFold_succ, delStep_getD_other update y (delFold s update y k) k j hjj]
        rw [ihnext j l]
        by_cases hl2 : l < k ∧ update.getD l 0 = j
            ∧ (s.nodes.getD j ⟨[], [], []⟩).next.getD l none = some y
        · rw [if_pos hl2, if_pos ⟨by omega, hl2.2⟩]
        · rw [if_neg hl2, if_neg (fun hcon => by
            by_cases hlk : l = k
            · subst hlk
              exact hjj hcon.2.1.symm
            · exact hl2 ⟨by omega, hcon.2⟩)]

theorem delFold_eq (s : SkipList) (u : List Nat) (y k : Nat) :
    (List.range k).foldl (delStep u y) s.nodes = delFold s u y k := rfl

attribute [irreducible] delFold

theorem eraseAL_of_none : ∀ (m : List (List Nat × List Nat)) (k : List Nat),
    (∀ kv ∈ m, ¬ bytesCmp k kv.1 = Ordering.eq) → eraseAL m k = m
  | [], _, _ => rfl
  | (k', v') :: t, k, hall => by
    simp only [eraseAL, if_neg (hall (k', v') (by simp))]
    rw [eraseAL_of_none t k (fun q hq => hall q (by simp [hq]))]

end skiplist

namespace skiplist

/-- Any state whose heap agrees with `s` except that every level-`l`
pointer of the walk target bypasses `y` (the unique node carrying `key`)
satisfies the invariant and erases exactly `key` from the abstraction. -/
theorem removeState_spec {s s2 : SkipList} (h : Inv s) (key : List Nat) (y : Nat)
    (hymem : y ∈ chain s) (heq : bytesCmp (keyAt s y) key = Ordering.eq)
    (hMax2 : s2.MaxLevel = s.MaxLevel)
    (hlen2 : s2.nodes.length = s.nodes.length)
    (hkey2 : ∀ i, keyAt s2 i = keyAt s i)
    (hval2 : ∀ i, (getNode s2 i).value = (getNode s i).value)
    (hh2 : ∀ i, height s2 i = height s i)
    (hnext2 : ∀ j l, nextAt s2 j l
      = if l < 100 ∧ updTarget s key l = j ∧ nextAt s j l = some y
        then nextAt s y l else nextAt s j l) :
    Inv s2 ∧ toList s2 = eraseAL (toList s) key := by
  have hpair := h.2.2.2.2.1
  have hmemf := h.2.2.2.1
  have hn0 : 0 < s.nodes.length := h.2.1
  have hylt : y < s.nodes.length := (hmemf y hymem).2.1
  have hyh1 : 1 ≤ height s y := (hmemf y hymem).2.2.1
  have hyh100 : height s y ≤ 100 := (hmemf y hymem).2.2.2
  have heqy : keyAt s y = key := (bytesCmp_eq_iff (keyAt s y) key).mp heq
  have hkeyLty : keyLt s key y = false := by
    show (bytesCmp (keyAt s y) key == Ordering.lt) = false
    rw [heq]
    rfl
  have hsplit0 : (chain s).filter (keyLt s key)
      ++ (chain s).filter (fun i => !(keyLt s key i)) = chain s := by
    rw [← takeWhile_eq_filter_sorted s key (chain s) hpair,
      ← dropWhile_eq_filter_sorted s key (chain s) hpair]
    exact List.takeWhile_append_dropWhile (p := keyLt s key) (l := chain s)
  have hsplitl : ∀ l, (levelList s l).filter (keyLt s key)
      ++ (levelList s l).filter (fun i => !(keyLt s key i)) = levelList s l := by
    intro l
    rw [← takeWhile_eq_filter_sorted s key (levelList s l) (levelList_pairwise h l),
      ← dropWhile_eq_filter_sorted s key (levelList s l) (levelList_pairwise h l)]
    exact List.takeWhile_append_dropWhile (p := keyLt s key) (l := levelList s l)
  have hTl : ∀ l, ((chain s).filter (keyLt s key)).filter (fun i => decide (l < height s i))
      = (levelList s l).filter (keyLt s key) := by
    intro l
    unfold levelList
    rw [List.filter_filter, List.filter_filter]
    exact List.filter_congr (fun i _ => Bool.and_comm _ _)
  have hDl : ∀ l, ((chain s).filter (fun i => !(keyLt s key i))).filter
        (fun i => decide (l < height s i))
      = (levelList s l).filter (fun i => !(keyLt s key i)) := by
    intro l
    unfold levelList
    rw [List.filter_filter, List.filter_filter]
    exact List.filter_congr (fun i _ => Bool.and_comm _ _)
  have hTlt : ∀ t ∈ (chain s).filter (keyLt s key),
      bytesCmp (keyAt s t) key = Ordering.lt := by
    intro t ht
    have hm := List.of_mem_filter ht
    exact (bytesLtB_iff (keyAt s t) key).mp hm
  have hyD0 : y ∈ (chain s).filter (fun i => !(keyLt s key i)) :=
    List.mem_filter.mpr ⟨hymem, by rw [hkeyLty]; rfl⟩
  cases hD0 : (chain s).filter (fun i => !(keyLt s key i)) with
  | nil =>
    rw [hD0] at hyD0
    cases hyD0
  | cons d D' =>
    rw [hD0] at hyD0
    have hD0pair : List.Pairwise (fun a b => bytesCmp (keyAt s a) (keyAt s b) = Ordering.lt)
        (d :: D') := by
      have hx := List.Pairwise.sublist
        (List.filter_sublist (p := fun i => !(keyLt s key i)) (chain s)) hpair
      rwa [hD0] at hx
    have hdy : d = y := by
      rcases List.mem_cons.mp hyD0 with he | hyD'
      · exact he.symm
      · exfalso
        have hdlt : bytesCmp (keyAt s d) (keyAt s y) = Ordering.lt :=
          (List.pairwise_cons.mp hD0pair).1 y hyD'
        have hdmem : d ∈ (chain s).filter (fun i => !(keyLt s key i)) := by
          rw [hD0]
          exact List.mem_cons_self d D'
        have hdn : keyLt s key d = false := by simpa using List.of_mem_filter hdmem
        rw [heqy] at hdlt
        rw [show keyLt s key d = true from (bytesLtB_iff (keyAt s d) key).mpr hdlt] at hdn
        cases hdn
    rw [hdy] at hD0 hD0pair
    have hyD' : y ∉ D' := by
      have hnd : ((chain s).filter (fun i => !(keyLt s key i))).Nodup :=
        List.Nodup.sublist (List.filter_sublist _) (chain_nodup h)
      rw [hD0] at hnd
      exact (List.nodup_cons.mp hnd).1
    have hD'sub : ∀ q ∈ D', q ∈ (chain s).filter (fun i => !(keyLt s key i)) := by
      intro q hq
      rw [hD0]
      exact List.mem_cons_of_mem y hq
    have hg_next : ∀ l, l < 100 → nextAt s (updTarget s key l) l
        = (((chain s).filter (fun i => !(keyLt s key i))).filter
            (fun i => decide (l < height s i))).head? := by
      intro l hl
      rw [next_updTarget h key l hl,
        dropWhile_eq_filter_sorted s key (levelList s l) (levelList_pairwise h l), ← hDl l]
    have hsome : ∀ l, l < height s y → nextAt s (updTarget s key l) l = some y := by
      intro l hl
      have hl100 : l < 100 := by omega
      rw [hg_next l hl100, hD0, List.filter_cons, if_pos (decide_eq_true hl)]
      rfl
    have hnotsome : ∀ l, height s y ≤ l → l < 100 →
        ¬ nextAt s (updTarget s key l) l = some y := by
      intro l hge hl100 hcon
      rw [hg_next l hl100, hD0, List.filter_cons,
        if_neg (by simp only [decide_eq_true_eq]; omega)] at hcon
      cases hfc : D'.filter (fun i => decide (l < height s i)) with
      | nil =>
        rw [hfc] at hcon
        cases hcon
      | cons a t =>
        rw [hfc] at hcon
        simp only [List.head?_cons, Option.some.injEq] at hcon
        apply hyD'
        have ha : a ∈ D'.filter (fun i => decide (l < height s i)) := by rw [hfc]; simp
        rw [hcon] at ha
        exact List.mem_of_mem_filter ha
    have hother : ∀ l, ∀ j, j ≠ updTarget s key l → nextAt s2 j l = nextAt s j l := by
      intro l j hj
      rw [hnext2 j l, if_neg (fun hcon => hj hcon.2.1.symm)]
    have hbypass : ∀ l, l < height s y → nextAt s2 (updTarget s key l) l = nextAt s y l := by
      intro l hl
      rw [hnext2 _ l, if_pos ⟨by omega, rfl, hsome l hl⟩]
    have hsame : ∀ l, height s y ≤ l → l < 100 → ∀ j, nextAt s2 j l = nextAt s j l := by
      intro l hge hl100 j
      rw [hnext2 j l,
        if_neg (fun hcon => hnotsome l hge hl100 (by rw [hcon.2.1]; exact hcon.2.2))]
    have hlinkrem : ∀ l, l < height s y →
        linked s2 l 0 ((levelList s l).filter (keyLt s key)
          ++ D'.filter (fun i => decide (l < height s i))) := by
      intro l hl
      have hl100 : l < 100 := by omega
      have hDlev : (levelList s l).filter (fun i => !(keyLt s key i))
          = y :: D'.filter (fun i => decide (l < height s i)) := by
        rw [← hDl l, hD0, List.filter_cons, if_pos (decide_eq_true hl)]
      refine linked_remove (hbypass l hl) _ _ 0 (hother l) ?_ ?_ ?_ ?_
      · refine List.Nodup.sublist ?_ (nodup_zero_levelList h l)
        exact List.Sublist.cons₂ 0 (List.filter_sublist _)
      · intro q hq
        have hqD' := List.mem_of_mem_filter hq
        have hqD0 := hD'sub q hqD'
        have hqchain := List.mem_of_mem_filter hqD0
        have hqn : keyLt s key q = false := by simpa using List.of_mem_filter hqD0
        rcases updTarget_cases s key l with h0 | ⟨_, hglt⟩
        · rw [h0]
          exact fun he => (hmemf q hqchain).1 he
        · intro he
          rw [← he] at hglt
          rw [hglt] at hqn
          cases hqn
      · rfl
      · have hx : (levelList s l).filter (keyLt s key) ++ y ::
            D'.filter (fun i => decide (l < height s i)) = levelList s l := by
          rw [← hDlev]
          exact hsplitl l
        rw [hx]
        exact h.2.2.2.2.2 l hl100
    have hchain2 : chain s2 = (chain s).filter (keyLt s key) ++ D' := by
      have hl0 := hlinkrem 0 (by omega)
      rw [levelList_zero h] at hl0
      have hDf : D'.filter (fun i => decide (0 < height s i)) = D' := by
        rw [List.filter_eq_self]
        intro q hq
        have hqc := List.mem_of_mem_filter (hD'sub q hq)
        exact decide_eq_true (by have := (hmemf q hqc).2.2.1; omega)
      rw [hDf] at hl0
      have hlenlt : ((chain s).filter (keyLt s key) ++ D').length < s2.nodes.length := by
        rw [hlen2]
        have hceq := congrArg List.length hsplit0
        rw [List.length_append] at hceq
        have hc2 := congrArg List.length hD0
        rw [List.length_cons] at hc2
        rw [List.length_append]
        have := chain_length_lt h
        omega
      unfold chain
      exact chainFrom_of_linked s2 _ 0 s2.nodes.length hl0 hlenlt
    have hh2dec : ∀ (l : Nat) (L : List Nat), L.filter (fun i => decide (l < height s2 i))
        = L.filter (fun i => decide (l < height s i)) := by
      intro l L
      exact List.filter_congr (fun i _ => by rw [hh2 i])
    have hlevlt2 : ∀ l, l < height s y →
        levelList s2 l = (levelList s l).filter (keyLt s key)
          ++ D'.filter (fun i => decide (l < height s i)) := by
      intro l hl
      have hx : levelList s2 l = ((chain s).filter (keyLt s key)).filter
          (fun i => decide (l < height s i))
          ++ D'.filter (fun i => decide (l < height s i)) := by
        unfold levelList
        rw [hchain2, List.filter_append, hh2dec, hh2dec]
      rw [hx, hTl l]
    have hlevge2 : ∀ l, height s y ≤ l → levelList s2 l = levelList s l := by
      intro l hge
      have hx : levelList s2 l = ((chain s).filter (keyLt s key)).filter
          (fun i => decide (l < height s i))
          ++ D'.filter (fun i => decide (l < height s i)) := by
        unfold levelList
        rw [hchain2, List.filter_append, hh2dec, hh2dec]
      have hx2 : (levelList s l).filter (fun i => !(keyLt s key i))
          = D'.filter (fun i => decide (l < height s i)) := by
        rw [← hDl l, hD0, List.filter_cons,
          if_neg (by simp only [decide_eq_true_eq]; omega)]
      rw [hx, hTl l, ← hx2, hsplitl l]
    have hInv2 : Inv s2 := by
      refine ⟨hMax2.trans h.1, by rw [hlen2]; omega, by rw [hh2 0]; exact h.2.2.1, ?_, ?_, ?_⟩
      · intro i hi
        rw [hchain2] at hi
        have hic : i ∈ chain s := by
          rcases List.mem_append.mp hi with hiT | hiD
          · exact List.mem_of_mem_filter hiT
          · exact List.mem_of_mem_filter (hD'sub i hiD)
        obtain ⟨hi0, hilt, hg1, hg2⟩ := hmemf i hic
        exact ⟨hi0, by rw [hlen2]; omega, by rw [hh2 i]; exact hg1, by rw [hh2 i]; exact hg2⟩
      · rw [hchain2]
        have hsub : List.Sublist ((chain s).filter (keyLt s key) ++ D') (chain s) := by
          conv_rhs => rw [← hsplit0, hD0]
          exact List.Sublist.append_left (List.sublist_cons_self y D') _
        refine List.Pairwise.imp_of_mem ?_ (List.Pairwise.sublist hsub hpair)
        intro a b _ _ hab
        show bytesCmp (keyAt s2 a) (keyAt s2 b) = Ordering.lt
        rw [hkey2 a, hkey2 b]
        exact hab
      · intro l hl100
        by_cases hl : l < height s y
        · rw [hlevlt2 l hl]
          exact hlinkrem l hl
        · rw [hlevge2 l (by omega)]
          refine linked_shift (levelList s l) 0 0 (hsame l (by omega) hl100 0)
            (fun j _ => hsame l (by omega) hl100 j) (h.2.2.2.2.2 l hl100)
    refine ⟨hInv2, ?_⟩
    have hmap2 : ∀ (L : List Nat),
        L.map (fun i => ((getNode s2 i).key, (getNode s2 i).value))
        = L.map (fun i => ((getNode s i).key, (getNode s i).value)) := by
      intro L
      refine List.map_congr_left ?_
      intro i _
      rw [show (getNode s2 i).key = (getNode s i).key from hkey2 i, hval2 i]
    have htls : toList s
        = ((chain s).filter (keyLt s key)).map
            (fun i => ((getNode s i).key, (getNode s i).value))
          ++ ((getNode s y).key, (getNode s y).value)
            :: D'.map (fun i => ((getNode s i).key, (getNode s i).value)) := by
      unfold toList
      conv_lhs => rw [← hsplit0, hD0]
      rw [List.map_append, List.map_cons]
    have hPT : ∀ p ∈ ((chain s).filter (keyLt s key)).map
        (fun i => ((getNode s i).key, (getNode s i).value)),
        bytesCmp p.1 key = Ordering.lt := by
      intro p hp
      obtain ⟨i, hi, rfl⟩ := List.mem_map.mp hp
      exact hTlt i hi
    rw [htls]
    unfold toList
    rw [hchain2, List.map_append, hmap2, hmap2]
    rw [eraseAL_append_eq key (getNode s y).key (getNode s y).value
      (by rw [show (getNode s y).key = key from heqy]; exact bytesCmp_self key) _ _ hPT]

end skiplist

namespace skiplist

set_option maxRecDepth 4000 in
set_option maxHeartbeats 1000000 in
/-- `SkipList.Delete` realises the sorted erase on the abstraction and
preserves the invariant. -/
theorem Delete_spec {s : SkipList} (h : Inv s) (key : List Nat) :
    Inv (s.Delete key).1 ∧ toList (s.Delete key).1 = eraseAL (toList s) key := by
  have hx0 : nextAt s (buildUpdate s key s.MaxLevel 0).2 0
      = ((chain s).dropWhile (keyLt s key)).head? := by
    rw [h.1, buildUpdate_top2 h key, next_updTarget0 h key]
  have hbu1 : ∀ i, i < 100 → (buildUpdate s key 100 0).1.getD i 0 = updTarget s key i :=
    fun i hi => buildUpdate_top1 h key i hi
  have hpair := h.2.2.2.2.1
  have hmemf := h.2.2.2.1
  cases hD : (chain s).dropWhile (keyLt s key) with
  | nil =>
    rw [hD, List.head?_nil] at hx0
    have hdel : s.Delete key = (s, false) := by
      show (match nextAt s (buildUpdate s key s.MaxLevel 0).2 0 with
        | none => (s, false)
        | some y =>
          if bytesCmp (getNode s y).key key = Ordering.eq then
            ({ s with nodes := ((List.range s.MaxLevel).foldl
                (delStep (buildUpdate s key s.MaxLevel 0).1 y) s.nodes) }, true)
          else (s, false)) = (s, false)
      rw [hx0]
    rw [hdel]
    refine ⟨h, ?_⟩
    refine (eraseAL_of_none (toList s) key ?_).symm
    intro kv hkv
    obtain ⟨i, hi, rfl⟩ := List.mem_map.mp hkv
    have hchaineq : (chain s).takeWhile (keyLt s key) = chain s := by
      have htd := List.takeWhile_append_dropWhile (p := keyLt s key) (l := chain s)
      rw [hD, List.append_nil] at htd
      exact htd
    have hmemT : i ∈ (chain s).takeWhile (keyLt s key) := by rw [hchaineq]; exact hi
    have hp := List.mem_takeWhile_imp (p := keyLt s key) hmemT
    have hlt : bytesCmp (keyAt s i) key = Ordering.lt := (bytesLtB_iff (keyAt s i) key).mp hp
    have hgt2 : bytesCmp key (getNode s i).key = Ordering.gt :=
      (bytesCmp_gt_iff key (keyAt s i)).mpr hlt
    rw [hgt2]
    decide
  | cons y D' =>
    rw [hD, List.head?_cons] at hx0
    have hdel : s.Delete key
        = (if bytesCmp (getNode s y).key key = Ordering.eq then
            ({ s with nodes := ((List.range s.MaxLevel).foldl
                (delStep (buildUpdate s key s.MaxLevel 0).1 y) s.nodes) }, true)
          else (s, false)) := by
      show (match nextAt s (buildUpdate s key s.MaxLevel 0).2 0 with
        | none => (s, false)
        | some z =>
          if bytesCmp (getNode s z).key key = Ordering.eq then
            ({ s with nodes := ((List.range s.MaxLevel).foldl
                (delStep (buildUpdate s key s.MaxLevel 0).1 z) s.nodes) }, true)
          else (s, false)) = _
      rw [hx0]
    have hymem : y ∈ chain s :=
      (List.dropWhile_sublist (keyLt s key)).subset (by rw [hD]; simp)
    have hyfalse : keyLt s key y = false := dropWhile_head_false _ y D' (chain s) hD
    have hchainsplit : chain s = (chain s).takeWhile (keyLt s key) ++ y :: D' := by
      conv_lhs => rw [← List.takeWhile_append_dropWhile (p := keyLt s key) (l := chain s)]
      rw [hD]
    by_cases heq : bytesCmp (getNode s y).key key = Ordering.eq
    · rw [if_pos heq] at hdel
      rw [show List.range s.MaxLevel = List.range 100 from by rw [h.1]] at hdel
      rw [show buildUpdate s key s.MaxLevel 0 = buildUpdate s key 100 0
        from by rw [h.1]] at hdel
      rw [delFold_eq] at hdel
      rw [hdel]
      have hlt : ∀ i, i < 100 → (buildUpdate s key 100 0).1.getD i 0 < s.nodes.length := by
        intro i hi
        rw [hbu1 i hi]
        exact updTarget_lt h key i
      have hht : ∀ i, i < 100 → i < (s.nodes.getD ((buildUpdate s key 100 0).1.getD i 0)
          ⟨[], [], []⟩).next.length := by
        intro i hi
        rw [hbu1 i hi]
        exact updTarget_height h key i hi
      obtain ⟨d1, d2, d3⟩ := delFold_char s (buildUpdate s key 100 0).1 y hlt hht 100
        (le_refl _)
      refine @removeState_spec s
        { s with nodes := delFold s (buildUpdate s key 100 0).1 y 100 }
        h key y hymem heq rfl d1 (fun i => (d2 i).1)
        (fun i => (d2 i).2.1) (fun i => (d2 i).2.2) ?_
      intro j l
      have hx := d3 j l
      by_cases hl : l < 100
      · rw [hbu1 l hl] at hx
        exact hx
      · rw [if_neg (fun hcon => absurd hcon.1 (by omega))] at hx
        rw [if_neg (fun hcon => absurd hcon.1 (by omega))]
        exact hx
    · rw [if_neg heq] at hdel
      rw [hdel]
      refine ⟨h, ?_⟩
      refine (eraseAL_of_none (toList s) key ?_).symm
      intro kv hkv
      obtain ⟨i, hi, rfl⟩ := List.mem_map.mp hkv
      have hygt : bytesCmp (keyAt s y) key = Ordering.gt := by
        cases hcy : bytesCmp (keyAt s y) key with
        | lt =>
          rw [show keyLt s key y = true from (bytesLtB_iff (keyAt s y) key).mpr hcy] at hyfalse
          cases hyfalse
        | eq => exact absurd hcy heq
        | gt => rfl
      rw [hchainsplit] at hi
      rcases List.mem_append.mp hi with hiT | hiR
      · have hp := List.mem_takeWhile_imp (p := keyLt s key) hiT
        have hltk : bytesCmp (keyAt s i) key = Ordering.lt := (bytesLtB_iff (keyAt s i) key).mp hp
        have hgt2 : bytesCmp key (getNode s i).key = Ordering.gt :=
          (bytesCmp_gt_iff key (keyAt s i)).mpr hltk
        rw [hgt2]
        decide
      · rcases List.mem_cons.mp hiR with rfl | hiD
        · have hlt2 : bytesCmp key (getNode s i).key = Ordering.lt :=
            (bytesCmp_gt_iff (keyAt s i) key).mp hygt
          rw [hlt2]
          decide
        · have hpair2 := hpair
          rw [hchainsplit] at hpair2
          have hyd : bytesCmp (keyAt s y) (keyAt s i) = Ordering.lt :=
            (List.pairwise_cons.mp (List.pairwise_append.mp hpair2).2.1).1 i hiD
          have hklt : bytesCmp key (getNode s i).key = Ordering.lt :=
            bytesCmp_lt_trans _ _ _ ((bytesCmp_gt_iff (keyAt s y) key).mp hygt) hyd
          rw [hklt]
          decide

end skiplist

namespace skiplist

theorem applyOps_cons (s : SkipList) (op : Op) (rest : List Op) :
    applyOps s (op :: rest) = applyOps (applyOp s op) rest := rfl

theorem netStep_put (k : List Nat) (acc : Option (List Nat)) (k2 v : List Nat) :
    netStep k acc (.put k2 v) = if k2 = k then some v else acc := rfl

theorem netStep_del (k : List Nat) (acc : Option (List Nat)) (k2 : List Nat) :
    netStep k acc (.del k2) = if k2 = k then none else acc := rfl

/-- Reachable states: the invariant survives every Put/Delete history, and
point lookups in the abstraction follow last-write-wins semantics. -/
theorem applyOps_spec : ∀ (ops : List Op) (s : SkipList), Inv s →
    Inv (applyOps s ops)
    ∧ ∀ k, lookupAL (toList (applyOps s ops)) k
        = ops.foldl (netStep k) (lookupAL (toList s) k)
  | [], s, h => ⟨h, fun _ => rfl⟩
  | .put k2 v :: rest, s, h => by
    have hps := Put_spec h k2 v
    have ih := applyOps_spec rest (s.Put k2 v) hps.1
    rw [applyOps_cons]
    refine ⟨ih.1, ?_⟩
    intro k
    rw [show applyOp s (.put k2 v) = s.Put k2 v from rfl]
    rw [ih.2 k, List.foldl_cons, netStep_put]
    have hinit : lookupAL (toList (s.Put k2 v)) k
        = (if k2 = k then some v else lookupAL (toList s) k) := by
      rw [hps.2]
      by_cases hk : k2 = k
      · rw [if_pos hk, hk]
        exact lookupAL_insertAL_self (toList s) k v
      · rw [if_neg hk]
        exact lookupAL_insertAL_other (toList s) k2 v k (fun he => hk he.symm)
    rw [hinit]
  | .del k2 :: rest, s, h => by
    have hds := Delete_spec h k2
    have ih := applyOps_spec rest (s.Delete k2).1 hds.1
    rw [applyOps_cons]
    refine ⟨ih.1, ?_⟩
    intro k
    rw [show applyOp s (.del k2) = (s.Delete k2).1 from rfl]
    rw [ih.2 k, List.foldl_cons, netStep_del]
    have hinit : lookupAL (toList (s.Delete k2).1) k
        = (if k2 = k then none else lookupAL (toList s) k) := by
      rw [hds.2]
      by_cases hk : k2 = k
      · rw [if_pos hk, hk]
        exact lookupAL_eraseAL_self (toList s) k (toList_sorted h)
      · rw [if_neg hk]
        exact lookupAL_eraseAL_other (toList s) k2 k (fun he => hk he.symm)
    rw [hinit]

/-- C8: for every skip list state reachable by Put/Delete operations and
all bounds, `Scan(a, b)` yields exactly the abstraction's entries with
`a ≤ k < b` (nil bounds acting as ∓∞), paired with their current
last-write-wins values, in strictly ascending key order (hence without
duplicates). -/
theorem claim_C8 (ops : List Op) (coins : List Bool) (a b : Option (List Nat)) :
    scanList (applyOps (New coins) ops) a b
      = (toList (applyOps (New coins) ops)).filter (fun kv => inBounds a b kv.1)
    ∧ List.Pairwise (fun p q => bytesCmp p.1 q.1 = Ordering.lt)
        (scanList (applyOps (New coins) ops) a b)
    ∧ ∀ k, lookupAL (toList (applyOps (New coins) ops)) k = netLookup ops k := by
  obtain ⟨hinv, hlook⟩ := applyOps_spec ops (New coins) (New_inv coins)
  have hscan := scanList_spec hinv a b
  refine ⟨hscan, ?_, ?_⟩
  · rw [hscan]
    exact List.Pairwise.sublist (List.filter_sublist _) (toList_sorted hinv)
  · intro k
    rw [hlook k, toList_New]
    rfl

end skiplist

namespace lsm

/-- The memtable operation a WAL record encodes during replay. -/
def recOp (r : wal.Record) : skiplist.Op :=
  if r.type = wal.OpPut then .put r.key r.value else .del r.key

theorem encodeList_length_ge : ∀ (recs : List wal.Record),
    recs.length ≤ (wal.encodeList recs).length
  | [] => Nat.le_refl 0
  | r :: rs => by
    rw [wal.encodeList_cons, List.length_cons, List.length_append]
    have ih := encodeList_length_ge rs
    have h1 : 1 ≤ (wal.Append r).length := by
      unfold wal.Append
      rw [List.length_append, List.length_cons]
      omega
    omega

theorem canon_type (r : wal.Record) : (wal.canon r).type = r.type := by
  unfold wal.canon
  split <;> rfl

theorem canon_key (r : wal.Record) : (wal.canon r).key = r.key := by
  unfold wal.canon
  split <;> rfl

/-- The replay loop of `Open` applied to a well-formed encoded log: it
folds the records into the memtable in file order. -/
theorem replayAux_encode : ∀ (recs : List wal.Record) (mt : skiplist.SkipList) (fuel : Nat),
    (∀ r ∈ recs, wal.WF r) → recs.length < fuel →
    replayAux fuel mt (wal.encodeList recs) = skiplist.applyOps mt (recs.map recOp)
  | [], mt, fuel, _, hf => by
    obtain ⟨f, rfl⟩ : ∃ f, fuel = f + 1 := ⟨fuel - 1, by omega⟩
    rfl
  | r :: rs, mt, fuel, hwf, hf => by
    obtain ⟨f, rfl⟩ : ∃ f, fuel = f + 1 := ⟨fuel - 1, by omega⟩
    rw [wal.encodeList_cons]
    have hwfr := hwf r (by simp)
    show (match wal.Next (wal.Append r ++ wal.encodeList rs) with
      | .eof => mt
      | .fail => mt
      | .ok rec rest =>
        if rec.type = wal.OpPut then replayAux f (mt.Put rec.key rec.value) rest
        else replayAux f (mt.Delete rec.key).1 rest)
      = skiplist.applyOps mt ((r :: rs).map recOp)
    rw [wal.Next_Append r hwfr (wal.encodeList rs)]
    show (if (wal.canon r).type = wal.OpPut then
        replayAux f (mt.Put (wal.canon r).key (wal.canon r).value) (wal.encodeList rs)
      else replayAux f (mt.Delete (wal.canon r).key).1 (wal.encodeList rs))
      = skiplist.applyOps mt ((r :: rs).map recOp)
    rw [List.map_cons, skiplist.applyOps_cons]
    by_cases ht : r.type = wal.OpPut
    · rw [if_pos (by rw [canon_type]; exact ht)]
      have hcanon : wal.canon r = r := by
        unfold wal.canon
        rw [if_pos ht]
      rw [hcanon]
      rw [show recOp r = .put r.key r.value from by unfold recOp; rw [if_pos ht]]
      rw [show skiplist.applyOp mt (.put r.key r.value) = mt.Put r.key r.value from rfl]
      exact replayAux_encode rs (mt.Put r.key r.value) f
        (fun q hq => hwf q (by simp [hq]))
        (by simp only [List.length_cons] at hf; omega)
    · rw [if_neg (by rw [canon_type]; exact ht)]
      rw [canon_key]
      rw [show recOp r = .del r.key from by unfold recOp; rw [if_neg ht]]
      rw [show skiplist.applyOp mt (.del r.key) = (mt.Delete r.key).1 from rfl]
      exact replayAux_encode rs (mt.Delete r.key).1 f
        (fun q hq => hwf q (by simp [hq]))
        (by simp only [List.length_cons] at hf; omega)

/-- C4: `Open` replays a prior WAL fully into the fresh memtable in file
order — Put records as overwrites, Delete records as removals — so the
reopened engine's reads reflect exactly the records' net effect; a missing
WAL file is the normal empty case. -/
theorem claim_C4 (recs : List wal.Record) (hwf : ∀ r ∈ recs, wal.WF r)
    (opts : Options) (coins : List Bool) (key : List Nat) :
    Get (Open opts (some (wal.encodeList recs)) coins) key
      = skiplist.netLookup (recs.map recOp) key
    ∧ Get (Open opts none coins) key = none := by
  constructor
  · show (replayAux ((wal.encodeList recs).length + 1) (skiplist.New coins)
      (wal.encodeList recs)).Get key = _
    rw [replayAux_encode recs (skiplist.New coins) _ hwf
      (by have := encodeList_length_ge recs; omega)]
    obtain ⟨hinv, hlook⟩ := skiplist.applyOps_spec (recs.map recOp) (skiplist.New coins)
      (skiplist.New_inv coins)
    rw [skiplist.Get_spec hinv key, hlook key, skiplist.toList_New]
    rfl
  · show (skiplist.New coins).Get key = none
    rw [skiplist.Get_spec (skiplist.New_inv coins) key, skiplist.toList_New]
    rfl

end lsm

namespace lsm

theorem claim_C4_witness :
    (∀ r ∈ ([⟨1, [1], [10]⟩, ⟨1, [2], [20]⟩, ⟨1, [3], [30]⟩, ⟨2, [2], []⟩] :
        List wal.Record), wal.WF r)
    ∧ (Get (Open ⟨0⟩ (some (wal.encodeList [⟨1, [1], [10]⟩, ⟨1, [2], [20]⟩,
          ⟨1, [3], [30]⟩, ⟨2, [2], []⟩])) [true, false]) [2]
        = skiplist.netLookup (([⟨1, [1], [10]⟩, ⟨1, [2], [20]⟩, ⟨1, [3], [30]⟩,
            ⟨2, [2], []⟩] : List wal.Record).map recOp) [2]
      ∧ Get (Open ⟨0⟩ none [true, false]) [2] = none)
    ∧ skiplist.netLookup (([⟨1, [1], [10]⟩, ⟨1, [2], [20]⟩, ⟨1, [3], [30]⟩,
        ⟨2, [2], []⟩] : List wal.Record).map recOp) [2] = none
    ∧ skiplist.netLookup (([⟨1, [1], [10]⟩, ⟨1, [2], [20]⟩, ⟨1, [3], [30]⟩,
        ⟨2, [2], []⟩] : List wal.Record).map recOp) [3] = some [30] := by
  refine ⟨?_, claim_C4 _ ?_ ⟨0⟩ [true, false] [2], ?_, ?_⟩
  · decide
  · decide
  · decide
  · decide

end lsm
